import Mathlib

/-!
Verification of the git-jade repository (a minimal content-addressed version
control engine written in Rust) against its natural-language specification.

The Rust sources are shallowly embedded: byte strings and Rust str values are
modelled as lists of characters (`Str`), the object database directory as a
function from storage keys to optional file contents, and each Rust function
as an executable Lean definition mirroring the source control flow.
-/

set_option maxHeartbeats 1000000
set_option maxRecDepth 10000

namespace GitJade

/-- Rust strings and byte buffers are modelled as lists of characters. -/
abbrev Str := List Char

/-- Convert a Lean string literal into the character-list model. -/
def strOf (s : String) : Str := s.data

/-- Rust char::is_ascii_digit. -/
def isDigitCh (c : Char) : Bool := 48 ≤ c.toNat && c.toNat ≤ 57

/-- Rust char::is_ascii_hexdigit: 0-9, a-f, A-F. -/
def isHexCh (c : Char) : Bool :=
  isDigitCh c || (97 ≤ c.toNat && c.toNat ≤ 102) || (65 ≤ c.toNat && c.toNat ≤ 70)

/-- Whitespace as used by Rust str::trim and trim_end: the Unicode
White_Space property char::is_whitespace tests. -/
def isWsCh (c : Char) : Bool :=
  (9 ≤ c.toNat && c.toNat ≤ 13) || c.toNat = 32 || c.toNat = 133 ||
    c.toNat = 160 || c.toNat = 5760 || (8192 ≤ c.toNat && c.toNat ≤ 8202) ||
    c.toNat = 8232 || c.toNat = 8233 || c.toNat = 8239 || c.toNat = 8287 ||
    c.toNat = 12288

/-- Length in bytes of the UTF-8 encoding of one character; Rust str::len
sums these. -/
def chBytes (c : Char) : Nat :=
  if c.toNat < 128 then 1 else if c.toNat < 2048 then 2
  else if c.toNat < 65536 then 3 else 4

/-- Rust str::len: the byte length of the UTF-8 encoding. -/
def strBytes (l : Str) : Nat := (l.map chBytes).sum

theorem strBytes_append (a b : Str) : strBytes (a ++ b) = strBytes a + strBytes b := by
  simp [strBytes]

theorem chBytes_pos (c : Char) : 0 < chBytes c := by
  unfold chBytes
  split <;> [simp; skip]
  split <;> [simp; skip]
  split <;> simp

theorem strBytes_eq_length_of_ascii (l : Str) (h : ∀ c ∈ l, c.toNat < 128) :
    strBytes l = l.length := by
  induction l with
  | nil => rfl
  | cons c cs ih =>
    have hc : chBytes c = 1 := by
      unfold chBytes
      rw [if_pos (h c (List.mem_cons_self c cs))]
    simp only [strBytes, List.map_cons, List.sum_cons] at *
    rw [hc, ih fun x hx => h x (List.mem_cons_of_mem c hx), List.length_cons]
    omega

/-- Auxiliary worker for splitting at a separator character. -/
def splitChAux (c : Char) : Str → Str × List Str
  | [] => ([], [])
  | x :: xs =>
    let p := splitChAux c xs
    if x = c then ([], p.1 :: p.2) else (x :: p.1, p.2)

/-- Rust str::split on a single separator character: always returns at least
one (possibly empty) part. -/
def splitCh (c : Char) (l : Str) : List Str :=
  (splitChAux c l).1 :: (splitChAux c l).2

theorem splitCh_ne_nil (c : Char) (l : Str) : splitCh c l ≠ [] := by
  simp [splitCh]

theorem splitCh_nil (c : Char) : splitCh c [] = [[]] := rfl

theorem splitChAux_cons_sep (c : Char) (xs : Str) :
    splitChAux c (c :: xs) = ([], (splitChAux c xs).1 :: (splitChAux c xs).2) := by
  simp [splitChAux]

theorem splitChAux_cons_ne (c x : Char) (xs : Str) (h : x ≠ c) :
    splitChAux c (x :: xs) = (x :: (splitChAux c xs).1, (splitChAux c xs).2) := by
  simp [splitChAux, h]

theorem splitCh_cons_sep (c : Char) (xs : Str) :
    splitCh c (c :: xs) = [] :: splitCh c xs := by
  simp [splitCh, splitChAux_cons_sep]

theorem splitCh_cons_ne (c x : Char) (xs : Str) (h : x ≠ c) :
    splitCh c (x :: xs) =
      (x :: (splitCh c xs).headI) :: (splitCh c xs).tail := by
  simp [splitCh, splitChAux_cons_ne c x xs h, List.headI]

theorem splitCh_of_not_mem (c : Char) (l : Str) (h : c ∉ l) : splitCh c l = [l] := by
  induction l with
  | nil => rfl
  | cons x xs ih =>
    have hx : x ≠ c := fun he => h (he ▸ List.mem_cons_self x xs)
    have hxs : c ∉ xs := fun hm => h (List.mem_cons_of_mem x hm)
    rw [splitCh_cons_ne c x xs hx, ih hxs]
    rfl

theorem splitCh_append_sep (c : Char) (a rest : Str) (ha : c ∉ a) :
    splitCh c (a ++ c :: rest) = a :: splitCh c rest := by
  induction a with
  | nil => simpa using splitCh_cons_sep c rest
  | cons x xs ih =>
    have hx : x ≠ c := fun he => ha (he ▸ List.mem_cons_self x xs)
    have hxs : c ∉ xs := fun hm => ha (List.mem_cons_of_mem x hm)
    rw [List.cons_append, splitCh_cons_ne c x _ hx, ih hxs]
    cases hsp : splitCh c (xs ++ c :: rest) with
    | nil => exact absurd hsp (splitCh_ne_nil c _)
    | cons y ys =>
      rw [ih hxs] at hsp
      cases hsp
      rfl

/-- Join parts with a separator character (Rust Vec::join and Path::join). -/
def joinSep (c : Char) : List Str → Str
  | [] => []
  | [x] => x
  | x :: xs => x ++ c :: joinSep c xs

theorem joinSep_cons_cons (c : Char) (x y : Str) (xs : List Str) :
    joinSep c (x :: y :: xs) = x ++ c :: joinSep c (y :: xs) := rfl

theorem splitCh_joinSep (c : Char) (ls : List Str) (hls : ls ≠ [])
    (h : ∀ s ∈ ls, c ∉ s) : splitCh c (joinSep c ls) = ls := by
  induction ls with
  | nil => exact absurd rfl hls
  | cons x xs ih =>
    cases xs with
    | nil => exact splitCh_of_not_mem c x (h x (List.mem_cons_self x []))
    | cons y ys =>
      rw [joinSep_cons_cons, splitCh_append_sep c x _ (h x (List.mem_cons_self _ _))]
      rw [ih (by simp) fun s hs => h s (List.mem_cons_of_mem x hs)]

/-- Rust str::split_once: split at the first occurrence of the separator. -/
def splitOnce (c : Char) : Str → Option (Str × Str)
  | [] => none
  | x :: xs =>
    if x = c then some ([], xs)
    else (splitOnce c xs).map fun p => (x :: p.1, p.2)

theorem splitOnce_append (c : Char) (a b : Str) (ha : c ∉ a) :
    splitOnce c (a ++ c :: b) = some (a, b) := by
  induction a with
  | nil => simp [splitOnce]
  | cons x xs ih =>
    have hx : x ≠ c := fun he => ha (he ▸ List.mem_cons_self x xs)
    have hxs : c ∉ xs := fun hm => ha (List.mem_cons_of_mem x hm)
    simp [splitOnce, hx, ih hxs]

theorem splitOnce_of_not_mem (c : Char) (l : Str) (h : c ∉ l) :
    splitOnce c l = none := by
  induction l with
  | nil => rfl
  | cons x xs ih =>
    have hx : x ≠ c := fun he => h (he ▸ List.mem_cons_self x xs)
    simp [splitOnce, hx, ih fun hm => h (List.mem_cons_of_mem x hm)]

/-- Rust str::strip_prefix. -/
def stripPre : Str → Str → Option Str
  | [], l => some l
  | _ :: _, [] => none
  | p :: ps, x :: xs => if p = x then stripPre ps xs else none

theorem stripPre_append (p r : Str) : stripPre p (p ++ r) = some r := by
  induction p with
  | nil => rfl
  | cons x xs ih => simp [stripPre, ih]

theorem stripPre_eq_some (p l r : Str) (h : stripPre p l = some r) : l = p ++ r := by
  induction p generalizing l with
  | nil =>
    have : l = r := by simpa [stripPre] using h
    simp [this]
  | cons x xs ih =>
    cases l with
    | nil => simp [stripPre] at h
    | cons y ys =>
      by_cases hxy : x = y
      · subst hxy
        simp only [stripPre, if_pos rfl] at h
        simp [ih ys h]
      · simp [stripPre, hxy] at h

/-- Drop leading whitespace, Rust str::trim_start. -/
def trimStart (l : Str) : Str := l.dropWhile isWsCh

/-- Drop trailing whitespace, Rust str::trim_end. -/
def trimEnd (l : Str) : Str := (l.reverse.dropWhile isWsCh).reverse

/-- Rust str::trim. -/
def trimBoth (l : Str) : Str := trimEnd (trimStart l)

theorem trimEnd_append_ws (m : Str) (c : Char) (hc : isWsCh c = true) :
    trimEnd (m ++ [c]) = trimEnd m := by
  simp [trimEnd, List.dropWhile, hc]

theorem trimEnd_of_no_trail (m : Str)
    (h : ∀ c, m.getLast? = some c → isWsCh c = false) : trimEnd m = m := by
  unfold trimEnd
  cases hr : m.reverse with
  | nil =>
    rw [List.reverse_eq_nil_iff] at hr
    simp [hr, List.dropWhile]
  | cons c cs =>
    have hlast : m.getLast? = some c := by
      rw [← List.head?_reverse, hr]
      rfl
    rw [List.dropWhile_cons_of_neg (by simp [h c hlast]), ← hr, List.reverse_reverse]

theorem mem_of_getLast?_eq (m : Str) (c : Char) (h : m.getLast? = some c) : c ∈ m := by
  rcases List.mem_getLast?_eq_getLast (l := m) (x := c) h with ⟨hne, he⟩
  exact he ▸ List.getLast_mem hne

theorem trimBoth_of_no_ws (m : Str) (h : ∀ c ∈ m, isWsCh c = false) :
    trimBoth m = m := by
  unfold trimBoth trimStart
  rw [List.dropWhile_eq_self_iff.mpr ?hs]
  · exact trimEnd_of_no_trail m fun c hc => h c (mem_of_getLast?_eq m c hc)
  case hs =>
    intro hne
    cases m with
    | nil => simp at hne
    | cons x xs => simp [h x (List.mem_cons_self x xs)]

/-- Replace every backslash by a forward slash (the first step of the
repository's path normalization). -/
def replaceBS (l : Str) : Str := l.map fun c => if c = '\\' then '/' else c

/-- Decimal digit rendering helper with explicit fuel (the fuel is always
sufficient because a positive number has at most as many digits as its value). -/
def natDigitsAux : Nat → Nat → Str
  | 0, _ => []
  | fuel + 1, n => if n = 0 then [] else natDigitsAux fuel (n / 10) ++ [Nat.digitChar (n % 10)]

/-- Decimal rendering of a natural number, as produced by Rust formatting. -/
def natStr (n : Nat) : Str := if n = 0 then ['0'] else natDigitsAux n n

/-- Folding worker for decimal parsing. -/
def parseNatCore : Nat → Str → Option Nat
  | acc, [] => some acc
  | acc, c :: cs => if isDigitCh c then parseNatCore (10 * acc + (c.toNat - 48)) cs else none

/-- Rust usize::from_str: optional leading plus sign, then one or more ASCII
digits (overflow is not modelled; the sizes that arise here are small). -/
def parseNat : Str → Option Nat
  | [] => none
  | c :: cs =>
    if c = '+' then (if cs = [] then none else parseNatCore 0 cs)
    else parseNatCore 0 (c :: cs)

theorem parseNatCore_append (acc : Nat) (a b : Str) :
    parseNatCore acc (a ++ b) = (parseNatCore acc a).bind fun m => parseNatCore m b := by
  induction a generalizing acc with
  | nil => rfl
  | cons c cs ih =>
    by_cases hc : isDigitCh c
    · simp [parseNatCore, hc, ih]
    · simp [parseNatCore, hc]

theorem digitChar_isDigit (d : Nat) (h : d < 10) : isDigitCh (Nat.digitChar d) = true := by
  interval_cases d <;> decide

theorem digitChar_toNat (d : Nat) (h : d < 10) : (Nat.digitChar d).toNat - 48 = d := by
  interval_cases d <;> decide

theorem natDigitsAux_all_digit (fuel n : Nat) :
    ∀ c ∈ natDigitsAux fuel n, isDigitCh c = true := by
  induction fuel generalizing n with
  | zero => intro c hc; simp [natDigitsAux] at hc
  | succ f ih =>
    intro c hc
    unfold natDigitsAux at hc
    by_cases hn : n = 0
    · simp [hn] at hc
    · rw [if_neg hn] at hc
      rcases List.mem_append.mp hc with h1 | h2
      · exact ih (n / 10) c h1
      · have : c = Nat.digitChar (n % 10) := by simpa using h2
        rw [this]
        exact digitChar_isDigit _ (Nat.mod_lt n (by norm_num))

theorem parseNatCore_natDigitsAux (fuel n acc : Nat) (h : n ≤ fuel) :
    parseNatCore acc (natDigitsAux fuel n) =
      some (acc * 10 ^ (natDigitsAux fuel n).length + n) := by
  induction fuel generalizing n acc with
  | zero =>
    have : n = 0 := Nat.le_zero.mp h
    simp [this, natDigitsAux, parseNatCore]
  | succ f ih =>
    unfold natDigitsAux
    by_cases hn : n = 0
    · simp [hn, parseNatCore]
    · rw [if_neg hn]
      have hdiv : n / 10 ≤ f := by
        have h1 : n / 10 < n := Nat.div_lt_self (Nat.pos_of_ne_zero hn) (by norm_num)
        omega
      rw [parseNatCore_append, ih (n / 10) acc hdiv]
      have hlt : n % 10 < 10 := Nat.mod_lt n (by norm_num)
      simp only [Option.some_bind, parseNatCore, digitChar_isDigit _ hlt, if_true,
        digitChar_toNat _ hlt, List.length_append, List.length_cons, List.length_nil]
      congr 1
      calc 10 * (acc * 10 ^ (natDigitsAux f (n / 10)).length + n / 10) + n % 10
          = acc * 10 ^ ((natDigitsAux f (n / 10)).length + (0 + 1)) +
              (10 * (n / 10) + n % 10) := by ring
        _ = acc * 10 ^ ((natDigitsAux f (n / 10)).length + (0 + 1)) + n := by
              rw [Nat.div_add_mod n 10]

theorem parseNat_cons_ne_plus (c : Char) (cs : Str) (h : c ≠ '+') :
    parseNat (c :: cs) = parseNatCore 0 (c :: cs) := by
  simp [parseNat, h]

theorem parseNat_natStr (n : Nat) : parseNat (natStr n) = some n := by
  unfold natStr
  by_cases hn : n = 0
  · subst hn
    decide
  · rw [if_neg hn]
    have hne : natDigitsAux n n ≠ [] := by
      cases n with
      | zero => exact absurd rfl hn
      | succ m =>
        show (if m + 1 = 0 then ([] : Str)
          else natDigitsAux m ((m + 1) / 10) ++ [Nat.digitChar ((m + 1) % 10)]) ≠ []
        rw [if_neg hn]
        simp
    cases hd : natDigitsAux n n with
    | nil => exact absurd hd hne
    | cons c cs =>
      have hcdig : isDigitCh c = true := by
        apply natDigitsAux_all_digit n n
        rw [hd]
        exact List.mem_cons_self c cs
      have hcplus : c ≠ '+' := by
        intro he
        rw [he] at hcdig
        simp [isDigitCh] at hcdig
      have h2 : parseNatCore 0 (natDigitsAux n n) = some n := by
        have h3 := parseNatCore_natDigitsAux n n 0 (le_refl n)
        simpa using h3
      rw [hd] at h2
      rw [parseNat_cons_ne_plus c cs hcplus]
      exact h2

theorem natStr_all_digit (n : Nat) : ∀ c ∈ natStr n, isDigitCh c = true := by
  unfold natStr
  by_cases hn : n = 0
  · simp [hn]
    decide
  · rw [if_neg hn]
    exact natDigitsAux_all_digit n n

theorem digit_toNat_lt (c : Char) (h : isDigitCh c = true) : 48 ≤ c.toNat ∧ c.toNat ≤ 57 := by
  simp only [isDigitCh, Bool.and_eq_true, decide_eq_true_eq] at h
  exact h

theorem natStr_no_ctl (n : Nat) :
    ∀ c ∈ natStr n, c ≠ '\n' ∧ c ≠ (Char.ofNat 0) ∧ c ≠ ' ' ∧ c ≠ '/' ∧ isWsCh c = false := by
  intro c hc
  have hd := digit_toNat_lt c (natStr_all_digit n c hc)
  refine ⟨?_, ?_, ?_, ?_, ?_⟩ <;> first
    | (intro he; rw [he] at hd; revert hd; decide)
    | (simp only [isWsCh, Bool.or_eq_false_iff, Bool.and_eq_false_iff,
        decide_eq_false_iff_not]
       omega)

/-- Boolean prefix test on lists. -/
def isPre {α : Type} [DecidableEq α] : List α → List α → Bool
  | [], _ => true
  | _ :: _, [] => false
  | a :: as, b :: bs => a = b && isPre as bs

theorem isPre_append {α : Type} [DecidableEq α] (x r : List α) : isPre x (x ++ r) = true := by
  induction x with
  | nil => rfl
  | cons a as ih => simp [isPre, ih]

theorem isPre_eq_append {α : Type} [DecidableEq α] (x y : List α) (h : isPre x y = true) :
    ∃ r, y = x ++ r := by
  induction x generalizing y with
  | nil => exact ⟨y, rfl⟩
  | cons a as ih =>
    cases y with
    | nil => simp [isPre] at h
    | cons b bs =>
      simp only [isPre, Bool.and_eq_true, decide_eq_true_eq] at h
      rcases ih bs h.2 with ⟨r, hr⟩
      exact ⟨r, by simp [h.1, hr]⟩

/-- Generic strict lexicographic order on lists given a strict order on the
elements; this is how Rust Ord compares String and path-component values. -/
def lexLt {α : Type} [DecidableEq α] (lt : α → α → Bool) : List α → List α → Bool
  | _, [] => false
  | [], _ :: _ => true
  | a :: as, b :: bs => lt a b || (a = b && lexLt lt as bs)

theorem lexLt_nil_cons {α : Type} [DecidableEq α] (lt : α → α → Bool) (b : α) (bs : List α) :
    lexLt lt [] (b :: bs) = true := rfl

theorem lexLt_nil_right {α : Type} [DecidableEq α] (lt : α → α → Bool) (x : List α) :
    lexLt lt x [] = false := by
  cases x <;> rfl

theorem lexLt_cons_iff {α : Type} [DecidableEq α] (lt : α → α → Bool) (a b : α)
    (as bs : List α) :
    lexLt lt (a :: as) (b :: bs) = true ↔
      lt a b = true ∨ (a = b ∧ lexLt lt as bs = true) := by
  simp [lexLt]

theorem lexLt_irrefl {α : Type} [DecidableEq α] (lt : α → α → Bool)
    (hIrr : ∀ a, lt a a = false) : ∀ l, lexLt lt l l = false := by
  intro l
  induction l with
  | nil => rfl
  | cons a as ih => simp [lexLt, hIrr a, ih]

theorem lexLt_trans {α : Type} [DecidableEq α] (lt : α → α → Bool)
    (hIrr : ∀ a, lt a a = false)
    (hTrans : ∀ a b c, lt a b = true → lt b c = true → lt a c = true) :
    ∀ x y z : List α, lexLt lt x y = true → lexLt lt y z = true → lexLt lt x z = true := by
  intro x
  induction x with
  | nil =>
    intro y z h1 h2
    cases z with
    | nil => rw [lexLt_nil_right] at h2; exact absurd h2 (by simp)
    | cons c cs => rfl
  | cons a as ih =>
    intro y z h1 h2
    cases y with
    | nil => rw [lexLt_nil_right] at h1; exact absurd h1 (by simp)
    | cons b bs =>
      cases z with
      | nil => rw [lexLt_nil_right] at h2; exact absurd h2 (by simp)
      | cons c cs =>
        rw [lexLt_cons_iff] at h1 h2 ⊢
        rcases h1 with h1 | ⟨h1e, h1r⟩
        · rcases h2 with h2 | ⟨h2e, h2r⟩
          · exact Or.inl (hTrans a b c h1 h2)
          · exact Or.inl (h2e ▸ h1)
        · rcases h2 with h2 | ⟨h2e, h2r⟩
          · exact Or.inl (h1e ▸ h2)
          · exact Or.inr ⟨h1e.trans h2e, ih bs cs h1r h2r⟩

theorem lexLt_asymm {α : Type} [DecidableEq α] (lt : α → α → Bool)
    (hIrr : ∀ a, lt a a = false)
    (hTrans : ∀ a b c, lt a b = true → lt b c = true → lt a c = true)
    (x y : List α) (h : lexLt lt x y = true) : lexLt lt y x = false := by
  by_contra hc
  have hyx : lexLt lt y x = true := by
    cases hxy : lexLt lt y x
    · exact absurd hxy hc
    · rfl
  have := lexLt_trans lt hIrr hTrans x y x h hyx
  rw [lexLt_irrefl lt hIrr] at this
  exact absurd this (by simp)

theorem lexLt_total {α : Type} [DecidableEq α] (lt : α → α → Bool)
    (hTot : ∀ a b : α, a ≠ b → lt a b = true ∨ lt b a = true) :
    ∀ x y : List α, x ≠ y → lexLt lt x y = true ∨ lexLt lt y x = true := by
  intro x
  induction x with
  | nil =>
    intro y hne
    cases y with
    | nil => exact absurd rfl hne
    | cons b bs => exact Or.inl rfl
  | cons a as ih =>
    intro y hne
    cases y with
    | nil => exact Or.inr rfl
    | cons b bs =>
      by_cases hab : a = b
      · subst hab
        have hbs : as ≠ bs := fun he => hne (by rw [he])
        rcases ih bs hbs with h | h
        · exact Or.inl (by rw [lexLt_cons_iff]; exact Or.inr ⟨rfl, h⟩)
        · exact Or.inr (by rw [lexLt_cons_iff]; exact Or.inr ⟨rfl, h⟩)
      · rcases hTot a b hab with h | h
        · exact Or.inl (by rw [lexLt_cons_iff]; exact Or.inl h)
        · exact Or.inr (by rw [lexLt_cons_iff]; exact Or.inl h)

theorem lexLt_append {α : Type} [DecidableEq α] (lt : α → α → Bool)
    (x r : List α) (hr : r ≠ []) : lexLt lt x (x ++ r) = true := by
  induction x with
  | nil =>
    cases r with
    | nil => exact absurd rfl hr
    | cons c cs => rfl
  | cons a as ih =>
    rw [List.cons_append, lexLt_cons_iff]
    exact Or.inr ⟨rfl, ih⟩

theorem lexLt_of_isPre_ne {α : Type} [DecidableEq α] (lt : α → α → Bool)
    (x y : List α) (h : isPre x y = true) (hne : x ≠ y) : lexLt lt x y = true := by
  rcases isPre_eq_append x y h with ⟨r, hr⟩
  subst hr
  cases r with
  | nil => exact absurd (by simp) hne
  | cons c cs => exact lexLt_append lt x (c :: cs) (by simp)

/-- Strict order on characters by Unicode scalar value (Rust char and byte
order coincide with this on UTF-8 strings). -/
def charLt (a b : Char) : Bool := a.toNat < b.toNat

theorem charLt_irrefl (a : Char) : charLt a a = false := by simp [charLt]

theorem charLt_trans (a b c : Char) (h1 : charLt a b = true) (h2 : charLt b c = true) :
    charLt a c = true := by
  simp only [charLt, decide_eq_true_eq] at *
  omega

theorem charLt_total (a b : Char) (h : a ≠ b) : charLt a b = true ∨ charLt b a = true := by
  have hne : a.toNat ≠ b.toNat := by
    intro he
    exact h (Char.eq_of_val_eq (UInt32.eq_of_toBitVec_eq (BitVec.eq_of_toNat_eq he)))
  simp only [charLt, decide_eq_true_eq]
  omega

/-- Rust Ord on String values: lexicographic by character. -/
def strLt (a b : Str) : Bool := lexLt charLt a b

theorem strLt_irrefl (a : Str) : strLt a a = false := lexLt_irrefl charLt charLt_irrefl a

theorem strLt_trans (a b c : Str) (h1 : strLt a b = true) (h2 : strLt b c = true) :
    strLt a c = true := lexLt_trans charLt charLt_irrefl charLt_trans a b c h1 h2

theorem strLt_asymm (a b : Str) (h : strLt a b = true) : strLt b a = false :=
  lexLt_asymm charLt charLt_irrefl charLt_trans a b h

theorem strLt_total (a b : Str) (h : a ≠ b) : strLt a b = true ∨ strLt b a = true :=
  lexLt_total charLt charLt_total a b h

/-- Lexicographic order on lists of path components, matching the order in
which the index tree enumerates full paths. -/
def compsLt (a b : List Str) : Bool := lexLt strLt a b

theorem compsLt_irrefl (a : List Str) : compsLt a a = false :=
  lexLt_irrefl strLt strLt_irrefl a

theorem compsLt_trans (a b c : List Str) (h1 : compsLt a b = true)
    (h2 : compsLt b c = true) : compsLt a c = true :=
  lexLt_trans strLt strLt_irrefl strLt_trans a b c h1 h2

theorem compsLt_asymm (a b : List Str) (h : compsLt a b = true) : compsLt b a = false :=
  lexLt_asymm strLt strLt_irrefl strLt_trans a b h

theorem compsLt_total (a b : List Str) (h : a ≠ b) :
    compsLt a b = true ∨ compsLt b a = true :=
  lexLt_total strLt strLt_total a b h

/-- Reduction modulo 2 to the 32, the word size of SHA-1 arithmetic. -/
def w32 (n : Nat) : Nat := n % 4294967296

/-- Left rotation of a 32-bit word. -/
def rotl (k x : Nat) : Nat := (x * 2 ^ k) % 4294967296 + x / 2 ^ (32 - k)

/-- Big-endian byte rendering of a number into k bytes. -/
def beBytes (k n : Nat) : List Nat :=
  (List.range k).map fun i => n / 2 ^ (8 * (k - 1 - i)) % 256

/-- Big-endian word from a list of bytes. -/
def beFromBytes (bs : List Nat) : Nat := bs.foldl (fun acc b => acc * 256 + b) 0

/-- SHA-1 message padding: append 0x80, zero bytes up to 56 mod 64, then the
bit length as an 8-byte big-endian number. -/
def sha1Pad (msg : List Nat) : List Nat :=
  msg ++ [128] ++ List.replicate ((119 - msg.length % 64) % 64) 0 ++
    beBytes 8 (8 * msg.length)

/-- Split into 64-byte blocks; the fuel argument (instantiated with the list
length) makes the recursion structural. -/
def toBlocksF : Nat → List Nat → List (List Nat)
  | 0, _ => []
  | f + 1, l => if l = [] then [] else l.take 64 :: toBlocksF f (l.drop 64)

/-- Message-schedule extension from 16 to 80 words. -/
def sha1Extend (ws : List Nat) : List Nat :=
  (List.range 64).foldl
    (fun w _ =>
      w ++ [rotl 1 ((w.getD (w.length - 3) 0 ^^^ w.getD (w.length - 8) 0) ^^^
        (w.getD (w.length - 14) 0 ^^^ w.getD (w.length - 16) 0))])
    ws

/-- One SHA-1 compression round. -/
def sha1Round (st : Nat × Nat × Nat × Nat × Nat) (iw : Nat × Nat) :
    Nat × Nat × Nat × Nat × Nat :=
  let a := st.1
  let b := st.2.1
  let c := st.2.2.1
  let d := st.2.2.2.1
  let e := st.2.2.2.2
  let i := iw.1
  let wi := iw.2
  let f :=
    if i < 20 then (b &&& c) ||| ((4294967295 - b) &&& d)
    else if i < 40 then (b ^^^ c) ^^^ d
    else if i < 60 then ((b &&& c) ||| (b &&& d)) ||| (c &&& d)
    else (b ^^^ c) ^^^ d
  let k :=
    if i < 20 then 1518500249
    else if i < 40 then 1859775393
    else if i < 60 then 2400959708
    else 3395469782
  let temp := w32 (rotl 5 a + f + e + k + wi)
  (temp, a, rotl 30 b, c, d)

/-- Process one 64-byte block. -/
def sha1Block (st : Nat × Nat × Nat × Nat × Nat) (block : List Nat) :
    Nat × Nat × Nat × Nat × Nat :=
  let ws0 := (List.range 16).map fun i => beFromBytes ((block.drop (4 * i)).take 4)
  let ws := sha1Extend ws0
  let r := (((List.range 80).map fun i => (i, ws.getD i 0)).foldl sha1Round st)
  (w32 (st.1 + r.1), w32 (st.2.1 + r.2.1), w32 (st.2.2.1 + r.2.2.1),
    w32 (st.2.2.2.1 + r.2.2.2.1), w32 (st.2.2.2.2 + r.2.2.2.2))

/-- SHA-1 digest (20 bytes) of a byte list, as computed by the sha1 crate the
repository uses. -/
def sha1Bytes (msg : List Nat) : List Nat :=
  let padded := sha1Pad msg
  let st := (toBlocksF padded.length padded).foldl sha1Block
    (1732584193, 4023233417, 2562383102, 271733878, 3285377520)
  beBytes 4 st.1 ++ beBytes 4 st.2.1 ++ beBytes 4 st.2.2.1 ++
    beBytes 4 st.2.2.2.1 ++ beBytes 4 st.2.2.2.2

/-- Lowercase hexadecimal rendering of bytes, Rust hex::encode. -/
def hexOfBytes (bs : List Nat) : Str :=
  bs.flatMap fun b => [Nat.digitChar (b / 16 % 16), Nat.digitChar (b % 16)]

/-- UTF-8 encoding of one character. -/
def utf8Ch (c : Char) : List Nat :=
  let n := c.toNat
  if n < 128 then [n]
  else if n < 2048 then [192 + n / 64, 128 + n % 64]
  else if n < 65536 then [224 + n / 4096, 128 + n / 64 % 64, 128 + n % 64]
  else [240 + n / 262144, 128 + n / 4096 % 64, 128 + n / 64 % 64, 128 + n % 64]

/-- UTF-8 encoding of a modelled string, i.e. the bytes Rust hands to the
hasher. -/
def utf8Bytes (l : Str) : List Nat := l.flatMap utf8Ch

/-- Digest of a byte string rendered as 40 lowercase hex characters; this is
Object::encoded_sha1 applied to already-serialized bytes. -/
def sha1Hex (msg : Str) : Str := hexOfBytes (sha1Bytes (utf8Bytes msg))

theorem beBytes_length (k n : Nat) : (beBytes k n).length = k := by
  simp [beBytes]

theorem sha1Bytes_length (msg : List Nat) : (sha1Bytes msg).length = 20 := by
  unfold sha1Bytes
  simp [beBytes_length]

theorem hexOfBytes_length (bs : List Nat) : (hexOfBytes bs).length = 2 * bs.length := by
  induction bs with
  | nil => rfl
  | cons b l ih =>
    simp only [hexOfBytes, List.flatMap_cons] at *
    simp [ih]
    omega

theorem sha1Hex_length (msg : Str) : (sha1Hex msg).length = 40 := by
  unfold sha1Hex
  rw [hexOfBytes_length, sha1Bytes_length]

theorem digitChar_isHex (d : Nat) (h : d < 16) : isHexCh (Nat.digitChar d) = true := by
  interval_cases d <;> decide

theorem hexOfBytes_all_hex (bs : List Nat) : ∀ c ∈ hexOfBytes bs, isHexCh c = true := by
  intro c hc
  rw [hexOfBytes, List.mem_flatMap] at hc
  rcases hc with ⟨b, _, hcb⟩
  simp only [List.mem_cons, List.not_mem_nil, or_false] at hcb
  rcases hcb with hcb | hcb <;>
    exact hcb ▸ digitChar_isHex _ (Nat.mod_lt _ (by norm_num))

theorem sha1Hex_all_hex (msg : Str) : ∀ c ∈ sha1Hex msg, isHexCh c = true :=
  hexOfBytes_all_hex _

theorem hex_toNat_cases (c : Char) (h : isHexCh c = true) :
    (48 ≤ c.toNat ∧ c.toNat ≤ 57) ∨ (97 ≤ c.toNat ∧ c.toNat ≤ 102) ∨
      (65 ≤ c.toNat ∧ c.toNat ≤ 70) := by
  simp only [isHexCh, isDigitCh, Bool.or_eq_true, Bool.and_eq_true,
    decide_eq_true_eq] at h
  tauto

theorem hex_ascii (c : Char) (h : isHexCh c = true) : c.toNat < 128 := by
  rcases hex_toNat_cases c h with h1 | h1 | h1 <;> omega

theorem hex_no_ctl (c : Char) (h : isHexCh c = true) :
    c ≠ '\n' ∧ c ≠ (Char.ofNat 0) ∧ c ≠ ' ' ∧ c ≠ '/' ∧ c ≠ '\\' ∧ isWsCh c = false := by
  have hd := hex_toNat_cases c h
  refine ⟨?_, ?_, ?_, ?_, ?_, by
    simp only [isWsCh, Bool.or_eq_false_iff, Bool.and_eq_false_iff,
      decide_eq_false_iff_not]
    omega⟩ <;>
    (intro he; rw [he] at hd; revert hd; decide)

/-- Split at the last occurrence of the separator (one step of Rust
str::rsplitn). -/
def rsplitOnce (c : Char) (l : Str) : Option (Str × Str) :=
  match splitOnce c l.reverse with
  | none => none
  | some p => some (p.2.reverse, p.1.reverse)

/-- Rust str::split_once with a multi-character pattern. -/
def splitOnceSub (pat : Str) : Str → Option (Str × Str)
  | [] => if pat = [] then some ([], []) else none
  | x :: xs =>
    match stripPre pat (x :: xs) with
    | some rest => some ([], rest)
    | none => (splitOnceSub pat xs).map fun p => (x :: p.1, p.2)

/-- Rust str::strip_suffix for a single character. -/
def stripSuf (c : Char) (l : Str) : Option Str :=
  match l.reverse with
  | [] => none
  | x :: xs => if x = c then some xs.reverse else none

/-- A digest value: the EncodedSha newtype wraps the rendered string. -/
abbrev EncodedSha := Str

/-- EncodedSha::from_str from src/lib.rs: the only check performed is that
the byte length equals 40. -/
def encodedSha_from_str (s : Str) : Option EncodedSha :=
  if strBytes s = 40 then some s else none

/-- Blob::serialize: the header plus the raw data. -/
def blobSerialize (data : Str) : Str :=
  strOf "blob " ++ natStr (strBytes data) ++ [Char.ofNat 0] ++ data

/-- Blob::deserialize. -/
def blobDeserialize (d : Str) : Option Str :=
  match splitOnce (Char.ofNat 0) d with
  | none => none
  | some (header, contents) =>
    match splitOnce ' ' header with
    | none => none
    | some (ty, sizeStr) =>
      if ty ≠ strOf "blob" then none
      else
        match parseNat sizeStr with
        | none => none
        | some size => if strBytes contents = size then some contents else none

/-- Object kinds. -/
inductive OType where
  | blob : OType
  | tree : OType
  | commit : OType
deriving DecidableEq, Repr

/-- ObjectType::to_string. -/
def otypeStr : OType → Str
  | .blob => strOf "blob"
  | .tree => strOf "tree"
  | .commit => strOf "commit"

/-- One tree entry. -/
structure TreeEntry where
  object_type : OType
  sha1 : Str
  name : Str
deriving DecidableEq, Repr

/-- The BTreeMap of a Tree object, modelled as an association list sorted
strictly by key. -/
abbrev TreeMap := List (Str × TreeEntry)

/-- BTreeMap::insert for tree entries (sorted insert, replacing an equal
key). -/
def tmapInsert (k : Str) (e : TreeEntry) : TreeMap → TreeMap
  | [] => [(k, e)]
  | (k2, e2) :: rest =>
    if strLt k k2 then (k, e) :: (k2, e2) :: rest
    else if k = k2 then (k, e) :: rest
    else (k2, e2) :: tmapInsert k e rest

/-- BTreeMap lookup for tree entries. -/
def tmapGet (k : Str) : TreeMap → Option TreeEntry
  | [] => none
  | (k2, e2) :: rest => if k = k2 then some e2 else tmapGet k rest

/-- Tree::add_entry. -/
def tree_add_entry (t : TreeMap) (ot : OType) (sha : Str) (name : Str) : TreeMap :=
  tmapInsert name ⟨ot, sha, name⟩ t

/-- Payload of a serialized tree: one line per entry in map order. -/
def treePayload (t : TreeMap) : Str :=
  (t.map fun p =>
    otypeStr p.2.object_type ++ [' '] ++ p.2.sha1 ++ [' '] ++ p.2.name ++ ['\n']).flatten

/-- Tree::serialize. -/
def treeSerialize (t : TreeMap) : Str :=
  strOf "tree " ++ natStr (strBytes (treePayload t)) ++ [Char.ofNat 0] ++ treePayload t

/-- Parse one tree entry line: kind, digest (40 hex), then the file name
which may itself contain spaces. -/
def parseTreeLine (line : Str) : Option TreeEntry :=
  match splitOnce ' ' line with
  | none => none
  | some (tyStr, rest) =>
    let ot : Option OType :=
      if tyStr = strOf "blob" then some .blob
      else if tyStr = strOf "tree" then some .tree
      else none
    match ot with
    | none => none
    | some ot =>
      match splitOnce ' ' rest with
      | none => none
      | some (sha, name) =>
        if sha.length = 40 && sha.all isHexCh then some ⟨ot, sha, name⟩ else none

/-- Tree::deserialize. -/
def treeDeserialize (d : Str) : Option TreeMap :=
  match splitOnce (Char.ofNat 0) d with
  | none => none
  | some (header, entriesStr) =>
    match splitOnce ' ' header with
    | none => none
    | some (pre, sizeStr) =>
      if pre ≠ strOf "tree" then none
      else
        match parseNat sizeStr with
        | none => none
        | some sz =>
          if strBytes entriesStr ≠ sz then none
          else
            ((splitCh '\n' entriesStr).filter (· ≠ [])).foldlM
              (fun acc line =>
                match parseTreeLine line with
                | none => none
                | some e =>
                  match tmapGet e.name acc with
                  | some _ => none
                  | none => some (tmapInsert e.name e acc))
              ([] : TreeMap)

/-- Author or committer data; the timestamp is kept in its rendered form
(seconds and timezone strings). -/
structure Author where
  name : Str
  email : Str
  secs : Str
  tz : Str
deriving DecidableEq, Repr

/-- Display for Author: name, bracketed email, seconds, timezone. -/
def authorStr (a : Author) : Str :=
  a.name ++ strOf " <" ++ a.email ++ ['>', ' '] ++ a.secs ++ [' '] ++ a.tz

/-- Validity of a seconds field for the chrono %s specifier: an optionally
negated nonempty digit string. -/
def chronoSecsOk (ts : Str) : Bool :=
  match ts with
  | [] => false
  | '-' :: r => r ≠ [] && r.all isDigitCh
  | l => l.all isDigitCh

/-- Validity of a timezone field for the chrono %z specifier: a sign and
four digits with hours below 24 and minutes below 60 (approximates the
chrono offset validation; no claim exercises its exact boundary). -/
def chronoTzOk (tz : Str) : Bool :=
  match tz with
  | [s, d1, d2, d3, d4] =>
    (s = '+' || s = '-') && [d1, d2, d3, d4].all isDigitCh &&
      (10 * (d1.toNat - 48) + (d2.toNat - 48) < 24) &&
      (10 * (d3.toNat - 48) + (d4.toNat - 48) < 60)
  | _ => false

/-- Helper parse_author from src/object.rs. -/
def parse_author (s : Str) : Option Author :=
  match rsplitOnce ' ' s with
  | none => none
  | some (before, tz) =>
    match rsplitOnce ' ' before with
    | none => none
    | some (rest, ts) =>
      if chronoSecsOk ts && chronoTzOk tz then
        match splitOnceSub (strOf " <") rest with
        | none => none
        | some (name, rest2) =>
          match stripSuf '>' rest2 with
          | none => none
          | some email => some ⟨name, email, ts, tz⟩
      else none

/-- Commit record. -/
structure Commit where
  tree_sha : Str
  parents : List Str
  author : Author
  committer : Author
  message : Str
deriving DecidableEq, Repr

/-- Display for Commit: the commit payload. -/
def commitContent (c : Commit) : Str :=
  strOf "tree " ++ c.tree_sha ++ ['\n'] ++
    (c.parents.map fun p => strOf "parent " ++ p ++ ['\n']).flatten ++
    strOf "author " ++ authorStr c.author ++ ['\n'] ++
    strOf "committer " ++ authorStr c.committer ++ ['\n'] ++ ['\n'] ++
    c.message

/-- Commit::serialize. -/
def commitSerialize (c : Commit) : Str :=
  strOf "commit " ++ natStr (strBytes (commitContent c)) ++ [Char.ofNat 0] ++
    commitContent c

/-- Rust str::lines: split at newlines, drop one trailing empty line, strip a
carriage return at the end of each line. -/
def rustLines (s : Str) : List Str :=
  let parts := splitCh '\n' s
  let parts2 := if parts.getLast? = some [] then parts.dropLast else parts
  parts2.map fun l =>
    match l.getLast? with
    | some c => if c = '\r' then l.dropLast else l
    | none => l

/-- Parser state of parse_commit_content. -/
structure PCState where
  tree : Option Str
  parents : List Str
  author : Option Author
  committer : Option Author
  message : Str
  in_message : Bool
deriving Repr

/-- One line step of parse_commit_content: note that an empty line always
takes the first branch, even inside the message. -/
def pcStep (st : PCState) (line : Str) : Option PCState :=
  if line = [] then some { st with in_message := true }
  else if st.in_message then some { st with message := st.message ++ line ++ ['\n'] }
  else
    match stripPre (strOf "tree ") line with
    | some sha => some { st with tree := some sha }
    | none =>
      match stripPre (strOf "parent ") line with
      | some p => some { st with parents := st.parents ++ [p] }
      | none =>
        match stripPre (strOf "author ") line with
        | some a =>
          match parse_author a with
          | none => none
          | some au => some { st with author := some au }
        | none =>
          match stripPre (strOf "committer ") line with
          | some a =>
            match parse_author a with
            | none => none
            | some au => some { st with committer := some au }
          | none => none

/-- Helper parse_commit_content from src/object.rs. -/
def parse_commit_content (content : Str) : Option Commit :=
  match (rustLines content).foldlM pcStep
      ⟨none, [], none, none, [], false⟩ with
  | none => none
  | some st =>
    match st.tree, st.author, st.committer with
    | some t, some a, some cm => some ⟨t, st.parents, a, cm, trimEnd st.message⟩
    | _, _, _ => none

/-- Commit::deserialize. -/
def commitDeserialize (d : Str) : Option Commit :=
  match splitOnce (Char.ofNat 0) d with
  | none => none
  | some (header, content) =>
    match splitOnce ' ' header with
    | none => none
    | some (ty, szStr) =>
      if ty ≠ strOf "commit" then none
      else
        match parseNat szStr with
        | none => none
        | some sz =>
          if strBytes content ≠ sz then none else parse_commit_content content

/-- Storage key of a digest: the two-character directory and the 38-character
file name. -/
abbrev DBKey := Str × Str

/-- The object database directory, as a map from storage keys to file
contents. -/
abbrev DB := DBKey → Option Str

/-- Path of a digest inside the object database. -/
def dbKey (sha : Str) : DBKey := (sha.take 2, sha.drop 2)

/-- ObjectDB::store applied to the serialized bytes of an object: compute
the digest and write the bytes only when the target file does not exist. -/
def db_store (db : DB) (serialized : Str) : Str × DB :=
  let sha := sha1Hex serialized
  let k := dbKey sha
  if (db k).isSome then (sha, db)
  else (sha, fun k2 => if k2 = k then some serialized else db k2)

/-- ObjectDB::retrieve. -/
def db_retrieve (db : DB) (sha : Str) : Option Str :=
  if sha.length = 40 && sha.all isHexCh then db (dbKey sha) else none

mutual
/-- A node of the index tree: a BTreeMap of children and an optional blob
digest (directories carry none, files carry one). -/
inductive TreeNode where
  | mk : NodeMap → Option Str → TreeNode
/-- The children BTreeMap, modelled as an association list sorted strictly by
key (the BTreeMap representation invariant). -/
inductive NodeMap where
  | nil : NodeMap
  | cons : Str → TreeNode → NodeMap → NodeMap
end

/-- Modelled from the spec: accessor for the children map of a node, used by
repo.rs but absent from the index.rs in the sources. -/
def TreeNode.children : TreeNode → NodeMap
  | .mk ch _ => ch

/-- Modelled from the spec: accessor for the digest of a node. -/
def TreeNode.get_sha1 : TreeNode → Option Str
  | .mk _ s => s

/-- Modelled from the spec: a node is a file when it carries a digest. -/
def TreeNode.is_file (n : TreeNode) : Bool := n.get_sha1.isSome

/-- List-style induction principle for children maps (no hypothesis about
the stored nodes). -/
theorem nmapRec {P : NodeMap → Prop} (hnil : P .nil)
    (hcons : ∀ k v rest, P rest → P (NodeMap.cons k v rest)) : ∀ m, P m
  | .nil => hnil
  | .cons k v rest => hcons k v rest (nmapRec hnil hcons rest)

/-- Full induction principle for children maps, descending both into the
child's own children and into the remaining siblings. -/
theorem nmapRecFull {P : NodeMap → Prop} (hnil : P .nil)
    (hcons : ∀ k cch csha rest, P cch → P rest →
      P (NodeMap.cons k (TreeNode.mk cch csha) rest)) : ∀ m, P m
  | .nil => hnil
  | .cons k (.mk cch csha) rest =>
    hcons k cch csha rest (nmapRecFull hnil hcons cch) (nmapRecFull hnil hcons rest)

/-- TreeNode::new_directory. -/
def newDirectory : TreeNode := .mk .nil none

/-- TreeNode::new_file. -/
def newFile (sha : Str) : TreeNode := .mk .nil (some sha)

/-- BTreeMap lookup among children. -/
def nmapGet (k : Str) : NodeMap → Option TreeNode
  | .nil => none
  | .cons k2 v rest => if k = k2 then some v else nmapGet k rest

/-- BTreeMap insert among children (sorted insert, replacing an equal key). -/
def nmapInsert (k : Str) (v : TreeNode) : NodeMap → NodeMap
  | .nil => .cons k v .nil
  | .cons k2 v2 rest =>
    if strLt k k2 then .cons k v (.cons k2 v2 rest)
    else if k = k2 then .cons k v rest
    else .cons k2 v2 (nmapInsert k v rest)

/-- BTreeMap remove among children, also returning the removed node. -/
def nmapRemoveGet (k : Str) : NodeMap → NodeMap × Option TreeNode
  | .nil => (.nil, none)
  | .cons k2 v2 rest =>
    if k = k2 then (rest, some v2)
    else
      let p := nmapRemoveGet k rest
      (.cons k2 v2 p.1, p.2)

/-- The staging index: the root node and the tracked-leaf counter. -/
structure Index where
  root : TreeNode
  size : Nat

/-- Index::new. -/
def Index.new : Index := ⟨.mk .nil none, 0⟩

/-- Index::normalize_path: replace backslashes by slashes, then keep only the
normal components of the result (this realizes the iteration over Rust
Path::components, which never yields empty, current-directory or
parent-directory components as Normal), joined by slashes. -/
def normalize_path (p : Str) : Str :=
  joinSep '/'
    ((splitCh '/' (replaceBS p)).filter fun c =>
      decide (c ≠ [] ∧ c ≠ strOf "." ∧ c ≠ strOf ".."))

/-- Index::split_path: fold over the components of a path, pushing normal
components, popping on a parent-directory component and skipping the rest. -/
def split_path (p : Str) : List Str :=
  (splitCh '/' p).foldl
    (fun acc comp =>
      if comp = strOf ".." then acc.dropLast
      else if comp = [] ∨ comp = strOf "." then acc
      else acc ++ [comp])
    []

/-- The component list every index operation works on: split_path applied to
the normalized path. -/
def splitNorm (p : Str) : List Str := split_path (normalize_path p)

/-- Worker of Index::update_entry: descend or create directories along all
but the last component, then insert the file leaf; the flag reports whether
the final insert found the name absent (size increment). -/
def updateChildren : NodeMap → List Str → Str → NodeMap × Bool
  | m, [], _ => (m, false)
  | m, [n], sha => (nmapInsert n (newFile sha) m, (nmapGet n m).isNone)
  | m, n :: rest, sha =>
    let child := (nmapGet n m).getD newDirectory
    let p := updateChildren child.children rest sha
    (nmapInsert n (.mk p.1 child.get_sha1) m, p.2)

/-- Index::update_entry. -/
def Index.update_entry (idx : Index) (p : Str) (sha : Str) : Index :=
  let comps := splitNorm p
  if comps = [] then idx
  else
    let r := updateChildren idx.root.children comps sha
    ⟨.mk r.1 idx.root.get_sha1, idx.size + (if r.2 then 1 else 0)⟩

/-- Worker of Index::remove_entry: descend along all but the last component
without creating anything, then remove whatever node carries the last
component; absence anywhere leaves the map unchanged. -/
def removeChildren : NodeMap → List Str → NodeMap × Option TreeNode
  | m, [] => (m, none)
  | m, [n] => nmapRemoveGet n m
  | m, n :: rest =>
    match nmapGet n m with
    | none => (m, none)
    | some child =>
      let p := removeChildren child.children rest
      (nmapInsert n (.mk p.1 child.get_sha1) m, p.2)

/-- Index::remove_entry: the returned digest is the removed node's sha1, and
the u64 size counter is decremented whenever any node (file or directory)
was removed; the subtraction wraps modulo 2^64 as the release-build u64
arithmetic does (a debug build panics at size 0 instead). -/
def Index.remove_entry (idx : Index) (p : Str) : Index × Option Str :=
  let comps := splitNorm p
  if comps = [] then (idx, none)
  else
    let r := removeChildren idx.root.children comps
    match r.2 with
    | none => (⟨.mk r.1 idx.root.get_sha1, idx.size⟩, none)
    | some node =>
      (⟨.mk r.1 idx.root.get_sha1, (idx.size + (2 ^ 64 - 1)) % 2 ^ 64⟩,
        node.get_sha1)

/-- Worker of Index::get_sha1. -/
def getChildren : NodeMap → List Str → Option Str
  | _, [] => none
  | m, [n] => (nmapGet n m).bind fun node => node.get_sha1
  | m, n :: rest =>
    match nmapGet n m with
    | none => none
    | some child => getChildren child.children rest

/-- Index::get_sha1. -/
def Index.get_sha1 (idx : Index) (p : Str) : Option Str :=
  let comps := splitNorm p
  if comps = [] then none else getChildren idx.root.children comps

/-- Worker of Index::collect_entries (traverse_tree): children in map order,
emitting a file child as one path and recursing into a directory child. -/
def collectChildren : NodeMap → List (List Str × Str)
  | .nil => []
  | .cons name (.mk cch csha) rest =>
    (match csha with
     | some s => [([name], s)]
     | none => (collectChildren cch).map fun p => (name :: p.1, p.2)) ++
      collectChildren rest

/-- Index::collect_entries: depth-first paths joined with slashes. -/
def Index.collect_entries (idx : Index) : List (Str × Str) :=
  (collectChildren idx.root.children).map fun p => (joinSep '/' p.1, p.2)

/-- Index::load from the contents of the index file. -/
def Index.load (content : Str) : Option Index :=
  (rustLines content).foldlM
    (fun idx line =>
      match splitOnce ' ' line with
      | none => none
      | some (p, sha) => some (idx.update_entry p sha))
    Index.new

/-- Index::save: lines of path, space, digest, joined by newlines with no
trailing newline. -/
def Index.save (idx : Index) : Str :=
  joinSep '\n' (idx.collect_entries.map fun e => e.1 ++ [' '] ++ e.2)

/-- BTreeMap representation invariant: keys strictly ascending at every
level. -/
def wfChildren : NodeMap → Bool
  | .nil => true
  | .cons n (.mk cch _) rest =>
    wfChildren cch && wfChildren rest &&
      (match rest with
       | .nil => true
       | .cons n2 _ _ => strLt n n2)

/-- A 40-character hexadecimal digest string. -/
def isHex40 (s : Str) : Bool := s.length = 40 && s.all isHexCh

/-- A usable index entry name: a non-empty single normal path component. -/
def validName (s : Str) : Bool :=
  s ≠ [] && s ≠ strOf "." && s ≠ strOf ".." &&
    !s.contains '/' && !s.contains '\\' && !s.contains '\n' &&
    !s.contains (Char.ofNat 0)

/-- Names valid and file digests 40-hex everywhere write_tree looks: every
directory level has valid names and hex file digests. -/
def validChildren : NodeMap → Bool
  | .nil => true
  | .cons n (.mk cch csha) rest =>
    validName n &&
      (match csha with
       | some s => isHex40 s
       | none => validChildren cch) &&
      validChildren rest

/-- Worker of Repository::write_tree_impl restricted to its pure output: the
tree entries produced for one node, inserted in iteration order into the
node's Tree BTreeMap; a directory child's digest is computed from its own
serialized tree. -/
def childTreeMapAcc : TreeMap → NodeMap → TreeMap
  | t, .nil => t
  | t, .cons name (.mk cch csha) rest =>
    let e : TreeEntry :=
      match csha with
      | some s => ⟨.blob, s, name⟩
      | none =>
        ⟨.tree, sha1Hex (treeSerialize (childTreeMapAcc [] cch)), name⟩
    childTreeMapAcc (tmapInsert name e t) rest

/-- The Tree BTreeMap write_tree_impl builds for a node with these
children. -/
def write_tree_map (m : NodeMap) : TreeMap := childTreeMapAcc [] m

/-- The serialized tree object write_tree_impl stores for a node with these
children. -/
def treeBytesOf (m : NodeMap) : Str := treeSerialize (write_tree_map m)

/-- The object-database stores performed while looping over the children of
one node: each directory child recursively stores its own subtrees and then
its own tree object, in source order. -/
def writeChildrenDB : DB → NodeMap → DB
  | db, .nil => db
  | db, .cons _ (.mk cch csha) rest =>
    let db1 :=
      match csha with
      | some _ => db
      | none => (db_store (writeChildrenDB db cch) (treeBytesOf cch)).2
    writeChildrenDB db1 rest

/-- Repository::write_tree_impl: store children subtrees, then the node's
own tree object, returning the node's tree digest. -/
def write_tree_impl (db : DB) (node : TreeNode) : Str × DB :=
  db_store (writeChildrenDB db node.children) (treeBytesOf node.children)

/-- Serializations of every tree object written under a children map
(excluding the node's own tree object). -/
def allSerials : NodeMap → List Str
  | .nil => []
  | .cons _ (.mk cch csha) rest =>
    (match csha with
     | some _ => []
     | none => allSerials cch ++ [treeBytesOf cch]) ++ allSerials rest

/-- Serializations of every tree object written by write_tree_impl on a node
with these children, the node's own tree object included. -/
def allSerialsNode (m : NodeMap) : List Str := allSerials m ++ [treeBytesOf m]

/-- Repository::collect_tree_files: retrieve and decode a tree, then emit
file entries directly and recurse into subtree entries with the name
prefixed. Recursion is by fuel because the on-disk structure is not known to
be well-founded; any fuel at least the stored tree depth is enough. -/
def collect_tree_files (db : DB) : Nat → Str → Option (List (List Str × Str))
  | 0, _ => none
  | fuel + 1, sha =>
    match db_retrieve db sha with
    | none => none
    | some bytes =>
      match treeDeserialize bytes with
      | none => none
      | some t =>
        t.foldlM
          (fun acc e =>
            match e.2.object_type with
            | .blob => some (acc ++ [([e.2.name], e.2.sha1)])
            | .tree =>
              match collect_tree_files db fuel e.2.sha1 with
              | none => none
              | some sub => some (acc ++ sub.map fun p => (e.2.name :: p.1, p.2))
            | .commit => none)
          []

/-- Repository::read_tree: rebuild an index by updating an empty index with
every collected path. -/
def read_tree (db : DB) (fuel : Nat) (root : Str) : Option Index :=
  match collect_tree_files db fuel root with
  | none => none
  | some entries =>
    some (entries.foldl (fun idx e => idx.update_entry (joinSep '/' e.1) e.2) Index.new)

/-- Nesting depth of the directory structure, measuring the fuel
collect_tree_files needs below a node with these children. -/
def depthChildren : NodeMap → Nat
  | .nil => 0
  | .cons _ (.mk cch csha) rest =>
    max
      (match csha with
       | some _ => 0
       | none => depthChildren cch + 1)
      (depthChildren rest)

theorem not_mem_of_contains_false (l : Str) (c : Char) (h : l.contains c = false) :
    c ∉ l := by
  intro hm
  have h2 : l.contains c = true := List.elem_eq_true_of_mem hm
  rw [h] at h2
  exact absurd h2 (by simp)

theorem validName_props (n : Str) (h : validName n = true) :
    n ≠ [] ∧ n ≠ strOf "." ∧ n ≠ strOf ".." ∧ '/' ∉ n ∧ '\\' ∉ n ∧
      '\n' ∉ n ∧ (Char.ofNat 0) ∉ n := by
  simp only [validName, Bool.and_eq_true, Bool.not_eq_true', decide_eq_true_eq] at h
  obtain ⟨⟨⟨⟨⟨⟨h1, h2⟩, h3⟩, h4⟩, h5⟩, h6⟩, h7⟩ := h
  exact ⟨h1, h2, h3, not_mem_of_contains_false n _ h4, not_mem_of_contains_false n _ h5,
    not_mem_of_contains_false n _ h6, not_mem_of_contains_false n _ h7⟩

theorem replaceBS_of_no_bs (l : Str) (h : '\\' ∉ l) : replaceBS l = l := by
  induction l with
  | nil => rfl
  | cons x xs ih =>
    have hx : x ≠ '\\' := fun he => h (he ▸ List.mem_cons_self x xs)
    simp only [replaceBS, List.map_cons, if_neg hx]
    rw [show List.map (fun c => if c = '\\' then '/' else c) xs = replaceBS xs from rfl,
      ih fun hm => h (List.mem_cons_of_mem x hm)]

theorem mem_joinSep (c : Char) (ls : List Str) (x : Char) (h : x ∈ joinSep c ls) :
    x = c ∨ ∃ s ∈ ls, x ∈ s := by
  induction ls with
  | nil => simp [joinSep] at h
  | cons a as ih =>
    cases as with
    | nil =>
      exact Or.inr ⟨a, List.mem_cons_self a [], h⟩
    | cons b bs =>
      rw [joinSep_cons_cons] at h
      rcases List.mem_append.mp h with h1 | h1
      · exact Or.inr ⟨a, List.mem_cons_self _ _, h1⟩
      · rcases List.mem_cons.mp h1 with h2 | h2
        · exact Or.inl h2
        · rcases ih h2 with h3 | ⟨s, hs1, hs2⟩
          · exact Or.inl h3
          · exact Or.inr ⟨s, List.mem_cons_of_mem a hs1, hs2⟩

theorem normalize_joinSep (cs : List Str) (hne : cs ≠ [])
    (hv : ∀ s ∈ cs, validName s = true) :
    normalize_path (joinSep '/' cs) = joinSep '/' cs := by
  unfold normalize_path
  have hnb : '\\' ∉ joinSep '/' cs := by
    intro hm
    rcases mem_joinSep '/' cs _ hm with h1 | ⟨s, hs1, hs2⟩
    · exact absurd h1 (by decide)
    · exact absurd hs2 (validName_props s (hv s hs1)).2.2.2.2.1
  rw [replaceBS_of_no_bs _ hnb,
    splitCh_joinSep '/' cs hne fun s hs => (validName_props s (hv s hs)).2.2.2.1]
  rw [List.filter_eq_self.mpr ?hf]
  case hf =>
    intro s hs
    have hp := validName_props s (hv s hs)
    simp only [decide_eq_true_eq]
    exact ⟨hp.1, hp.2.1, hp.2.2.1⟩

theorem split_path_all_normal (cs : List Str) (acc : List Str)
    (hv : ∀ s ∈ cs, s ≠ [] ∧ s ≠ strOf "." ∧ s ≠ strOf "..") :
    cs.foldl
      (fun acc comp =>
        if comp = strOf ".." then acc.dropLast
        else if comp = [] ∨ comp = strOf "." then acc
        else acc ++ [comp])
      acc = acc ++ cs := by
  induction cs generalizing acc with
  | nil => simp
  | cons a as ih =>
    have ha := hv a (List.mem_cons_self a as)
    rw [List.foldl_cons, if_neg ha.2.2, if_neg (by simp [ha.1, ha.2.1]),
      ih (acc ++ [a]) fun s hs => hv s (List.mem_cons_of_mem a hs)]
    simp

theorem splitNorm_joinSep (cs : List Str) (hne : cs ≠ [])
    (hv : ∀ s ∈ cs, validName s = true) :
    splitNorm (joinSep '/' cs) = cs := by
  unfold splitNorm
  rw [normalize_joinSep cs hne hv]
  unfold split_path
  rw [splitCh_joinSep '/' cs hne fun s hs => (validName_props s (hv s hs)).2.2.2.1]
  have := split_path_all_normal cs []
    fun s hs => ⟨(validName_props s (hv s hs)).1, (validName_props s (hv s hs)).2.1,
      (validName_props s (hv s hs)).2.2.1⟩
  simpa using this

theorem nmapGet_insert_self (k : Str) (v : TreeNode) : ∀ (m : NodeMap),
    nmapGet k (nmapInsert k v m) = some v := by
  refine nmapRec ?_ ?_
  · simp [nmapInsert, nmapGet]
  · intro k2 v2 rest ih
    unfold nmapInsert
    by_cases h1 : strLt k k2 = true
    · simp [h1, nmapGet]
    · by_cases h2 : k = k2
      · subst h2
        simp [nmapGet, strLt_irrefl]
      · simp [h1, h2, nmapGet, ih]

/-- Keys of a children map, in order. -/
def nmapKeys : NodeMap → List Str
  | .nil => []
  | .cons k _ rest => k :: nmapKeys rest

/-- The paths one child contributes to collect_entries. -/
def nodeBlock (n : Str) : TreeNode → List (List Str × Str)
  | .mk cch csha =>
    match csha with
    | some s => [([n], s)]
    | none => (collectChildren cch).map fun p => (n :: p.1, p.2)

theorem wfChildren_nil : wfChildren .nil = true := rfl

theorem collect_nil : collectChildren .nil = [] := rfl

theorem collect_cons (k : Str) (cch : NodeMap) (csha : Option Str) (rest : NodeMap) :
    collectChildren (.cons k (.mk cch csha) rest) =
      nodeBlock k (.mk cch csha) ++ collectChildren rest := by
  cases csha <;> rfl

theorem nodeBlock_file (n : Str) (cch : NodeMap) (s : Str) :
    nodeBlock n (.mk cch (some s)) = [([n], s)] := rfl

theorem nodeBlock_dir (n : Str) (cch : NodeMap) :
    nodeBlock n (.mk cch none) =
      (collectChildren cch).map fun p => (n :: p.1, p.2) := rfl

theorem wfChildren_cons_eq (n : Str) (cch : NodeMap) (csha : Option Str) (rest : NodeMap) :
    wfChildren (.cons n (.mk cch csha) rest) =
      (wfChildren cch && wfChildren rest &&
        (match rest with
         | .nil => true
         | .cons n2 _ _ => strLt n n2)) := rfl

theorem wf_parts (n : Str) (cch : NodeMap) (csha : Option Str) (rest : NodeMap)
    (h : wfChildren (.cons n (.mk cch csha) rest) = true) :
    wfChildren cch = true ∧ wfChildren rest = true := by
  rw [wfChildren_cons_eq] at h
  simp only [Bool.and_eq_true] at h
  exact ⟨h.1.1, h.1.2⟩

theorem wf_adj (n : Str) (cch : NodeMap) (csha : Option Str) (n2 : Str) (c2 : TreeNode)
    (rest2 : NodeMap)
    (h : wfChildren (.cons n (.mk cch csha) (.cons n2 c2 rest2)) = true) :
    strLt n n2 = true := by
  rw [wfChildren_cons_eq] at h
  simp only [Bool.and_eq_true] at h
  exact h.2

theorem wf_keys_gt : ∀ (rest : NodeMap), ∀ (n : Str) (cch : NodeMap) (csha : Option Str),
    wfChildren (.cons n (.mk cch csha) rest) = true →
    ∀ k ∈ nmapKeys rest, strLt n k = true := by
  refine nmapRecFull ?_ ?_
  · intro n cch csha _ k hk
    simp [nmapKeys] at hk
  · intro k2 cch2 csha2 rest2 _ ih n cch csha hw k hk
    have hadj := wf_adj n cch csha k2 (.mk cch2 csha2) rest2 hw
    have hwrest := (wf_parts n cch csha _ hw).2
    rcases List.mem_cons.mp hk with hk | hk
    · exact hk ▸ hadj
    · exact strLt_trans n k2 k hadj (ih k2 cch2 csha2 hwrest k hk)

theorem nmapGet_none_of_gt : ∀ (m : NodeMap) (n : Str),
    (∀ k ∈ nmapKeys m, strLt n k = true) → nmapGet n m = none := by
  refine nmapRec ?_ ?_
  · intro n _
    rfl
  · intro k2 v2 rest ih n h
    have hk2 : strLt n k2 = true := h k2 (List.mem_cons_self _ _)
    have hne : n ≠ k2 := by
      intro he
      rw [he, strLt_irrefl] at hk2
      exact absurd hk2 (by simp)
    simp only [nmapGet, if_neg hne]
    exact ih n fun k hk => h k (List.mem_cons_of_mem _ hk)

theorem collect_heads : ∀ (m : NodeMap), ∀ pr ∈ collectChildren m,
    ∃ k t, pr.1 = k :: t ∧ k ∈ nmapKeys m := by
  refine nmapRecFull ?_ ?_
  · intro pr hpr
    simp [collectChildren] at hpr
  · intro k cch csha rest _ ihrest pr hpr
    rw [collect_cons] at hpr
    rcases List.mem_append.mp hpr with hpr | hpr
    · unfold nodeBlock at hpr
      cases csha with
      | some s =>
        have : pr = ([k], s) := by simpa using hpr
        exact ⟨k, [], by simp [this], List.mem_cons_self _ _⟩
      | none =>
        rcases List.mem_map.mp hpr with ⟨q, _, hq2⟩
        exact ⟨k, q.1, by simp [← hq2], List.mem_cons_self _ _⟩
    · rcases ihrest pr hpr with ⟨k2, t, h1, h2⟩
      exact ⟨k2, t, h1, List.mem_cons_of_mem _ h2⟩

theorem nodeBlock_mem_collect : ∀ (m : NodeMap) (k : Str) (c : TreeNode),
    nmapGet k m = some c → ∀ e ∈ nodeBlock k c, e ∈ collectChildren m := by
  refine nmapRecFull ?_ ?_
  · intro k c hget
    simp [nmapGet] at hget
  · intro k2 cch2 csha2 rest _ ihrest k c hget e he
    rw [collect_cons]
    by_cases hk : k = k2
    · subst hk
      have hc : TreeNode.mk cch2 csha2 = c := by
        simpa [nmapGet] using hget
      subst hc
      exact List.mem_append.mpr (Or.inl he)
    · simp only [nmapGet, if_neg hk] at hget
      exact List.mem_append.mpr (Or.inr (ihrest k c hget e he))

theorem strLt_ne (a b : Str) (h : strLt a b = true) : a ≠ b := by
  intro he
  rw [he, strLt_irrefl] at h
  exact absurd h (by simp)

theorem strLt_rev (a b : Str) (hne : a ≠ b) (h : ¬ strLt a b = true) :
    strLt b a = true := by
  rcases strLt_total a b hne with h1 | h1
  · exact absurd h1 h
  · exact h1

theorem wf_insert : ∀ (m : NodeMap), ∀ (n : Str) (nd : TreeNode),
    wfChildren m = true → wfChildren nd.children = true →
    wfChildren (nmapInsert n nd m) = true := by
  refine nmapRecFull ?_ ?_
  · intro n nd hw hnd
    cases nd with
    | mk nch nsha =>
      show wfChildren (.cons n (.mk nch nsha) .nil) = true
      rw [wfChildren_cons_eq]
      simp only [TreeNode.children] at hnd
      simp [hnd, wfChildren_nil]
  · intro k2 cch2 csha2 rest _ ihrest n nd hw hnd
    have hparts := wf_parts k2 cch2 csha2 rest hw
    cases nd with
    | mk nch nsha =>
      simp only [TreeNode.children] at hnd
      unfold nmapInsert
      by_cases h1 : strLt n k2 = true
      · rw [if_pos h1, wfChildren_cons_eq]
        simp [hnd, hw, h1]
      · rw [if_neg h1]
        by_cases h2 : n = k2
        · rw [if_pos h2, wfChildren_cons_eq]
          subst h2
          cases rest with
          | nil => simp [hnd, hparts.2]
          | cons k3 c3 r3 =>
            have hadj := wf_adj n cch2 csha2 k3 c3 r3 hw
            simp [hnd, hparts.2, hadj]
        · rw [if_neg h2, wfChildren_cons_eq]
          have hk2n : strLt k2 n = true := strLt_rev n k2 h2 h1
          have hwin := ihrest n (.mk nch nsha) hparts.2 (by simpa [TreeNode.children] using hnd)
          cases rest with
          | nil =>
            simp only [nmapInsert]
            have hw2 : wfChildren (NodeMap.cons n (TreeNode.mk nch nsha) NodeMap.nil) = true := by
              rw [wfChildren_cons_eq]
              simp [hnd, wfChildren_nil]
            simp [hparts.1, hk2n, hw2]
          | cons k3 c3 r3 =>
            have hadj := wf_adj k2 cch2 csha2 k3 c3 r3 hw
            by_cases h3 : strLt n k3 = true
            · cases c3 with
              | mk ch3 sha3 =>
                simp only [nmapInsert, if_pos h3] at hwin ⊢
                simp [hparts.1, hwin, hk2n]
            · by_cases h4 : n = k3
              · cases c3 with
                | mk ch3 sha3 =>
                  simp only [nmapInsert, if_neg h3, if_pos h4] at hwin ⊢
                  simp [hparts.1, hwin, hk2n]
              · cases c3 with
                | mk ch3 sha3 =>
                  simp only [nmapInsert, if_neg h3, if_neg h4] at hwin ⊢
                  simp [hparts.1, hwin, hadj]

theorem collect_empty_of_heads_le (m : NodeMap) (n : Str)
    (hheads : ∀ pr ∈ collectChildren m, ∃ k t, pr.1 = k :: t ∧
      (strLt k n = true ∨ k = n))
    (hkeys : ∀ k ∈ nmapKeys m, strLt n k = true) :
    collectChildren m = [] := by
  by_contra hne
  rcases List.exists_mem_of_ne_nil _ hne with ⟨pr, hpr⟩
  rcases hheads pr hpr with ⟨k, t, hk1, hor⟩
  rcases collect_heads m pr hpr with ⟨k3, t3, hk3, hmem⟩
  have hkk : k = k3 := by
    rw [hk1] at hk3
    injection hk3
  have hgtk : strLt n k = true := hkk ▸ hkeys k3 hmem
  rcases hor with hlt | heq
  · have h := strLt_trans k n k hlt hgtk
    rw [strLt_irrefl] at h
    exact absurd h (by simp)
  · rw [heq, strLt_irrefl] at hgtk
    exact absurd hgtk (by simp)

theorem collect_insert_last : ∀ (m : NodeMap), ∀ (n : Str) (nd : TreeNode)
    (E : List Str × Str),
    wfChildren m = true →
    (∀ pr ∈ collectChildren m, ∃ k t, pr.1 = k :: t ∧
      (strLt k n = true ∨ k = n)) →
    (nodeBlock n nd =
      (match nmapGet n m with
       | some c => nodeBlock n c
       | none => []) ++ [E]) →
    collectChildren (nmapInsert n nd m) = collectChildren m ++ [E] := by
  refine nmapRecFull ?_ ?_
  · intro n nd E _ _ hnd
    cases nd with
    | mk nch nsha =>
      simp only [nmapGet] at hnd
      show collectChildren (.cons n (.mk nch nsha) .nil) = collectChildren .nil ++ [E]
      rw [collect_cons, hnd]
      simp [collect_nil]
  · intro k2 cch2 csha2 rest _ ihrest n nd E hw hheads hnd
    have hparts := wf_parts k2 cch2 csha2 rest hw
    have hkeysgt := wf_keys_gt rest k2 cch2 csha2 hw
    cases nd with
    | mk nch nsha =>
      unfold nmapInsert
      by_cases h1 : strLt n k2 = true
      · rw [if_pos h1]
        have hget : nmapGet n (NodeMap.cons k2 (.mk cch2 csha2) rest) = none := by
          apply nmapGet_none_of_gt
          intro k hk
          rcases List.mem_cons.mp hk with hk | hk
          · exact hk ▸ h1
          · exact strLt_trans n k2 k h1 (hkeysgt k hk)
        rw [hget] at hnd
        have hempty : collectChildren (NodeMap.cons k2 (.mk cch2 csha2) rest) = [] := by
          apply collect_empty_of_heads_le _ n hheads
          intro k hk
          rcases List.mem_cons.mp hk with hm | hm
          · exact hm ▸ h1
          · exact strLt_trans n k2 k h1 (hkeysgt k hm)
        rw [collect_cons _ _ _ (NodeMap.cons k2 (.mk cch2 csha2) rest)]
        rw [hempty, hnd]
        simp
      · rw [if_neg h1]
        by_cases h2 : n = k2
        · rw [if_pos h2]
          subst h2
          have hrestempty : collectChildren rest = [] := by
            apply collect_empty_of_heads_le rest n ?_ hkeysgt
            intro pr hpr
            apply hheads pr
            rw [collect_cons]
            exact List.mem_append.mpr (Or.inr hpr)
          have hget : nmapGet n (NodeMap.cons n (.mk cch2 csha2) rest) =
              some (.mk cch2 csha2) := by
            simp [nmapGet]
          rw [hget] at hnd
          rw [collect_cons, collect_cons, hrestempty, hnd]
          simp
        · rw [if_neg h2]
          have hget : nmapGet n (NodeMap.cons k2 (.mk cch2 csha2) rest) =
              nmapGet n rest := by
            simp [nmapGet, h2]
          rw [hget] at hnd
          have hih := ihrest n (.mk nch nsha) E hparts.2
            (fun pr hpr => hheads pr (by
              rw [collect_cons]
              exact List.mem_append.mpr (Or.inr hpr))) hnd
          rw [collect_cons, collect_cons, hih]
          simp

theorem wf_get_children : ∀ (m : NodeMap) (k : Str) (c : TreeNode),
    wfChildren m = true → nmapGet k m = some c → wfChildren c.children = true := by
  refine nmapRecFull ?_ ?_
  · intro k c _ hget
    simp [nmapGet] at hget
  · intro k2 cch2 csha2 rest _ ihrest k c hw hget
    have hparts := wf_parts k2 cch2 csha2 rest hw
    by_cases hk : k = k2
    · subst hk
      have hc : TreeNode.mk cch2 csha2 = c := by
        simpa [nmapGet] using hget
      subst hc
      exact hparts.1
    · simp only [nmapGet, if_neg hk] at hget
      exact ihrest k c hparts.2 hget

theorem compsLt_cons_iff (a b : Str) (as bs : List Str) :
    compsLt (a :: as) (b :: bs) = true ↔
      strLt a b = true ∨ (a = b ∧ compsLt as bs = true) :=
  lexLt_cons_iff strLt a b as bs

theorem compsLt_nil_right (x : List Str) : compsLt x [] = false :=
  lexLt_nil_right strLt x

theorem isPre_cons_eq {α : Type} [DecidableEq α] (a b : α) (as bs : List α) :
    isPre (a :: as) (b :: bs) = (decide (a = b) && isPre as bs) := rfl

theorem collect_update_last : ∀ (comps : List Str), ∀ (m : NodeMap) (sha : Str),
    comps ≠ [] →
    wfChildren m = true →
    (∀ pr ∈ collectChildren m, compsLt pr.1 comps = true) →
    (∀ pr ∈ collectChildren m, isPre pr.1 comps = false) →
    collectChildren (updateChildren m comps sha).1 =
        collectChildren m ++ [(comps, sha)] ∧
      wfChildren (updateChildren m comps sha).1 = true := by
  intro comps
  induction comps with
  | nil => intro m sha hne _ _ _; exact absurd rfl hne
  | cons n rest ih =>
    intro m sha _ hw hlt hnpre
    cases rest with
    | nil =>
      have hupd : updateChildren m [n] sha = (nmapInsert n (newFile sha) m,
          (nmapGet n m).isNone) := rfl
      rw [hupd]
      have hheads : ∀ pr ∈ collectChildren m, ∃ k t, pr.1 = k :: t ∧
          (strLt k n = true ∨ k = n) := by
        intro pr hpr
        rcases collect_heads m pr hpr with ⟨k, t, hk1, _⟩
        refine ⟨k, t, hk1, Or.inl ?_⟩
        have hc := hlt pr hpr
        rw [hk1] at hc
        rcases (compsLt_cons_iff k n t []).mp hc with h | ⟨_, h⟩
        · exact h
        · rw [compsLt_nil_right] at h
          exact absurd h (by simp)
      have hnd : nodeBlock n (newFile sha) =
          (match nmapGet n m with
           | some c => nodeBlock n c
           | none => []) ++ [([n], sha)] := by
        cases hg : nmapGet n m with
        | none => rfl
        | some c =>
          cases c with
          | mk cch csha =>
            have hblk : nodeBlock n (TreeNode.mk cch csha) = [] := by
              cases csha with
              | some s =>
                have hmem : ([n], s) ∈ collectChildren m :=
                  nodeBlock_mem_collect m n _ hg _ (by rw [nodeBlock_file]; simp)
                have hc := hlt _ hmem
                rcases (compsLt_cons_iff n n [] []).mp hc with h | ⟨_, h⟩
                · rw [strLt_irrefl] at h
                  exact absurd h (by simp)
                · rw [compsLt_nil_right] at h
                  exact absurd h (by simp)
              | none =>
                rw [nodeBlock_dir]
                rw [show collectChildren cch = [] from ?_]
                · rfl
                by_contra hnee
                rcases List.exists_mem_of_ne_nil _ hnee with ⟨q, hq⟩
                have hmem : (n :: q.1, q.2) ∈ collectChildren m := by
                  apply nodeBlock_mem_collect m n _ hg
                  rw [nodeBlock_dir]
                  exact List.mem_map.mpr ⟨q, hq, rfl⟩
                have hc := hlt _ hmem
                rcases (compsLt_cons_iff n n q.1 []).mp hc with h | ⟨_, h⟩
                · rw [strLt_irrefl] at h
                  exact absurd h (by simp)
                · rw [compsLt_nil_right] at h
                  exact absurd h (by simp)
            show nodeBlock n (newFile sha) =
              nodeBlock n (TreeNode.mk cch csha) ++ [([n], sha)]
            rw [hblk]
            rfl
      constructor
      · exact collect_insert_last m n (newFile sha) ([n], sha) hw hheads hnd
      · exact wf_insert m n (newFile sha) hw rfl
    | cons r rs =>
      have hupd : updateChildren m (n :: r :: rs) sha =
          (nmapInsert n
            (.mk (updateChildren ((nmapGet n m).getD newDirectory).children
              (r :: rs) sha).1 ((nmapGet n m).getD newDirectory).get_sha1) m,
            (updateChildren ((nmapGet n m).getD newDirectory).children
              (r :: rs) sha).2) := rfl
      have hheads : ∀ pr ∈ collectChildren m, ∃ k t, pr.1 = k :: t ∧
          (strLt k n = true ∨ k = n) := by
        intro pr hpr
        rcases collect_heads m pr hpr with ⟨k, t, hk1, _⟩
        refine ⟨k, t, hk1, ?_⟩
        have hc := hlt pr hpr
        rw [hk1] at hc
        rcases (compsLt_cons_iff k n t (r :: rs)).mp hc with h | ⟨h, _⟩
        · exact Or.inl h
        · exact Or.inr h
      cases hg : nmapGet n m with
      | none =>
        have hih := ih .nil sha (by simp) rfl (by simp [collect_nil])
          (by simp [collect_nil])
        rw [hupd, hg]
        constructor
        · apply collect_insert_last m n _ (n :: r :: rs, sha) hw hheads
          rw [hg]
          show nodeBlock n (.mk (updateChildren NodeMap.nil (r :: rs) sha).1 none) =
            [] ++ [(n :: r :: rs, sha)]
          rw [nodeBlock_dir, hih.1, collect_nil]
          simp
        · apply wf_insert m n _ hw
          show wfChildren (updateChildren NodeMap.nil (r :: rs) sha).1 = true
          exact hih.2
      | some c =>
        cases c with
        | mk cch csha =>
          cases csha with
          | some s =>
            exfalso
            have hmem : ([n], s) ∈ collectChildren m :=
              nodeBlock_mem_collect m n _ hg _ (by rw [nodeBlock_file]; simp)
            have hp := hnpre _ hmem
            rw [show isPre ([n] : List Str) (n :: r :: rs) = true from by
              simp [isPre]] at hp
            exact absurd hp (by simp)
          | none =>
            have hwc : wfChildren cch = true := by
              have := wf_get_children m n (.mk cch none) hw hg
              simpa [TreeNode.children] using this
            have hltc : ∀ q ∈ collectChildren cch, compsLt q.1 (r :: rs) = true := by
              intro q hq
              have hmem : (n :: q.1, q.2) ∈ collectChildren m := by
                apply nodeBlock_mem_collect m n _ hg
                rw [nodeBlock_dir]
                exact List.mem_map.mpr ⟨q, hq, rfl⟩
              have hc := hlt _ hmem
              rcases (compsLt_cons_iff n n q.1 (r :: rs)).mp hc with h | ⟨_, h⟩
              · rw [strLt_irrefl] at h
                exact absurd h (by simp)
              · exact h
            have hnprec : ∀ q ∈ collectChildren cch, isPre q.1 (r :: rs) = false := by
              intro q hq
              have hmem : (n :: q.1, q.2) ∈ collectChildren m := by
                apply nodeBlock_mem_collect m n _ hg
                rw [nodeBlock_dir]
                exact List.mem_map.mpr ⟨q, hq, rfl⟩
              have hp := hnpre _ hmem
              rw [show (n :: q.1, q.2).1 = n :: q.1 from rfl, isPre_cons_eq] at hp
              simpa using hp
            have hih := ih cch sha (by simp) hwc hltc hnprec
            rw [hupd, hg]
            constructor
            · apply collect_insert_last m n _ (n :: r :: rs, sha) hw hheads
              rw [hg]
              show nodeBlock n
                  (.mk (updateChildren cch (r :: rs) sha).1 none) =
                nodeBlock n (.mk cch none) ++ [(n :: r :: rs, sha)]
              rw [nodeBlock_dir, nodeBlock_dir, hih.1]
              simp
            · apply wf_insert m n _ hw
              show wfChildren (updateChildren cch (r :: rs) sha).1 = true
              exact hih.2

/-- The children map obtained by inserting a list of component paths into an
empty map, in order. -/
def buildChildren (ps : List (List Str × Str)) : NodeMap :=
  ps.foldl (fun m e => (updateChildren m e.1 e.2).1) .nil

theorem collect_build (ps : List (List Str × Str))
    (hord : List.Pairwise
      (fun a b => compsLt a.1 b.1 = true ∧ isPre a.1 b.1 = false) ps)
    (hne : ∀ p ∈ ps, p.1 ≠ []) :
    collectChildren (buildChildren ps) = ps ∧
      wfChildren (buildChildren ps) = true := by
  induction ps using List.reverseRecOn with
  | nil => exact ⟨rfl, rfl⟩
  | append_singleton l e ihl =>
    have hordl : List.Pairwise
        (fun a b => compsLt a.1 b.1 = true ∧ isPre a.1 b.1 = false) l :=
      (List.pairwise_append.mp hord).1
    have hrel : ∀ a ∈ l, compsLt a.1 e.1 = true ∧ isPre a.1 e.1 = false :=
      fun a ha => (List.pairwise_append.mp hord).2.2 a ha e (by simp)
    have hih := ihl hordl fun p hp => hne p (List.mem_append.mpr (Or.inl hp))
    have hbuild : buildChildren (l ++ [e]) =
        (updateChildren (buildChildren l) e.1 e.2).1 := by
      unfold buildChildren
      rw [List.foldl_append]
      rfl
    have hupd := collect_update_last e.1 (buildChildren l) e.2
      (hne e (by simp)) hih.2
      (fun pr hpr => (hrel pr (hih.1 ▸ hpr)).1)
      (fun pr hpr => (hrel pr (hih.1 ▸ hpr)).2)
    rw [hbuild]
    refine ⟨?_, hupd.2⟩
    rw [hupd.1, hih.1]

theorem nodeBlock_heads (k : Str) (c : TreeNode) :
    ∀ a ∈ nodeBlock k c, ∃ t, a.1 = k :: t := by
  cases c with
  | mk cch csha =>
    cases csha with
    | some s =>
      intro a ha
      rw [nodeBlock_file] at ha
      have : a = ([k], s) := by simpa using ha
      exact ⟨[], by simp [this]⟩
    | none =>
      intro a ha
      rw [nodeBlock_dir] at ha
      rcases List.mem_map.mp ha with ⟨q, _, hq2⟩
      exact ⟨q.1, by simp [← hq2]⟩

theorem collect_pairwise : ∀ (m : NodeMap), wfChildren m = true →
    List.Pairwise
      (fun (a b : List Str × Str) =>
        compsLt a.1 b.1 = true ∧ isPre a.1 b.1 = false)
      (collectChildren m) := by
  refine nmapRecFull ?_ ?_
  · intro _
    exact List.Pairwise.nil
  · intro k cch csha rest ihc ihrest hw
    have hparts := wf_parts k cch csha rest hw
    have hkeysgt := wf_keys_gt rest k cch csha hw
    rw [collect_cons]
    rw [List.pairwise_append]
    refine ⟨?_, ihrest hparts.2, ?_⟩
    · cases csha with
      | some s =>
        rw [nodeBlock_file]
        simp
      | none =>
        rw [nodeBlock_dir]
        rw [List.pairwise_map]
        apply List.Pairwise.imp ?_ (ihc hparts.1)
        intro a b hab
        constructor
        · rw [show (k :: a.1, a.2).1 = k :: a.1 from rfl,
            show (k :: b.1, b.2).1 = k :: b.1 from rfl]
          rw [compsLt_cons_iff]
          exact Or.inr ⟨rfl, hab.1⟩
        · rw [show (k :: a.1, a.2).1 = k :: a.1 from rfl,
            show (k :: b.1, b.2).1 = k :: b.1 from rfl]
          rw [isPre_cons_eq]
          simp [hab.2]
    · intro a ha b hb
      rcases nodeBlock_heads k _ a ha with ⟨t, hat⟩
      rcases collect_heads rest b hb with ⟨k2, t2, hbt, hk2⟩
      have hklt : strLt k k2 = true := hkeysgt k2 hk2
      constructor
      · rw [hat, hbt, compsLt_cons_iff]
        exact Or.inl hklt
      · rw [hat, hbt, isPre_cons_eq]
        simp [strLt_ne k k2 hklt]

theorem validChildren_cons_eq (n : Str) (cch : NodeMap) (csha : Option Str)
    (rest : NodeMap) :
    validChildren (.cons n (.mk cch csha) rest) =
      (validName n &&
        (match csha with
         | some s => isHex40 s
         | none => validChildren cch) && validChildren rest) := rfl

theorem collect_valid : ∀ (m : NodeMap), validChildren m = true →
    ∀ pr ∈ collectChildren m, pr.1 ≠ [] ∧ ∀ c ∈ pr.1, validName c = true := by
  refine nmapRecFull ?_ ?_
  · intro _ pr hpr
    simp [collect_nil] at hpr
  · intro k cch csha rest ihc ihrest hv pr hpr
    rw [validChildren_cons_eq] at hv
    simp only [Bool.and_eq_true] at hv
    rw [collect_cons] at hpr
    rcases List.mem_append.mp hpr with hpr | hpr
    · cases csha with
      | some s =>
        rw [nodeBlock_file] at hpr
        have he : pr = ([k], s) := by simpa using hpr
        refine ⟨by simp [he], ?_⟩
        intro c hc
        rw [he] at hc
        have : c = k := by simpa using hc
        exact this ▸ hv.1.1
      | none =>
        rw [nodeBlock_dir] at hpr
        rcases List.mem_map.mp hpr with ⟨q, hq1, hq2⟩
        have hq := ihc hv.1.2 q hq1
        refine ⟨by simp [← hq2], ?_⟩
        intro c hc
        rw [← hq2] at hc
        simp only at hc
        rcases List.mem_cons.mp hc with hc | hc
        · exact hc ▸ hv.1.1
        · exact hq.2 c hc
    · exact ihrest hv.2 pr hpr

theorem splitCh_terminated (c : Char) (ls : List Str) (h : ∀ l ∈ ls, c ∉ l) :
    splitCh c ((ls.map (· ++ [c])).flatten) = ls ++ [[]] := by
  induction ls with
  | nil => rfl
  | cons a as ih =>
    simp only [List.map_cons, List.flatten_cons]
    rw [show a ++ [c] ++ ((as.map (· ++ [c])).flatten) =
      a ++ c :: ((as.map (· ++ [c])).flatten) from by simp]
    rw [splitCh_append_sep c a _ (h a (List.mem_cons_self _ _)),
      ih fun l hl => h l (List.mem_cons_of_mem a hl)]
    rfl

theorem filter_terminated (ls : List Str) (h : ∀ l ∈ ls, l ≠ []) :
    (ls ++ [[]]).filter (fun l => decide (l ≠ [])) = ls := by
  rw [List.filter_append]
  rw [List.filter_eq_self.mpr fun l hl => by simpa using h l hl]
  simp

theorem tmapInsert_append (t : TreeMap) (k : Str) (e : TreeEntry)
    (h : ∀ p ∈ t, strLt p.1 k = true) : tmapInsert k e t = t ++ [(k, e)] := by
  induction t with
  | nil => rfl
  | cons p rest ih =>
    have hp : strLt p.1 k = true := h p (List.mem_cons_self _ _)
    cases p with
    | mk k2 e2 =>
      simp only at hp
      unfold tmapInsert
      rw [if_neg (by rw [strLt_asymm k2 k hp]; simp),
        if_neg (Ne.symm (strLt_ne k2 k hp)),
        ih fun q hq => h q (List.mem_cons_of_mem _ hq)]
      rfl

theorem tmapGet_none_of (t : TreeMap) (k : Str) (h : ∀ p ∈ t, p.1 ≠ k) :
    tmapGet k t = none := by
  induction t with
  | nil => rfl
  | cons p rest ih =>
    cases p with
    | mk k2 e2 =>
      have hne : k ≠ k2 := Ne.symm (h (k2, e2) (List.mem_cons_self _ _))
      simp only [tmapGet, if_neg hne]
      exact ih fun q hq => h q (List.mem_cons_of_mem _ hq)

/-- The text of one serialized tree entry line, newline excluded. -/
def treeLine (p : Str × TreeEntry) : Str :=
  otypeStr p.2.object_type ++ [' '] ++ p.2.sha1 ++ [' '] ++ p.2.name

theorem treePayload_eq (t : TreeMap) :
    treePayload t = ((t.map treeLine).map (· ++ ['\n'])).flatten := by
  unfold treePayload
  rw [List.map_map]
  apply congrArg List.flatten
  apply List.map_congr_left
  intro p _
  show otypeStr p.2.object_type ++ [' '] ++ p.2.sha1 ++ [' '] ++ p.2.name ++ ['\n'] =
    treeLine p ++ ['\n']
  unfold treeLine
  simp

theorem space_not_hex : isHexCh ' ' = false := by decide

theorem mem_hex_no_space (s : Str) (h : s.all isHexCh = true) : ' ' ∉ s := by
  intro hm
  have h2 := List.all_eq_true.mp h ' ' hm
  rw [space_not_hex] at h2
  exact absurd h2 (by simp)

theorem parseTreeLine_round (p : Str × TreeEntry)
    (hty : p.2.object_type ≠ .commit)
    (hsha : isHex40 p.2.sha1 = true) :
    parseTreeLine (treeLine p) = some p.2 := by
  rcases p with ⟨k, ot, sha, nm⟩
  simp only at hty hsha ⊢
  have hallhex : sha.all isHexCh = true := by
    unfold isHex40 at hsha
    simp only [Bool.and_eq_true] at hsha
    exact hsha.2
  have hsp : ' ' ∉ sha := mem_hex_no_space _ hallhex
  have hsha40 : (decide (sha.length = 40) && sha.all isHexCh) = true := by
    unfold isHex40 at hsha
    exact hsha
  have hsp2 : ' ' ∉ otypeStr ot := by cases ot <;> decide
  unfold parseTreeLine treeLine
  simp only
  rw [show otypeStr ot ++ [' '] ++ sha ++ [' '] ++ nm =
      otypeStr ot ++ ' ' :: (sha ++ ' ' :: nm) from by simp]
  rw [splitOnce_append ' ' _ _ hsp2]
  cases ot with
  | blob =>
    simp only [otypeStr]
    rw [if_pos trivial]
    simp only [splitOnce_append ' ' _ _ hsp]
    rw [if_pos hsha40]
  | tree =>
    simp only [otypeStr]
    rw [if_pos trivial]
    simp only [splitOnce_append ' ' _ _ hsp]
    rw [show (if strOf "tree" = strOf "blob" then some OType.blob
        else some OType.tree) = some OType.tree from by decide]
    show (if (decide (List.length sha = 40) && List.all sha isHexCh) = true then
        some (TreeEntry.mk OType.tree sha nm) else none) =
      some (TreeEntry.mk OType.tree sha nm)
    rw [if_pos hsha40]
  | commit => exact absurd rfl hty

theorem hex_mem_no_ctl (s : Str) (hx : s.all isHexCh = true) :
    '\n' ∉ s ∧ (Char.ofNat 0) ∉ s := by
  constructor <;> intro hm <;>
    have h2 := List.all_eq_true.mp hx _ hm
  · exact absurd h2 (by decide)
  · exact absurd h2 (by decide)

theorem treeLine_no_nl (p : Str × TreeEntry)
    (hn : '\n' ∉ p.2.name) (hx : p.2.sha1.all isHexCh = true) :
    '\n' ∉ treeLine p := by
  intro hm
  unfold treeLine at hm
  simp only [List.append_assoc, List.mem_append] at hm
  rcases hm with h | h | h | h | h
  · revert h
    cases p.2.object_type <;> decide
  · exact absurd (List.mem_singleton.mp h) (by decide)
  · exact absurd h (hex_mem_no_ctl _ hx).1
  · exact absurd (List.mem_singleton.mp h) (by decide)
  · exact hn h

theorem treeLine_no_nul (p : Str × TreeEntry)
    (hn : (Char.ofNat 0) ∉ p.2.name) (hx : p.2.sha1.all isHexCh = true) :
    (Char.ofNat 0) ∉ treeLine p := by
  intro hm
  unfold treeLine at hm
  simp only [List.append_assoc, List.mem_append] at hm
  rcases hm with h | h | h | h | h
  · revert h
    cases p.2.object_type <;> decide
  · exact absurd (List.mem_singleton.mp h) (by decide)
  · exact absurd h (hex_mem_no_ctl _ hx).2
  · exact absurd (List.mem_singleton.mp h) (by decide)
  · exact hn h

theorem treeLine_ne_nil (p : Str × TreeEntry) : treeLine p ≠ [] := by
  unfold treeLine
  cases p.2.object_type <;> simp [otypeStr, strOf]

theorem treePayload_no_nul (t : TreeMap)
    (hn : ∀ p ∈ t, (Char.ofNat 0) ∉ p.2.name)
    (hx : ∀ p ∈ t, p.2.sha1.all isHexCh = true) :
    (Char.ofNat 0) ∉ treePayload t := by
  intro hm
  rw [treePayload_eq] at hm
  rcases List.mem_flatten.mp hm with ⟨l, hl1, hl2⟩
  rcases List.mem_map.mp hl1 with ⟨l2, hl3, hl4⟩
  rcases List.mem_map.mp hl3 with ⟨p, hp1, hp2⟩
  subst hl4
  subst hp2
  rcases List.mem_append.mp hl2 with h | h
  · exact treeLine_no_nul p (hn p hp1) (hx p hp1) h
  · exact absurd (List.mem_singleton.mp h) (by decide)

theorem foldParse_round : ∀ (t : TreeMap), ∀ (acc : TreeMap),
    List.Pairwise (fun a b => strLt a.1 b.1 = true) t →
    (∀ p ∈ t, p.2.name = p.1) →
    (∀ p ∈ t, p.2.object_type ≠ .commit) →
    (∀ p ∈ t, isHex40 p.2.sha1 = true) →
    (∀ q ∈ acc, ∀ p ∈ t, strLt q.1 p.1 = true) →
    (t.map treeLine).foldlM
      (fun acc line =>
        match parseTreeLine line with
        | none => none
        | some e =>
          match tmapGet e.name acc with
          | some _ => none
          | none => some (tmapInsert e.name e acc)) acc = some (acc ++ t) := by
  intro t
  induction t with
  | nil =>
    intro acc _ _ _ _ _
    simp
  | cons p rest ih =>
    intro acc hord hname hty hsha hacc
    rw [List.map_cons, List.foldlM_cons, parseTreeLine_round p
      (hty p (List.mem_cons_self _ _)) (hsha p (List.mem_cons_self _ _))]
    have hget : tmapGet p.2.name acc = none := by
      apply tmapGet_none_of
      intro q hq
      rw [hname p (List.mem_cons_self _ _)]
      exact strLt_ne _ _ (hacc q hq p (List.mem_cons_self _ _))
    have hins : tmapInsert p.2.name p.2 acc = acc ++ [p] := by
      rw [hname p (List.mem_cons_self _ _)]
      exact tmapInsert_append acc p.1 p.2
        fun q hq => hacc q hq p (List.mem_cons_self _ _)
    simp only [hget, hins]
    have hrel := List.pairwise_cons.mp hord
    show (rest.map treeLine).foldlM _ (acc ++ [p]) = some (acc ++ p :: rest)
    rw [ih (acc ++ [p]) hrel.2
      (fun q hq => hname q (List.mem_cons_of_mem p hq))
      (fun q hq => hty q (List.mem_cons_of_mem p hq))
      (fun q hq => hsha q (List.mem_cons_of_mem p hq))
      ?hacc2]
    · simp
    case hacc2 =>
      intro q hq p2 hp2
      rcases List.mem_append.mp hq with h | h
      · exact strLt_trans _ _ _ (hacc q h p (List.mem_cons_self _ _)) (hrel.1 p2 hp2)
      · have : q = p := by simpa using h
        exact this ▸ hrel.1 p2 hp2

theorem treeDeserialize_serialize (t : TreeMap)
    (hord : List.Pairwise (fun a b => strLt a.1 b.1 = true) t)
    (hname : ∀ p ∈ t, p.2.name = p.1)
    (hty : ∀ p ∈ t, p.2.object_type ≠ .commit)
    (hsha : ∀ p ∈ t, isHex40 p.2.sha1 = true)
    (hnl : ∀ p ∈ t, '\n' ∉ p.2.name)
    (hnul : ∀ p ∈ t, (Char.ofNat 0) ∉ p.2.name) :
    treeDeserialize (treeSerialize t) = some t := by
  have hxall : ∀ p ∈ t, p.2.sha1.all isHexCh = true := by
    intro p hp
    have h := hsha p hp
    unfold isHex40 at h
    simp only [Bool.and_eq_true] at h
    exact h.2
  unfold treeSerialize treeDeserialize
  rw [show strOf "tree " ++ natStr (strBytes (treePayload t)) ++ [Char.ofNat 0] ++
      treePayload t =
    (strOf "tree " ++ natStr (strBytes (treePayload t))) ++
      (Char.ofNat 0) :: treePayload t from by simp]
  rw [splitOnce_append (Char.ofNat 0) _ _ ?hnul0]
  case hnul0 =>
    intro hm
    rcases List.mem_append.mp hm with h | h
    · exact absurd h (by decide)
    · exact absurd ((natStr_no_ctl _ _ h).2.1) (fun h2 => h2 rfl)
  rw [show strOf "tree " ++ natStr (strBytes (treePayload t)) =
    strOf "tree" ++ ' ' :: natStr (strBytes (treePayload t)) from by
      rw [show strOf "tree " = strOf "tree" ++ [' '] from by decide]
      simp]
  simp only []
  rw [splitOnce_append ' ' _ _ (by decide)]
  simp only []
  rw [if_neg (by simp), parseNat_natStr]
  simp only []
  rw [if_neg (by simp)]
  rw [treePayload_eq, splitCh_terminated '\n' (t.map treeLine) ?hlnl]
  case hlnl =>
    intro l hl
    rcases List.mem_map.mp hl with ⟨p, hp1, hp2⟩
    exact hp2 ▸ treeLine_no_nl p (hnl p hp1) (hxall p hp1)
  rw [filter_terminated _ ?hlne]
  case hlne =>
    intro l hl
    rcases List.mem_map.mp hl with ⟨p, _, hp2⟩
    exact hp2 ▸ treeLine_ne_nil p
  have hfp := foldParse_round t [] hord hname hty hsha
    (fun q hq => absurd hq (List.not_mem_nil q))
  rw [hfp]
  simp

/-- The tree entries of one node in key order, as produced by the
write_tree_impl loop over sorted children. -/
def mapOfChildren : NodeMap → TreeMap
  | .nil => []
  | .cons n (.mk cch csha) rest =>
    (n,
      match csha with
      | some s => TreeEntry.mk .blob s n
      | none => TreeEntry.mk .tree (sha1Hex (treeBytesOf cch)) n) ::
      mapOfChildren rest

theorem childAcc_eq : ∀ (m : NodeMap), ∀ (t : TreeMap),
    wfChildren m = true →
    (∀ p ∈ t, ∀ k ∈ nmapKeys m, strLt p.1 k = true) →
    childTreeMapAcc t m = t ++ mapOfChildren m := by
  refine nmapRecFull ?_ ?_
  · intro t _ _
    simp [childTreeMapAcc, mapOfChildren]
  · intro n cch csha rest _ ihrest t hw hlt
    have hparts := wf_parts n cch csha rest hw
    have hkeysgt := wf_keys_gt rest n cch csha hw
    have hstep : ∀ (e : TreeEntry),
        tmapInsert n e t = t ++ [(n, e)] :=
      fun e => tmapInsert_append t n e fun p hp => hlt p hp n (List.mem_cons_self _ _)
    have hlt2 : ∀ p ∈ t ++ [(n, (match csha with
          | some s => TreeEntry.mk .blob s n
          | none => TreeEntry.mk .tree (sha1Hex (treeBytesOf cch)) n))],
        ∀ k ∈ nmapKeys rest, strLt p.1 k = true := by
      intro p hp k hk
      rcases List.mem_append.mp hp with h | h
      · exact hlt p h k (List.mem_cons_of_mem _ hk)
      · have hpn : p.1 = n := by
          rw [List.mem_singleton.mp h]
        exact hpn ▸ hkeysgt k hk
    cases csha with
    | some s =>
      have hlt3 : ∀ p ∈ t ++ [(n, TreeEntry.mk .blob s n)],
          ∀ k ∈ nmapKeys rest, strLt p.1 k = true := hlt2
      show childTreeMapAcc (tmapInsert n (TreeEntry.mk .blob s n) t) rest = _
      rw [hstep, ihrest _ hparts.2 hlt3]
      simp [mapOfChildren]
    | none =>
      have hlt3 : ∀ p ∈ t ++ [(n, TreeEntry.mk .tree
            (sha1Hex (treeSerialize (childTreeMapAcc [] cch))) n)],
          ∀ k ∈ nmapKeys rest, strLt p.1 k = true := hlt2
      show childTreeMapAcc
        (tmapInsert n
          (TreeEntry.mk .tree (sha1Hex (treeSerialize (childTreeMapAcc [] cch))) n) t)
        rest = _
      rw [hstep, ihrest _ hparts.2 hlt3]
      simp [mapOfChildren, treeBytesOf, write_tree_map]

theorem write_tree_map_eq (m : NodeMap) (hw : wfChildren m = true) :
    write_tree_map m = mapOfChildren m := by
  unfold write_tree_map
  rw [childAcc_eq m [] hw (fun p hp => absurd hp (List.not_mem_nil p))]
  rfl

theorem wf_pairwise_keys : ∀ (m : NodeMap), wfChildren m = true →
    List.Pairwise (fun a b => strLt a b = true) (nmapKeys m) := by
  refine nmapRecFull ?_ ?_
  · intro _
    exact List.Pairwise.nil
  · intro n cch csha rest _ ihrest hw
    have hparts := wf_parts n cch csha rest hw
    exact List.Pairwise.cons (wf_keys_gt rest n cch csha hw) (ihrest hparts.2)

theorem mapOf_keys : ∀ (m : NodeMap), (mapOfChildren m).map Prod.fst = nmapKeys m := by
  refine nmapRecFull ?_ ?_
  · rfl
  · intro n cch csha rest _ ihrest
    simp only [mapOfChildren, List.map_cons, nmapKeys, ihrest]

theorem mapOf_pairwise (m : NodeMap) (hw : wfChildren m = true) :
    List.Pairwise (fun a b => strLt a.1 b.1 = true) (mapOfChildren m) := by
  have h := wf_pairwise_keys m hw
  rw [← mapOf_keys m] at h
  exact (List.pairwise_map.mp h)

theorem mapOf_name : ∀ (m : NodeMap), ∀ p ∈ mapOfChildren m, p.2.name = p.1 := by
  refine nmapRecFull ?_ ?_
  · intro p hp
    simp [mapOfChildren] at hp
  · intro n cch csha rest _ ihrest p hp
    rcases List.mem_cons.mp hp with h | h
    · rw [h]
      cases csha <;> rfl
    · exact ihrest p h

theorem mapOf_ty : ∀ (m : NodeMap), ∀ p ∈ mapOfChildren m,
    p.2.object_type ≠ .commit := by
  refine nmapRecFull ?_ ?_
  · intro p hp
    simp [mapOfChildren] at hp
  · intro n cch csha rest _ ihrest p hp
    rcases List.mem_cons.mp hp with h | h
    · rw [h]
      cases csha <;> simp
    · exact ihrest p h

theorem sha1Hex_isHex40 (msg : Str) : isHex40 (sha1Hex msg) = true := by
  unfold isHex40
  rw [sha1Hex_length]
  simp only [Bool.and_eq_true, decide_eq_true_eq]
  exact ⟨trivial, List.all_eq_true.mpr fun c hc => sha1Hex_all_hex msg c hc⟩

theorem mapOf_sha : ∀ (m : NodeMap), validChildren m = true →
    ∀ p ∈ mapOfChildren m, isHex40 p.2.sha1 = true := by
  refine nmapRecFull ?_ ?_
  · intro _ p hp
    simp [mapOfChildren] at hp
  · intro n cch csha rest _ ihrest hv p hp
    rw [validChildren_cons_eq] at hv
    simp only [Bool.and_eq_true] at hv
    rcases List.mem_cons.mp hp with h | h
    · rw [h]
      cases hc : csha with
      | some s =>
        rw [hc] at hv
        exact hv.1.2
      | none => exact sha1Hex_isHex40 _
    · exact ihrest hv.2 p h

theorem mapOf_names_ok : ∀ (m : NodeMap), validChildren m = true →
    ∀ p ∈ mapOfChildren m, '\n' ∉ p.2.name ∧ (Char.ofNat 0) ∉ p.2.name := by
  refine nmapRecFull ?_ ?_
  · intro _ p hp
    simp [mapOfChildren] at hp
  · intro n cch csha rest _ ihrest hv p hp
    rw [validChildren_cons_eq] at hv
    simp only [Bool.and_eq_true] at hv
    rcases List.mem_cons.mp hp with h | h
    · have hn : p.2.name = n := by
        rw [h]
        cases csha <;> rfl
      rw [hn]
      have hvp := validName_props n hv.1.1
      exact ⟨hvp.2.2.2.2.2.1, hvp.2.2.2.2.2.2⟩
    · exact ihrest hv.2 p h

/-- Every database slot named by the digest of a listed serialization is
either still empty or already holds exactly that serialization. -/
def GoodFor (db : DB) (S : List Str) : Prop :=
  ∀ s ∈ S, db (dbKey (sha1Hex s)) = none ∨ db (dbKey (sha1Hex s)) = some s

/-- The storage keys of the listed serializations do not collide: distinct
serializations among them get distinct digests paths. -/
def KeysInj (S : List Str) : Prop :=
  ∀ a ∈ S, ∀ b ∈ S, dbKey (sha1Hex a) = dbKey (sha1Hex b) → a = b

theorem db_store_fst (db : DB) (s : Str) : (db_store db s).1 = sha1Hex s := by
  unfold db_store
  simp only []
  split <;> rfl

theorem db_store_mono (db : DB) (s : Str) (k : DBKey) (v : Str)
    (h : db k = some v) : (db_store db s).2 k = some v := by
  unfold db_store
  simp only []
  split
  · exact h
  · by_cases hk : k = dbKey (sha1Hex s)
    · rename_i hns
      rw [hk] at h
      rw [h] at hns
      exact absurd rfl hns
    · simpa [hk] using h

theorem db_store_frame (db : DB) (s : Str) (k : DBKey)
    (hk : k ≠ dbKey (sha1Hex s)) : (db_store db s).2 k = db k := by
  unfold db_store
  simp only []
  split
  · rfl
  · simp [hk]

theorem db_store_self_good (db : DB) (s : Str)
    (h : db (dbKey (sha1Hex s)) = none ∨ db (dbKey (sha1Hex s)) = some s) :
    (db_store db s).2 (dbKey (sha1Hex s)) = some s := by
  unfold db_store
  simp only []
  rcases h with h | h
  · rw [if_neg (by simp [h])]
    simp
  · rw [if_pos (by simp [h])]
    exact h

theorem store_preserves_good (db : DB) (S : List Str) (s : Str) (hs : s ∈ S)
    (hg : GoodFor db S) (hinj : KeysInj S) : GoodFor (db_store db s).2 S := by
  intro t ht
  by_cases hk : dbKey (sha1Hex t) = dbKey (sha1Hex s)
  · have hts : t = s := hinj t ht s hs hk
    right
    rw [hts]
    exact db_store_self_good db s (hg s hs)
  · rw [db_store_frame db s _ hk]
    exact hg t ht

theorem writeChildrenDB_cons_file (db : DB) (n : Str) (cch : NodeMap) (s : Str)
    (rest : NodeMap) :
    writeChildrenDB db (.cons n (.mk cch (some s)) rest) =
      writeChildrenDB db rest := rfl

theorem writeChildrenDB_cons_dir (db : DB) (n : Str) (cch rest : NodeMap) :
    writeChildrenDB db (.cons n (.mk cch none) rest) =
      writeChildrenDB
        ((db_store (writeChildrenDB db cch) (treeBytesOf cch)).2) rest := rfl

theorem allSerials_cons_file (n : Str) (cch : NodeMap) (s : Str)
    (rest : NodeMap) :
    allSerials (.cons n (.mk cch (some s)) rest) = allSerials rest := rfl

theorem allSerials_cons_dir (n : Str) (cch rest : NodeMap) :
    allSerials (.cons n (.mk cch none) rest) =
      (allSerials cch ++ [treeBytesOf cch]) ++ allSerials rest := rfl

theorem writeChildren_mono : ∀ (m : NodeMap), ∀ (db : DB) (k : DBKey) (v : Str),
    db k = some v → writeChildrenDB db m k = some v := by
  refine nmapRecFull ?_ ?_
  · intro db k v h
    exact h
  · intro n cch csha rest ihc ihrest db k v h
    cases csha with
    | some s =>
      rw [writeChildrenDB_cons_file]
      exact ihrest db k v h
    | none =>
      rw [writeChildrenDB_cons_dir]
      exact ihrest _ k v (db_store_mono _ _ k v (ihc db k v h))

theorem writeChildren_inv : ∀ (m : NodeMap), ∀ (S : List Str) (db : DB),
    (∀ s ∈ allSerials m, s ∈ S) → GoodFor db S → KeysInj S →
    GoodFor (writeChildrenDB db m) S ∧
      (∀ s ∈ allSerials m, writeChildrenDB db m (dbKey (sha1Hex s)) = some s) ∧
      (∀ k, (∀ s ∈ S, k ≠ dbKey (sha1Hex s)) → writeChildrenDB db m k = db k) := by
  refine nmapRecFull ?_ ?_
  · intro S db _ hg _
    exact ⟨hg, fun s hs => absurd hs (List.not_mem_nil s),
      fun k _ => rfl⟩
  · intro n cch csha rest ihc ihrest S db hsub hg hinj
    cases csha with
    | some s0 =>
      rw [writeChildrenDB_cons_file]
      have hsub2 : ∀ s ∈ allSerials rest, s ∈ S := by
        intro s hs
        exact hsub s (by rw [allSerials_cons_file]; exact hs)
      have hr := ihrest S db hsub2 hg hinj
      exact ⟨hr.1, fun s hs => hr.2.1 s (by rw [allSerials_cons_file] at hs; exact hs),
        hr.2.2⟩
    | none =>
      rw [writeChildrenDB_cons_dir]
      have hsubc : ∀ s ∈ allSerials cch, s ∈ S := by
        intro s hs
        refine hsub s ?_
        rw [allSerials_cons_dir]
        exact List.mem_append.mpr (Or.inl (List.mem_append.mpr (Or.inl hs)))
      have htbS : treeBytesOf cch ∈ S := by
        refine hsub _ ?_
        rw [allSerials_cons_dir]
        exact List.mem_append.mpr (Or.inl (List.mem_append.mpr (Or.inr (by simp))))
      have hsubr : ∀ s ∈ allSerials rest, s ∈ S := by
        intro s hs
        refine hsub s ?_
        rw [allSerials_cons_dir]
        exact List.mem_append.mpr (Or.inr hs)
      have hA := ihc S db hsubc hg hinj
      have hg1 : GoodFor (db_store (writeChildrenDB db cch) (treeBytesOf cch)).2 S :=
        store_preserves_good _ S _ htbS hA.1 hinj
      have hstored_tb :
          (db_store (writeChildrenDB db cch) (treeBytesOf cch)).2
            (dbKey (sha1Hex (treeBytesOf cch))) = some (treeBytesOf cch) :=
        db_store_self_good _ _ (hA.1 _ htbS)
      have hR := ihrest S _ hsubr hg1 hinj
      refine ⟨hR.1, ?_, ?_⟩
      · intro s hs
        rw [allSerials_cons_dir] at hs
        rcases List.mem_append.mp hs with hs | hs
        · rcases List.mem_append.mp hs with hs | hs
          · exact writeChildren_mono rest _ _ s
              (db_store_mono _ _ _ s (hA.2.1 s hs))
          · have hse : s = treeBytesOf cch := by simpa using hs
            rw [hse]
            exact writeChildren_mono rest _ _ _ hstored_tb
        · exact hR.2.1 s hs
      · intro k hk
        rw [hR.2.2 k hk, db_store_frame _ _ k (hk _ htbS), hA.2.2 k hk]

theorem write_node_inv (m : NodeMap) (db : DB) (S : List Str)
    (hsub : ∀ s ∈ allSerialsNode m, s ∈ S) (hg : GoodFor db S)
    (hinj : KeysInj S) :
    (write_tree_impl db (.mk m none)).1 = sha1Hex (treeBytesOf m) ∧
      (∀ s ∈ allSerialsNode m,
        (write_tree_impl db (.mk m none)).2 (dbKey (sha1Hex s)) = some s) := by
  have hsubA : ∀ s ∈ allSerials m, s ∈ S := by
    intro s hs
    exact hsub s (List.mem_append.mpr (Or.inl hs))
  have htbS : treeBytesOf m ∈ S := hsub _ (List.mem_append.mpr (Or.inr (by simp)))
  have hA := writeChildren_inv m S db hsubA hg hinj
  refine ⟨db_store_fst _ _, ?_⟩
  intro s hs
  show (db_store (writeChildrenDB db (TreeNode.mk m none).children)
      (treeBytesOf (TreeNode.mk m none).children)).2 (dbKey (sha1Hex s)) = some s
  rcases List.mem_append.mp hs with hs | hs
  · exact db_store_mono _ _ _ s (hA.2.1 s hs)
  · have hse : s = treeBytesOf m := by simpa using hs
    rw [hse]
    exact db_store_self_good _ _ (hA.1 _ htbS)

theorem retrieve_stored (db : DB) (s : Str)
    (h : db (dbKey (sha1Hex s)) = some s) :
    db_retrieve db (sha1Hex s) = some s := by
  unfold db_retrieve
  rw [if_pos]
  · exact h
  · have hx := sha1Hex_isHex40 s
    unfold isHex40 at hx
    exact hx

theorem treeDeserialize_bytesOf (m : NodeMap) (hw : wfChildren m = true)
    (hv : validChildren m = true) :
    treeDeserialize (treeBytesOf m) = some (mapOfChildren m) := by
  unfold treeBytesOf
  rw [write_tree_map_eq m hw]
  exact treeDeserialize_serialize (mapOfChildren m) (mapOf_pairwise m hw)
    (mapOf_name m) (mapOf_ty m) (mapOf_sha m hv)
    (fun p hp => (mapOf_names_ok m hv p hp).1)
    (fun p hp => (mapOf_names_ok m hv p hp).2)

/-- One step of the collect_tree_files fold over decoded tree entries. -/
def ctfStep (db : DB) (fuel : Nat) (acc : List (List Str × Str))
    (e : Str × TreeEntry) : Option (List (List Str × Str)) :=
  match e.2.object_type with
  | .blob => some (acc ++ [([e.2.name], e.2.sha1)])
  | .tree =>
    match collect_tree_files db fuel e.2.sha1 with
    | none => none
    | some sub => some (acc ++ sub.map fun p => (e.2.name :: p.1, p.2))
  | .commit => none

theorem collect_tree_files_succ (db : DB) (fuel : Nat) (sha : Str) :
    collect_tree_files db (fuel + 1) sha =
      match db_retrieve db sha with
      | none => none
      | some bytes =>
        match treeDeserialize bytes with
        | none => none
        | some t => t.foldlM (ctfStep db fuel) [] := rfl

theorem ctfStep_blob (db : DB) (fuel : Nat) (acc : List (List Str × Str))
    (n s nm : Str) :
    ctfStep db fuel acc (n, ⟨.blob, s, nm⟩) = some (acc ++ [([nm], s)]) := rfl

theorem ctfStep_tree (db : DB) (fuel : Nat) (acc : List (List Str × Str))
    (n s nm : Str) :
    ctfStep db fuel acc (n, ⟨.tree, s, nm⟩) =
      match collect_tree_files db fuel s with
      | none => none
      | some sub => some (acc ++ sub.map fun p => (nm :: p.1, p.2)) := rfl

theorem depth_cons_file (n : Str) (cch : NodeMap) (s : Str) (rest : NodeMap) :
    depthChildren (.cons n (.mk cch (some s)) rest) =
      max 0 (depthChildren rest) := rfl

theorem depth_cons_dir (n : Str) (cch rest : NodeMap) :
    depthChildren (.cons n (.mk cch none) rest) =
      max (depthChildren cch + 1) (depthChildren rest) := rfl

theorem ctfStep_fold (db : DB) (fuel : Nat)
    (ihf : ∀ (mc : NodeMap), wfChildren mc = true → validChildren mc = true →
      depthChildren mc < fuel →
      (∀ s ∈ allSerialsNode mc, db_retrieve db (sha1Hex s) = some s) →
      collect_tree_files db fuel (sha1Hex (treeBytesOf mc)) =
        some (collectChildren mc)) :
    ∀ (m : NodeMap), wfChildren m = true → validChildren m = true →
    depthChildren m ≤ fuel →
    (∀ s ∈ allSerials m, db_retrieve db (sha1Hex s) = some s) →
    ∀ (acc : List (List Str × Str)),
    (mapOfChildren m).foldlM (ctfStep db fuel) acc =
      some (acc ++ collectChildren m) := by
  refine nmapRec ?_ ?_
  · intro _ _ _ _ acc
    simp [mapOfChildren, collect_nil]
  · intro k v rest ih hw hv hd hr acc
    cases v with
    | mk cch csha =>
      have hwparts := wf_parts k cch csha rest hw
      rw [validChildren_cons_eq] at hv
      simp only [Bool.and_eq_true] at hv
      cases csha with
      | some s =>
        show ((k, TreeEntry.mk .blob s k) :: mapOfChildren rest).foldlM
          (ctfStep db fuel) acc = _
        rw [List.foldlM_cons, ctfStep_blob]
        show (mapOfChildren rest).foldlM (ctfStep db fuel) (acc ++ [([k], s)]) = _
        rw [ih hwparts.2 hv.2 ?hdr ?hrr (acc ++ [([k], s)])]
        case hdr =>
          rw [depth_cons_file] at hd
          exact le_trans (le_max_right _ _) hd
        case hrr =>
          intro s2 hs2
          exact hr s2 (by rw [allSerials_cons_file]; exact hs2)
        rw [collect_cons, nodeBlock_file]
        simp
      | none =>
        show ((k, TreeEntry.mk .tree (sha1Hex (treeBytesOf cch)) k) ::
          mapOfChildren rest).foldlM (ctfStep db fuel) acc = _
        rw [List.foldlM_cons, ctfStep_tree]
        rw [depth_cons_dir] at hd
        have hsub : collect_tree_files db fuel (sha1Hex (treeBytesOf cch)) =
            some (collectChildren cch) := by
          refine ihf cch hwparts.1 hv.1.2 ?_ ?_
          · exact Nat.lt_of_succ_le (le_trans (le_max_left _ _) hd)
          · intro s2 hs2
            refine hr s2 ?_
            rw [allSerials_cons_dir]
            exact List.mem_append.mpr (Or.inl hs2)
        rw [hsub]
        show (mapOfChildren rest).foldlM (ctfStep db fuel)
          (acc ++ (collectChildren cch).map fun p => (k :: p.1, p.2)) = _
        rw [ih hwparts.2 hv.2 ?hdr2 ?hrr2 _]
        case hdr2 => exact le_trans (le_max_right _ _) hd
        case hrr2 =>
          intro s2 hs2
          refine hr s2 ?_
          rw [allSerials_cons_dir]
          exact List.mem_append.mpr (Or.inr hs2)
        rw [collect_cons, nodeBlock_dir]
        simp

theorem collect_files_written (db : DB) : ∀ (fuel : Nat) (m : NodeMap),
    wfChildren m = true → validChildren m = true → depthChildren m < fuel →
    (∀ s ∈ allSerialsNode m, db_retrieve db (sha1Hex s) = some s) →
    collect_tree_files db fuel (sha1Hex (treeBytesOf m)) =
      some (collectChildren m) := by
  intro fuel
  induction fuel with
  | zero =>
    intro m _ _ hd _
    exact absurd hd (Nat.not_lt_zero _)
  | succ fuel ih =>
    intro m hw hv hd hr
    rw [collect_tree_files_succ]
    rw [hr _ (List.mem_append.mpr (Or.inr (by simp)))]
    simp only []
    rw [treeDeserialize_bytesOf m hw hv]
    simp only []
    rw [ctfStep_fold db fuel ih m hw hv (Nat.lt_succ_iff.mp hd)
      (fun s hs => hr s (List.mem_append.mpr (Or.inl hs))) []]
    simp

theorem update_entry_root (mm : NodeMap) (sz : Nat) (s sha : Str)
    (h : ¬ splitNorm s = []) :
    (Index.mk (.mk mm none) sz).update_entry s sha =
      Index.mk (.mk (updateChildren mm (splitNorm s) sha).1 none)
        (sz + if (updateChildren mm (splitNorm s) sha).2 then 1 else 0) := by
  unfold Index.update_entry
  simp only []
  rw [if_neg h]
  rfl

theorem fold_update_root : ∀ (ps : List (List Str × Str)),
    (∀ p ∈ ps, p.1 ≠ []) →
    (∀ p ∈ ps, ∀ c ∈ p.1, validName c = true) →
    ∀ (mm : NodeMap) (sz : Nat),
    (ps.foldl (fun idx e => idx.update_entry (joinSep '/' e.1) e.2)
        (Index.mk (.mk mm none) sz)).root =
      .mk (ps.foldl (fun m e => (updateChildren m e.1 e.2).1) mm) none := by
  intro ps
  induction ps with
  | nil =>
    intro _ _ mm sz
    rfl
  | cons p ps ih =>
    intro hne hvn mm sz
    have hp1 := hne p (List.mem_cons_self p ps)
    have hcomps : splitNorm (joinSep '/' p.1) = p.1 :=
      splitNorm_joinSep p.1 hp1 (hvn p (List.mem_cons_self p ps))
    rw [List.foldl_cons, List.foldl_cons,
      update_entry_root mm sz _ p.2 (by rw [hcomps]; exact hp1), hcomps]
    exact ih (fun q hq => hne q (List.mem_cons_of_mem p hq))
      (fun q hq => hvn q (List.mem_cons_of_mem p hq)) _ _

theorem read_tree_written (db : DB) (fuel : Nat) (m : NodeMap)
    (hw : wfChildren m = true) (hv : validChildren m = true)
    (hd : depthChildren m < fuel)
    (hr : ∀ s ∈ allSerialsNode m, db_retrieve db (sha1Hex s) = some s) :
    (read_tree db fuel (sha1Hex (treeBytesOf m))).map Index.collect_entries =
      some ((collectChildren m).map fun p => (joinSep '/' p.1, p.2)) := by
  unfold read_tree
  rw [collect_files_written db fuel m hw hv hd hr]
  simp only [Option.map_some]
  apply congrArg some
  have hcv := collect_valid m hv
  have hroot := fold_update_root (collectChildren m)
    (fun p hp => (hcv p hp).1) (fun p hp => (hcv p hp).2) .nil 0
  unfold Index.collect_entries
  rw [show (Index.new : Index) = Index.mk (.mk .nil none) 0 from rfl, hroot]
  show (collectChildren (buildChildren (collectChildren m))).map _ = _
  rw [(collect_build (collectChildren m) (collect_pairwise m hw)
    (fun p hp => (hcv p hp).1)).1]

/-- A 40-character digest made of the hex digit a, for concrete instances. -/
def sha40a : Str := List.replicate 40 'a'

/-- A second 40-character hex digest for concrete instances. -/
def sha40b : Str := List.replicate 40 'b'

/-- Concrete index children for the C1 witness: a directory d containing file
f, and a top-level file g. -/
def c1map : NodeMap :=
  .cons (strOf "d") (.mk (.cons (strOf "f") (.mk .nil (some sha40a)) .nil) none)
    (.cons (strOf "g") (.mk .nil (some sha40b)) .nil)

/-- Concrete index children for the C1 counterexample: a single file whose
name contains a backslash. -/
def cexm : NodeMap := .cons (strOf "a\\b") (.mk .nil (some sha40a)) .nil

/-- C1: for an index whose entry names are valid single path components and
whose file digests are 40-hex, writing the tree into an object database whose
slots for the written objects are absent or already correct, with no storage
key collision among the written tree objects, and reading it back with enough
recursion fuel recovers exactly the index's (path, digest) entries. -/
theorem C1_tree_round_trip (m : NodeMap) (sz : Nat) (db : DB) (fuel : Nat)
    (hw : wfChildren m = true) (hv : validChildren m = true)
    (hd : depthChildren m < fuel)
    (hg : GoodFor db (allSerialsNode m)) (hinj : KeysInj (allSerialsNode m)) :
    (read_tree (write_tree_impl db (.mk m none)).2 fuel
        (write_tree_impl db (.mk m none)).1).map Index.collect_entries =
      some ((Index.mk (.mk m none) sz).collect_entries) := by
  have hwn := write_node_inv m db (allSerialsNode m) (fun s hs => hs) hg hinj
  rw [hwn.1]
  have hr : ∀ s ∈ allSerialsNode m,
      db_retrieve (write_tree_impl db (.mk m none)).2 (sha1Hex s) = some s :=
    fun s hs => retrieve_stored _ s (hwn.2 s hs)
  rw [read_tree_written _ fuel m hw hv hd hr]
  rfl

/-- C1 witness: the round trip at a concrete two-file index with a nested
directory, over the empty object database. -/
theorem C1_tree_round_trip_witness :
    wfChildren c1map = true ∧ validChildren c1map = true ∧
      depthChildren c1map < 3 ∧
      (read_tree (write_tree_impl (fun _ => none) (.mk c1map none)).2 3
          (write_tree_impl (fun _ => none) (.mk c1map none)).1).map
        Index.collect_entries =
        some ((Index.mk (.mk c1map none) 2).collect_entries) :=
  ⟨by decide, by decide, by decide,
    C1_tree_round_trip c1map 2 (fun _ => none) 3 (by decide) (by decide)
      (by decide) (fun s _ => Or.inl rfl) (by unfold KeysInj; decide)⟩

/-- C1 counterexample: an index entry named with a backslash satisfies the
claim's stated hypotheses (non-empty, no slash, no newline, no NUL, 40-hex
digest), yet the round trip renames it, splitting it into a directory. -/
theorem C1_counterexample :
    (strOf "a\\b" ≠ [] ∧ '/' ∉ strOf "a\\b" ∧ '\n' ∉ strOf "a\\b" ∧
      Char.ofNat 0 ∉ strOf "a\\b" ∧ isHex40 sha40a = true) ∧
    (Index.mk (.mk cexm none) 1).collect_entries = [(strOf "a\\b", sha40a)] ∧
    (read_tree (write_tree_impl (fun _ => none) (.mk cexm none)).2 2
        (write_tree_impl (fun _ => none) (.mk cexm none)).1).map
      Index.collect_entries = some [(strOf "a/b", sha40a)] ∧
    (strOf "a/b" : Str) ≠ strOf "a\\b" := by
  refine ⟨by decide, by decide, ?_, by decide⟩
  decide

theorem db_store_of_some (db : DB) (o : Str)
    (h : (db (dbKey (sha1Hex o))).isSome = true) :
    db_store db o = (sha1Hex o, db) := by
  unfold db_store
  simp only []
  rw [if_pos h]

/-- C2: storing an object returns the digest of its encoded bytes whether or
not a write occurred; when the target slot was absent or already held those
bytes, retrieving that digest afterwards returns exactly the bytes, and a
second store of the same bytes returns the same digest and leaves the
database untouched. -/
theorem C2_store_retrieve (db : DB) (o : Str)
    (h : db (dbKey (sha1Hex o)) = none ∨ db (dbKey (sha1Hex o)) = some o) :
    (db_store db o).1 = sha1Hex o ∧
      db_retrieve (db_store db o).2 ((db_store db o).1) = some o ∧
      (db_store (db_store db o).2 o).1 = (db_store db o).1 ∧
      (db_store (db_store db o).2 o).2 = (db_store db o).2 := by
  have h1 : (db_store db o).2 (dbKey (sha1Hex o)) = some o :=
    db_store_self_good db o h
  have hpos : ((db_store db o).2 (dbKey (sha1Hex o))).isSome = true := by
    rw [h1]
    rfl
  refine ⟨db_store_fst db o, ?_, ?_, ?_⟩
  · rw [db_store_fst db o]
    exact retrieve_stored _ o h1
  · rw [db_store_of_some _ o hpos, db_store_fst db o]
  · rw [db_store_of_some _ o hpos]

/-- C2 witness: storing the bytes of the string hello into the empty object
database. -/
theorem C2_store_retrieve_witness :
    ((fun _ => none : DB) (dbKey (sha1Hex (strOf "hello"))) = none ∨
      (fun _ => none : DB) (dbKey (sha1Hex (strOf "hello"))) =
        some (strOf "hello")) ∧
    ((db_store (fun _ => none) (strOf "hello")).1 = sha1Hex (strOf "hello") ∧
      db_retrieve (db_store (fun _ => none) (strOf "hello")).2
          ((db_store (fun _ => none) (strOf "hello")).1) =
        some (strOf "hello") ∧
      (db_store (db_store (fun _ => none) (strOf "hello")).2 (strOf "hello")).1 =
        (db_store (fun _ => none) (strOf "hello")).1 ∧
      (db_store (db_store (fun _ => none) (strOf "hello")).2 (strOf "hello")).2 =
        (db_store (fun _ => none) (strOf "hello")).2) :=
  ⟨Or.inl rfl, C2_store_retrieve (fun _ => none) (strOf "hello") (Or.inl rfl)⟩

theorem mem_of_getLast?_any {α : Type} (l : List α) (a : α)
    (h : l.getLast? = some a) : a ∈ l := by
  rcases List.mem_getLast?_eq_getLast (l := l) (x := a) h with ⟨hne, he⟩
  exact he ▸ List.getLast_mem hne

theorem map_self {α : Type} (f : α → α) : ∀ (l : List α),
    (∀ a ∈ l, f a = a) → l.map f = l := by
  intro l
  induction l with
  | nil => intro _; rfl
  | cons x xs ih =>
    intro h
    rw [List.map_cons, h x (List.mem_cons_self x xs),
      ih fun a ha => h a (List.mem_cons_of_mem x ha)]

theorem rustLines_joinSep (ls : List Str) (hne : ls ≠ [])
    (hnl : ∀ l ∈ ls, '\n' ∉ l) (hlast : ls.getLast? ≠ some [])
    (hcr : ∀ l ∈ ls, l.getLast? ≠ some '\r') :
    rustLines (joinSep '\n' ls) = ls := by
  unfold rustLines
  rw [splitCh_joinSep '\n' ls hne hnl]
  simp only []
  rw [if_neg hlast]
  refine map_self _ ls ?_
  intro l hl
  cases hgl : l.getLast? with
  | none => rfl
  | some c =>
    have hc : ¬ c = '\r' := by
      intro he
      exact hcr l hl (he ▸ hgl)
    simp [hc]

theorem foldlM_map {α γ β : Type} (h : α → γ) (f : β → γ → Option β) :
    ∀ (l : List α) (b : β),
    (l.map h).foldlM f b = l.foldlM (fun b a => f b (h a)) b := by
  intro l
  induction l with
  | nil => intro b; rfl
  | cons x xs ih =>
    intro b
    rw [List.map_cons, List.foldlM_cons, List.foldlM_cons]
    cases hfx : f b (h x) with
    | none => rfl
    | some b2 =>
      show (xs.map h).foldlM f b2 = xs.foldlM _ b2
      exact ih b2

theorem foldlM_some {α β : Type} (f : β → α → Option β) (g : β → α → β) :
    ∀ (l : List α), (∀ x ∈ l, ∀ b, f b x = some (g b x)) →
    ∀ (b : β), l.foldlM f b = some (l.foldl g b) := by
  intro l
  induction l with
  | nil => intro _ b; rfl
  | cons x xs ih =>
    intro h b
    rw [List.foldlM_cons, h x (List.mem_cons_self x xs) b]
    show xs.foldlM f (g b x) = _
    rw [ih (fun y hy => h y (List.mem_cons_of_mem x hy)) (g b x), List.foldl_cons]

theorem hex40_all (s : Str) (h : isHex40 s = true) :
    ∀ c ∈ s, isHexCh c = true := by
  unfold isHex40 at h
  simp only [Bool.and_eq_true] at h
  exact fun c hc => List.all_eq_true.mp h.2 c hc

theorem hex40_ne_nil (s : Str) (h : isHex40 s = true) : s ≠ [] := by
  unfold isHex40 at h
  simp only [Bool.and_eq_true, decide_eq_true_eq] at h
  intro he
  rw [he] at h
  simp at h

theorem space_not_in_path (cs : List Str) (hvn : ∀ c ∈ cs, ' ' ∉ c) :
    ' ' ∉ joinSep '/' cs := by
  intro hm
  rcases mem_joinSep '/' cs ' ' hm with h | ⟨t, ht1, ht2⟩
  · exact absurd h (by decide)
  · exact hvn t ht1 ht2

theorem load_of_lines (es : List (List Str × Str))
    (hne : ∀ e ∈ es, e.1 ≠ [])
    (hvn : ∀ e ∈ es, ∀ c ∈ e.1, validName c = true ∧ ' ' ∉ c)
    (hsha : ∀ e ∈ es, isHex40 e.2 = true) :
    Index.load (joinSep '\n' (es.map fun e => joinSep '/' e.1 ++ [' '] ++ e.2)) =
      some (es.foldl (fun idx e => idx.update_entry (joinSep '/' e.1) e.2)
        Index.new) := by
  cases hes : es with
  | nil => rfl
  | cons e0 rest =>
    rw [← hes]
    unfold Index.load
    rw [rustLines_joinSep _ ?hmne ?hmnl ?hmlne ?hmcr]
    case hmne => rw [hes]; simp
    case hmnl =>
      intro l hl
      rcases List.mem_map.mp hl with ⟨e, he, hrfl⟩
      rw [← hrfl]
      intro hmem
      rcases List.mem_append.mp hmem with h | h
      · rcases List.mem_append.mp h with h | h
        · rcases mem_joinSep '/' e.1 '\n' h with h2 | ⟨t, ht1, ht2⟩
          · exact absurd h2 (by decide)
          · exact absurd ht2 (validName_props t (hvn e he t ht1).1).2.2.2.2.2.1
        · exact absurd h (by decide)
      · exact absurd (hex40_all e.2 (hsha e he) '\n' h) (by decide)
    case hmlne =>
      intro h
      rcases List.mem_map.mp (mem_of_getLast?_any _ [] h) with ⟨e, _, hrfl⟩
      simp at hrfl
    case hmcr =>
      intro l hl
      rcases List.mem_map.mp hl with ⟨e, he, hrfl⟩
      rw [← hrfl]
      rw [List.getLast?_append_of_ne_nil _ (hex40_ne_nil e.2 (hsha e he))]
      intro hg
      exact absurd (hex40_all e.2 (hsha e he) '\r'
        (mem_of_getLast?_any e.2 '\r' hg)) (by decide)
    rw [foldlM_map]
    refine foldlM_some _ _ es ?_ Index.new
    intro e he idx
    have hassoc : (joinSep '/' e.1 ++ [' ']) ++ e.2 =
        joinSep '/' e.1 ++ ' ' :: e.2 := by simp
    show (match splitOnce ' ' ((joinSep '/' e.1 ++ [' ']) ++ e.2) with
      | none => none
      | some (p, sha) => some (idx.update_entry p sha)) = _
    rw [hassoc, splitOnce_append ' ' _ e.2
      (space_not_in_path e.1 fun c hc => (hvn e he c hc).2)]

/-- C3: for an index file whose lines are sorted, prefix-free paths of valid
space-free components followed by one space and a 40-hex digest, joined by
single newlines with no trailing newline, loading and saving reproduces the
file byte-for-byte. -/
theorem C3_index_round_trip (es : List (List Str × Str))
    (hord : List.Pairwise
      (fun a b => compsLt a.1 b.1 = true ∧ isPre a.1 b.1 = false) es)
    (hne : ∀ e ∈ es, e.1 ≠ [])
    (hvn : ∀ e ∈ es, ∀ c ∈ e.1, validName c = true ∧ ' ' ∉ c)
    (hsha : ∀ e ∈ es, isHex40 e.2 = true) :
    (Index.load (joinSep '\n'
        (es.map fun e => joinSep '/' e.1 ++ [' '] ++ e.2))).map Index.save =
      some (joinSep '\n' (es.map fun e => joinSep '/' e.1 ++ [' '] ++ e.2)) := by
  rw [load_of_lines es hne hvn hsha]
  apply congrArg some
  have hroot := fold_update_root es hne
    (fun e he c hc => (hvn e he c hc).1) .nil 0
  unfold Index.save Index.collect_entries
  rw [show (Index.new : Index) = Index.mk (.mk .nil none) 0 from rfl, hroot]
  show joinSep '\n' (((collectChildren (buildChildren es)).map _).map _) = _
  rw [(collect_build es hord hne).1, List.map_map]
  rfl

/-- Concrete entries for the C3 witness: two sorted file paths, one nested. -/
def c3es : List (List Str × Str) :=
  [([strOf "a.txt"], sha40a), ([strOf "b", strOf "c.txt"], sha40b)]

/-- C3 witness: the index file of two sorted entries round trips. -/
theorem C3_index_round_trip_witness :
    (List.Pairwise
        (fun a b => compsLt a.1 b.1 = true ∧ isPre a.1 b.1 = false) c3es ∧
      (∀ e ∈ c3es, e.1 ≠ []) ∧
      (∀ e ∈ c3es, ∀ c ∈ e.1, validName c = true ∧ ' ' ∉ c) ∧
      (∀ e ∈ c3es, isHex40 e.2 = true)) ∧
    (Index.load (joinSep '\n'
        (c3es.map fun e => joinSep '/' e.1 ++ [' '] ++ e.2))).map Index.save =
      some (joinSep '\n'
        (c3es.map fun e => joinSep '/' e.1 ++ [' '] ++ e.2)) :=
  ⟨⟨by decide, by decide, by decide, by decide⟩,
    C3_index_round_trip c3es (by decide) (by decide) (by decide) (by decide)⟩

/-- C3 counterexample: a file of one line terminated by a newline, as the
spec's stated on-disk format prescribes, loads but saves back without the
trailing newline, so the round trip is not byte-for-byte. -/
theorem C3_counterexample :
    (Index.load (strOf "f.txt " ++ sha40a ++ ['\n'])).map Index.save =
      some (strOf "f.txt " ++ sha40a) ∧
    some (strOf "f.txt " ++ sha40a) ≠
      some (strOf "f.txt " ++ sha40a ++ ['\n']) := by
  refine ⟨?_, by decide⟩
  decide

/-- Modelled from the spec's words for C4: the spec's normalization
algorithm, which pops the previous component at each interior
parent-directory component (dropLast on an empty accumulator realizes the
dropping of leading parent-directory components). -/
def spec_normalize (p : Str) : Str :=
  joinSep '/'
    ((splitCh '/' (replaceBS p)).foldl
      (fun acc comp =>
        if comp = strOf ".." then acc.dropLast
        else if comp = [] ∨ comp = strOf "." then acc
        else acc ++ [comp])
      [])

/-- The amended normalization algorithm: parent-directory components are
dropped outright, never popping what came before them. -/
def spec_normalize_drop (p : Str) : Str :=
  joinSep '/'
    ((splitCh '/' (replaceBS p)).foldl
      (fun acc comp =>
        if comp = [] ∨ comp = strOf "." ∨ comp = strOf ".." then acc
        else acc ++ [comp])
      [])

theorem foldl_drop_filter : ∀ (l : List Str) (acc : List Str),
    l.foldl
      (fun acc comp =>
        if comp = [] ∨ comp = strOf "." ∨ comp = strOf ".." then acc
        else acc ++ [comp])
      acc =
    acc ++ l.filter fun c => decide (c ≠ [] ∧ c ≠ strOf "." ∧ c ≠ strOf "..") := by
  intro l
  induction l with
  | nil =>
    intro acc
    simp
  | cons x xs ih =>
    intro acc
    rw [List.foldl_cons, List.filter_cons]
    by_cases hx : x = [] ∨ x = strOf "." ∨ x = strOf ".."
    · rw [if_pos hx, ih acc, if_neg (by simp [not_and_or]; tauto)]
    · rw [if_neg hx, ih (acc ++ [x]), if_pos (by simp [not_or] at hx; simp [hx])]
      simp

/-- C4: the implemented path normalization follows the amended algorithm
that drops every parent-directory component outright (backslashes replaced
by slashes, empty and current-directory components dropped, remaining
components joined with slashes). -/
theorem C4_normalize_path (p : Str) :
    normalize_path p = spec_normalize_drop p := by
  unfold normalize_path spec_normalize_drop
  rw [foldl_drop_filter]
  rfl

/-- C4 counterexample: the spec's popping algorithm sends a/../b to b, but
the implementation keeps the a, producing a/b. -/
theorem C4_counterexample :
    normalize_path (strOf "a/../b") = strOf "a/b" ∧
      spec_normalize (strOf "a/../b") = strOf "b" ∧
      (strOf "a/b" : Str) ≠ strOf "b" := by
  refine ⟨by decide, by decide, by decide⟩

theorem nmapRemoveGet_of_none : ∀ (m : NodeMap) (k : Str),
    nmapGet k m = none → nmapRemoveGet k m = (m, none) := by
  refine nmapRec ?_ ?_
  · intro k _
    rfl
  · intro k2 v2 rest ih k h
    by_cases hk : k = k2
    · simp [nmapGet, hk] at h
    · have hrest : nmapGet k rest = none := by simpa [nmapGet, hk] using h
      show (if k = k2 then (rest, some v2)
        else (.cons k2 v2 (nmapRemoveGet k rest).1, (nmapRemoveGet k rest).2)) =
        (NodeMap.cons k2 v2 rest, none)
      rw [if_neg hk, ih k hrest]

theorem nmapRemoveGet_snd : ∀ (m : NodeMap) (k : Str) (v : TreeNode),
    nmapGet k m = some v → (nmapRemoveGet k m).2 = some v := by
  refine nmapRec ?_ ?_
  · intro k v h
    simp [nmapGet] at h
  · intro k2 v2 rest ih k v h
    by_cases hk : k = k2
    · have hv : v2 = v := by simpa [nmapGet, hk] using h
      show (if k = k2 then (rest, some v2)
        else (.cons k2 v2 (nmapRemoveGet k rest).1, (nmapRemoveGet k rest).2)).2 =
        some v
      rw [if_pos hk, hv]
    · have hrest : nmapGet k rest = some v := by simpa [nmapGet, hk] using h
      show (if k = k2 then (rest, some v2)
        else (.cons k2 v2 (nmapRemoveGet k rest).1, (nmapRemoveGet k rest).2)).2 =
        some v
      rw [if_neg hk]
      exact ih k v hrest

theorem keys_remove_subset : ∀ (m : NodeMap) (k : Str),
    ∀ k2 ∈ nmapKeys (nmapRemoveGet k m).1, k2 ∈ nmapKeys m := by
  refine nmapRec ?_ ?_
  · intro k k2 hk2
    exact hk2
  · intro k3 v3 rest ih k k2 hk2
    by_cases hk : k = k3
    · have hm : k2 ∈ nmapKeys rest := by
        simpa [nmapRemoveGet, hk] using hk2
      exact List.mem_cons_of_mem _ hm
    · have hk2m : k2 ∈ k3 :: nmapKeys (nmapRemoveGet k rest).1 := by
        simpa [nmapRemoveGet, hk, nmapKeys] using hk2
      rcases List.mem_cons.mp hk2m with h | h
      · exact h ▸ List.mem_cons_self _ _
      · exact List.mem_cons_of_mem _ (ih k k2 h)

theorem wf_remove : ∀ (m : NodeMap) (k : Str), wfChildren m = true →
    wfChildren (nmapRemoveGet k m).1 = true := by
  refine nmapRecFull ?_ ?_
  · intro k _
    rfl
  · intro k2 cch2 csha2 rest _ ihrest k hw
    have hparts := wf_parts k2 cch2 csha2 rest hw
    show wfChildren (if k = k2 then (rest, some (TreeNode.mk cch2 csha2))
      else (.cons k2 (.mk cch2 csha2) (nmapRemoveGet k rest).1,
        (nmapRemoveGet k rest).2)).1 = true
    by_cases hk : k = k2
    · rw [if_pos hk]
      exact hparts.2
    · rw [if_neg hk]
      have hwr := ihrest k hparts.2
      cases hrem : (nmapRemoveGet k rest).1 with
      | nil =>
        rw [wfChildren_cons_eq]
        simp [hparts.1, wfChildren_nil]
      | cons k3 c3 r3 =>
        have hk3 : k3 ∈ nmapKeys rest :=
          keys_remove_subset rest k k3 (by rw [hrem]; exact List.mem_cons_self _ _)
        have hlt := wf_keys_gt rest k2 cch2 csha2 hw k3 hk3
        rw [hrem] at hwr
        rw [wfChildren_cons_eq]
        cases c3 with
        | mk c3c c3s =>
          simp [hparts.1, hwr, hlt]

theorem get_removed : ∀ (m : NodeMap) (k : Str), wfChildren m = true →
    nmapGet k (nmapRemoveGet k m).1 = none := by
  refine nmapRecFull ?_ ?_
  · intro k _
    rfl
  · intro k2 cch2 csha2 rest _ ihrest k hw
    have hparts := wf_parts k2 cch2 csha2 rest hw
    show nmapGet k (if k = k2 then (rest, some (TreeNode.mk cch2 csha2))
      else (.cons k2 (.mk cch2 csha2) (nmapRemoveGet k rest).1,
        (nmapRemoveGet k rest).2)).1 = none
    by_cases hk : k = k2
    · rw [if_pos hk]
      refine nmapGet_none_of_gt rest k ?_
      intro k3 hk3
      exact hk ▸ wf_keys_gt rest k2 cch2 csha2 hw k3 hk3
    · rw [if_neg hk]
      simp only [nmapGet, if_neg hk]
      exact ihrest k hparts.2

theorem mem_keys_of_get : ∀ (m : NodeMap) (k : Str) (v : TreeNode),
    nmapGet k m = some v → k ∈ nmapKeys m := by
  refine nmapRec ?_ ?_
  · intro k v h
    simp [nmapGet] at h
  · intro k2 v2 rest ih k v h
    by_cases hk : k = k2
    · exact hk ▸ List.mem_cons_self _ _
    · have hrest : nmapGet k rest = some v := by simpa [nmapGet, hk] using h
      exact List.mem_cons_of_mem _ (ih k v hrest)

theorem nmapInsert_same : ∀ (m : NodeMap) (k : Str) (v : TreeNode),
    wfChildren m = true → nmapGet k m = some v → nmapInsert k v m = m := by
  refine nmapRecFull ?_ ?_
  · intro k v _ h
    simp [nmapGet] at h
  · intro k2 cch2 csha2 rest _ ihrest k v hw h
    have hparts := wf_parts k2 cch2 csha2 rest hw
    by_cases hk : k = k2
    · have hv : TreeNode.mk cch2 csha2 = v := by simpa [nmapGet, hk] using h
      unfold nmapInsert
      rw [if_neg (by rw [hk, strLt_irrefl]; simp), if_pos hk, hk, ← hv]
    · have hrest : nmapGet k rest = some v := by simpa [nmapGet, hk] using h
      have hmem := mem_keys_of_get rest k v hrest
      have hnlt : ¬ strLt k k2 = true := by
        intro hlt
        have hf := strLt_asymm k2 k (wf_keys_gt rest k2 cch2 csha2 hw k hmem)
        rw [hlt] at hf
        exact absurd hf (by simp)
      unfold nmapInsert
      rw [if_neg hnlt, if_neg hk, ihrest k v hparts.2 hrest]

/-- Lookup of the node carried by a component path: the node the remove and
get loops reach when every intermediate component resolves. -/
def findNode : NodeMap → List Str → Option TreeNode
  | _, [] => none
  | m, [n] => nmapGet n m
  | m, n :: rest =>
    match nmapGet n m with
    | none => none
    | some child => findNode child.children rest

theorem remove_lookup : ∀ (comps : List Str), ∀ (m : NodeMap),
    wfChildren m = true →
    (findNode m comps = none ∧ comps ≠ [] → removeChildren m comps = (m, none)) ∧
    (∀ node, findNode m comps = some node →
      (removeChildren m comps).2 = some node ∧
      getChildren (removeChildren m comps).1 comps = none ∧
      wfChildren (removeChildren m comps).1 = true) := by
  intro comps
  induction comps with
  | nil =>
    intro m _
    refine ⟨fun h => absurd rfl h.2, ?_⟩
    intro node hf
    simp [findNode] at hf
  | cons n rest ih =>
    intro m hw
    cases rest with
    | nil =>
      constructor
      · intro h
        exact nmapRemoveGet_of_none m n h.1
      · intro node hf
        refine ⟨nmapRemoveGet_snd m n node hf, ?_, wf_remove m n hw⟩
        show (nmapGet n (nmapRemoveGet n m).1).bind (fun nd => nd.get_sha1) = none
        rw [get_removed m n hw]
        rfl
    | cons r1 rs =>
      constructor
      · intro h
        have hf := h.1
        cases hg : nmapGet n m with
        | none =>
          show (match nmapGet n m with
            | none => (m, none)
            | some child =>
              (nmapInsert n
                (.mk (removeChildren child.children (r1 :: rs)).1
                  child.get_sha1) m,
                (removeChildren child.children (r1 :: rs)).2)) = (m, none)
          rw [hg]
        | some child =>
          have hf2 : findNode child.children (r1 :: rs) = none := by
            rw [show findNode m (n :: r1 :: rs) =
              (match nmapGet n m with
               | none => none
               | some c => findNode c.children (r1 :: rs)) from rfl, hg] at hf
            exact hf
          have hwc := wf_get_children m n child hw hg
          have hrem := (ih child.children hwc).1 ⟨hf2, by simp⟩
          show (match nmapGet n m with
            | none => (m, none)
            | some child =>
              (nmapInsert n
                (.mk (removeChildren child.children (r1 :: rs)).1
                  child.get_sha1) m,
                (removeChildren child.children (r1 :: rs)).2)) = (m, none)
          rw [hg]
          simp only [hrem]
          cases child with
          | mk cc cs =>
            show (nmapInsert n (.mk cc cs) m, none) = (m, none)
            rw [nmapInsert_same m n (.mk cc cs) hw hg]
      · intro node hf
        cases hg : nmapGet n m with
        | none =>
          rw [show findNode m (n :: r1 :: rs) =
            (match nmapGet n m with
             | none => none
             | some c => findNode c.children (r1 :: rs)) from rfl, hg] at hf
          simp at hf
        | some child =>
          have hf2 : findNode child.children (r1 :: rs) = some node := by
            rw [show findNode m (n :: r1 :: rs) =
              (match nmapGet n m with
               | none => none
               | some c => findNode c.children (r1 :: rs)) from rfl, hg] at hf
            exact hf
          have hwc := wf_get_children m n child hw hg
          have hrem := (ih child.children hwc).2 node hf2
          have hred : removeChildren m (n :: r1 :: rs) =
              (nmapInsert n
                (.mk (removeChildren child.children (r1 :: rs)).1
                  child.get_sha1) m,
                (removeChildren child.children (r1 :: rs)).2) := by
            show (match nmapGet n m with
              | none => (m, none)
              | some child =>
                (nmapInsert n
                  (.mk (removeChildren child.children (r1 :: rs)).1
                    child.get_sha1) m,
                  (removeChildren child.children (r1 :: rs)).2)) = _
            rw [hg]
          rw [hred]
          refine ⟨hrem.1, ?_, ?_⟩
          · show (match nmapGet n (nmapInsert n
                (.mk (removeChildren child.children (r1 :: rs)).1
                  child.get_sha1) m) with
              | none => none
              | some c => getChildren c.children (r1 :: rs)) = none
            rw [nmapGet_insert_self]
            exact hrem.2.1
          · exact wf_insert m n _ hw hrem.2.2

/-- C5: remove_entry on a well-formed index whose size counter is positive
and in u64 range: an empty normalized path or an unresolvable path leaves
the index and its size exactly unchanged and returns nothing; when the path
resolves to a node, the node is removed, the size is decremented whether
the node was a file or a directory (at size 0 the counter would instead
wrap, a panic in debug builds), the removed digest (nothing for a
directory) is returned, and the path no longer resolves to a digest. -/
theorem C5_remove_entry (idx : Index) (p : Str)
    (hw : wfChildren idx.root.children = true)
    (hsz : 0 < idx.size) (hsz2 : idx.size < 2 ^ 64) :
    (splitNorm p = [] → idx.remove_entry p = (idx, none)) ∧
    (splitNorm p ≠ [] → findNode idx.root.children (splitNorm p) = none →
      idx.remove_entry p = (idx, none)) ∧
    (∀ node, findNode idx.root.children (splitNorm p) = some node →
      (idx.remove_entry p).2 = node.get_sha1 ∧
      (idx.remove_entry p).1.size = idx.size - 1 ∧
      (idx.remove_entry p).1.get_sha1 p = none) := by
  refine ⟨?_, ?_, ?_⟩
  · intro hc
    unfold Index.remove_entry
    simp only []
    rw [if_pos hc]
  · intro hc hf
    have hrem := (remove_lookup (splitNorm p) idx.root.children hw).1 ⟨hf, hc⟩
    unfold Index.remove_entry
    simp only []
    rw [if_neg hc, hrem]
    cases idx with
    | mk root size =>
      cases root with
      | mk ch sh => rfl
  · intro node hf
    have hc : splitNorm p ≠ [] := by
      intro he
      rw [he] at hf
      simp [findNode] at hf
    have hrem := (remove_lookup (splitNorm p) idx.root.children hw).2 node hf
    have hred : idx.remove_entry p =
        (Index.mk (.mk (removeChildren idx.root.children (splitNorm p)).1
            idx.root.get_sha1) ((idx.size + (2 ^ 64 - 1)) % 2 ^ 64),
          node.get_sha1) := by
      unfold Index.remove_entry
      simp only []
      rw [if_neg hc, hrem.1]
    rw [hred]
    refine ⟨rfl, by show (idx.size + (2 ^ 64 - 1)) % 2 ^ 64 = idx.size - 1; omega, ?_⟩
    unfold Index.get_sha1
    simp only []
    rw [if_neg hc]
    exact hrem.2.1

/-- Concrete index for C5: a directory a holding file a/b, and a file c. -/
def c5idx : Index :=
  ⟨.mk (.cons (strOf "a")
      (.mk (.cons (strOf "b") (.mk .nil (some sha40a)) .nil) none)
      (.cons (strOf "c") (.mk .nil (some sha40b)) .nil)) none, 2⟩

/-- C5 witness: removing the tracked file a/b from the concrete index. -/
theorem C5_remove_entry_witness :
    (wfChildren c5idx.root.children = true ∧ 0 < c5idx.size ∧
      c5idx.size < 2 ^ 64) ∧
    ((splitNorm (strOf "a/b") = [] →
        c5idx.remove_entry (strOf "a/b") = (c5idx, none)) ∧
      (splitNorm (strOf "a/b") ≠ [] →
        findNode c5idx.root.children (splitNorm (strOf "a/b")) = none →
        c5idx.remove_entry (strOf "a/b") = (c5idx, none)) ∧
      (∀ node, findNode c5idx.root.children (splitNorm (strOf "a/b")) =
          some node →
        (c5idx.remove_entry (strOf "a/b")).2 = node.get_sha1 ∧
        (c5idx.remove_entry (strOf "a/b")).1.size = c5idx.size - 1 ∧
        (c5idx.remove_entry (strOf "a/b")).1.get_sha1 (strOf "a/b") = none)) :=
  ⟨⟨by decide, by decide, by decide⟩,
    C5_remove_entry c5idx (strOf "a/b") (by decide) (by decide) (by decide)⟩

/-- Concrete index with a removable empty directory and size counter 0,
reachable by adding a/b, removing a/b, then removing a. -/
def c5zero : Index := ⟨.mk (.cons (strOf "a") (.mk .nil none) .nil) none, 0⟩

/-- C5 counterexample: removing the directory path a does not leave the
index unchanged, contrary to the claim: it deletes the whole subtree, still
decrements the size, and returns nothing; at size 0 the u64 counter wraps
to 2^64 - 1 (a panic in debug builds). -/
theorem C5_counterexample :
    (c5idx.remove_entry (strOf "a")).2 = none ∧
      c5idx.size = 2 ∧
      (c5idx.remove_entry (strOf "a")).1.size = 1 ∧
      c5idx.collect_entries = [(strOf "a/b", sha40a), (strOf "c", sha40b)] ∧
      (c5idx.remove_entry (strOf "a")).1.collect_entries =
        [(strOf "c", sha40b)] ∧
      (c5zero.remove_entry (strOf "a")).1.size = 2 ^ 64 - 1 := by
  refine ⟨by decide, by decide, by decide, by decide, by decide, by decide⟩

/-- C6: constructing an EncodedSha from a string succeeds exactly when the
string is 40 bytes long; no hexadecimal check is performed. -/
theorem C6_encoded_sha_from_str (s : Str) :
    (encodedSha_from_str s).isSome = true ↔ strBytes s = 40 := by
  unfold encodedSha_from_str
  by_cases h : strBytes s = 40
  · simp [h]
  · simp [h]

/-- C6 counterexample: forty letters z pass construction although z is not a
hexadecimal digit, refuting the claimed all-hex requirement. -/
theorem C6_counterexample :
    (encodedSha_from_str (List.replicate 40 'z')).isSome = true ∧
      (List.replicate 40 'z').all isHexCh = false ∧
      (List.replicate 40 'z').length = 40 := by
  refine ⟨by decide, by decide, by decide⟩

theorem foldlM_append_opt {α β : Type} (f : β → α → Option β) :
    ∀ (l1 l2 : List α) (b : β),
    (l1 ++ l2).foldlM f b = (l1.foldlM f b).bind fun b2 => l2.foldlM f b2 := by
  intro l1
  induction l1 with
  | nil => intro l2 b; rfl
  | cons x xs ih =>
    intro l2 b
    rw [List.cons_append, List.foldlM_cons, List.foldlM_cons]
    cases hfx : f b x with
    | none => rfl
    | some b2 =>
      show (xs ++ l2).foldlM f b2 = ((xs.foldlM f b2).bind fun b3 => l2.foldlM f b3)
      exact ih l2 b2

theorem joinSep_cons_ne_nil (c : Char) (x : Str) (ls : List Str) (h : ls ≠ []) :
    joinSep c (x :: ls) = x ++ c :: joinSep c ls := by
  cases ls with
  | nil => exact absurd rfl h
  | cons y ys => exact joinSep_cons_cons c x y ys

theorem joinSep_splitCh (c : Char) : ∀ (l : Str), joinSep c (splitCh c l) = l := by
  intro l
  induction l with
  | nil => rfl
  | cons x xs ih =>
    by_cases hx : x = c
    · subst hx
      rw [splitCh_cons_sep, joinSep_cons_ne_nil _ _ _ (splitCh_ne_nil x xs), ih]
      rfl
    · rw [splitCh_cons_ne c x xs hx]
      cases hs : splitCh c xs with
      | nil => exact absurd hs (splitCh_ne_nil c xs)
      | cons y ys =>
        show joinSep c ((x :: y) :: ys) = x :: xs
        cases ys with
        | nil =>
          show x :: y = x :: xs
          have hy : y = xs := by
            have h2 : joinSep c (splitCh c xs) = xs := ih
            rw [hs] at h2
            exact h2
          rw [hy]
        | cons z zs =>
          rw [joinSep_cons_cons]
          have h2 : joinSep c (splitCh c xs) = xs := ih
          rw [hs, joinSep_cons_cons] at h2
          show x :: (y ++ c :: joinSep c (z :: zs)) = x :: xs
          rw [h2]

theorem flatten_map_sep (c : Char) : ∀ (ls : List Str), ls ≠ [] →
    (ls.map fun l => l ++ [c]).flatten = joinSep c ls ++ [c] := by
  intro ls
  induction ls with
  | nil => intro h; exact absurd rfl h
  | cons x xs ih =>
    intro _
    cases xs with
    | nil => simp [joinSep]
    | cons y ys =>
      rw [List.map_cons, List.flatten_cons, ih (by simp), joinSep_cons_cons]
      simp

theorem splitCh_no_sep (c : Char) : ∀ (l : Str), ∀ p ∈ splitCh c l, c ∉ p := by
  intro l
  induction l with
  | nil =>
    intro p hp
    have hpe : p = [] := by simpa [splitCh_nil] using hp
    simp [hpe]
  | cons x xs ih =>
    intro p hp
    by_cases hx : x = c
    · subst hx
      rw [splitCh_cons_sep] at hp
      rcases List.mem_cons.mp hp with h | h
      · simp [h]
      · exact ih p h
    · rw [splitCh_cons_ne c x xs hx] at hp
      cases hs : splitCh c xs with
      | nil => exact absurd hs (splitCh_ne_nil c xs)
      | cons y ys =>
        rw [hs] at hp
        rcases List.mem_cons.mp hp with h | h
        · have hy : y ∈ splitCh c xs := by
            rw [hs]
            exact List.mem_cons_self _ _
          have hyn := ih y hy
          intro hc
          rw [h] at hc
          rcases List.mem_cons.mp hc with h2 | h2
          · exact hx h2.symm
          · exact hyn h2
        · exact ih p (by rw [hs]; exact List.mem_cons_of_mem _ h)

theorem stripPre_head_ne (a b : Char) (ps l : Str) (h : ¬ a = b) :
    stripPre (a :: ps) (b :: l) = none := by
  simp [stripPre, h]

/-- The fixed author and committer used by the commit round-trip claim. -/
def auth0 : Author := ⟨strOf "A", strOf "a@b", strOf "0", strOf "+0000"⟩

theorem parse_author_auth0 : parse_author (authorStr auth0) = some auth0 := by
  decide

theorem pcStep_tree (st : PCState) (T : Str) (hin : st.in_message = false) :
    pcStep st (strOf "tree " ++ T) = some { st with tree := some T } := by
  simp [pcStep, hin, stripPre, strOf]

theorem pcStep_parent (st : PCState) (p : Str) (hin : st.in_message = false) :
    pcStep st (strOf "parent " ++ p) =
      some { st with parents := st.parents ++ [p] } := by
  simp [pcStep, hin, stripPre, strOf]

theorem pcStep_author (st : PCState) (a : Str) (au : Author)
    (hin : st.in_message = false) (hpa : parse_author a = some au) :
    pcStep st (strOf "author " ++ a) = some { st with author := some au } := by
  simp [pcStep, hin, stripPre, hpa, strOf]

theorem pcStep_committer (st : PCState) (a : Str) (au : Author)
    (hin : st.in_message = false) (hpa : parse_author a = some au) :
    pcStep st (strOf "committer " ++ a) =
      some { st with committer := some au } := by
  simp [pcStep, hin, stripPre, hpa, strOf]

theorem pcStep_blank (st : PCState) :
    pcStep st [] = some { st with in_message := true } := rfl

theorem pcStep_msg (st : PCState) (l : Str) (hl : l ≠ [])
    (hin : st.in_message = true) :
    pcStep st l = some { st with message := st.message ++ l ++ ['\n'] } := by
  simp [pcStep, hl, hin]

theorem pc_fold_parents (ps : List Str) : ∀ (st : PCState),
    st.in_message = false →
    (ps.map fun p => strOf "parent " ++ p).foldlM pcStep st =
      some { st with parents := st.parents ++ ps } := by
  induction ps with
  | nil =>
    intro st _
    show some st = _
    simp
  | cons p ps ih =>
    intro st hin
    rw [List.map_cons, List.foldlM_cons, pcStep_parent st p hin]
    show (ps.map _).foldlM pcStep { st with parents := st.parents ++ [p] } = _
    rw [ih { st with parents := st.parents ++ [p] } hin]
    simp

theorem pc_fold_msg (pieces : List Str) (hne : ∀ l ∈ pieces, l ≠ []) :
    ∀ (st : PCState), st.in_message = true →
    pieces.foldlM pcStep st =
      some { st with
        message := st.message ++ (pieces.map fun l => l ++ ['\n']).flatten } := by
  induction pieces with
  | nil =>
    intro st _
    show some st = _
    simp
  | cons l ls ih =>
    intro st hin
    rw [List.foldlM_cons, pcStep_msg st l (hne l (List.mem_cons_self _ _)) hin]
    show ls.foldlM pcStep { st with message := st.message ++ l ++ ['\n'] } = _
    rw [ih (fun q hq => hne q (List.mem_cons_of_mem _ hq))
      { st with message := st.message ++ l ++ ['\n'] } hin]
    simp

theorem joinSep_parents (ps : List Str) (tail : List Str) (htail : tail ≠ []) :
    joinSep '\n' ((ps.map fun p => strOf "parent " ++ p) ++ tail) =
      (ps.map fun p => strOf "parent " ++ p ++ ['\n']).flatten ++
        joinSep '\n' tail := by
  induction ps with
  | nil => simp
  | cons p ps ih =>
    rw [List.map_cons, List.cons_append,
      joinSep_cons_ne_nil '\n' _ _ (by simp [htail]), ih]
    simp

/-- The line list of a commit payload, as Rust str::lines sees it for a
message with no blank lines and no trailing newline. -/
def commitLineList (c : Commit) : List Str :=
  (strOf "tree " ++ c.tree_sha) ::
    ((c.parents.map fun p => strOf "parent " ++ p) ++
      ([strOf "author " ++ authorStr c.author,
        strOf "committer " ++ authorStr c.committer, []] ++
        splitCh '\n' c.message))

theorem commitContent_eq (c : Commit) :
    commitContent c = joinSep '\n' (commitLineList c) := by
  unfold commitContent commitLineList
  rw [joinSep_cons_ne_nil '\n' _ _ (by simp),
    joinSep_parents c.parents _ (by simp),
    List.cons_append, joinSep_cons_ne_nil '\n' _ _ (by simp),
    List.cons_append, joinSep_cons_ne_nil '\n' _ _ (by simp),
    List.cons_append, List.nil_append,
    joinSep_cons_ne_nil '\n' _ _ (splitCh_ne_nil '\n' c.message),
    joinSep_splitCh]
  simp

/-- Message shape for which the commit codec round trips: every line
non-empty and not ending in a carriage return, and the last character not
whitespace. -/
def msgOk (msg : Str) : Bool :=
  (splitCh '\n' msg).all
      (fun l => !l.isEmpty && decide (l.getLast? ≠ some '\r')) &&
    !isWsCh ((msg.getLast?).getD 'x')

theorem msgOk_props (msg : Str) (h : msgOk msg = true) :
    (∀ l ∈ splitCh '\n' msg, l ≠ []) ∧
      (∀ l ∈ splitCh '\n' msg, l.getLast? ≠ some '\r') ∧
      (∀ c, msg.getLast? = some c → isWsCh c = false) := by
  unfold msgOk at h
  simp only [Bool.and_eq_true] at h
  have hall := List.all_eq_true.mp h.1
  refine ⟨?_, ?_, ?_⟩
  · intro l hl
    have h2 := hall l hl
    simp only [Bool.and_eq_true] at h2
    simpa using h2.1
  · intro l hl
    have h2 := hall l hl
    simp only [Bool.and_eq_true, decide_eq_true_eq] at h2
    exact h2.2
  · intro c hc
    have h2 := h.2
    rw [hc] at h2
    simpa using h2

theorem hex_ne_nl (c : Char) (h : isHexCh c = true) : c ≠ '\n' :=
  (hex_no_ctl c h).1

theorem hex_ne_cr (c : Char) (h : isHexCh c = true) : c ≠ '\r' := by
  intro he
  have hws := (hex_no_ctl c h).2.2.2.2.2
  rw [he] at hws
  exact absurd hws (by decide)

theorem parse_commit_content_round (T : Str) (parents : List Str) (msg : Str)
    (hT : isHex40 T = true) (hp : ∀ p ∈ parents, isHex40 p = true)
    (hm : msgOk msg = true) :
    parse_commit_content (commitContent ⟨T, parents, auth0, auth0, msg⟩) =
      some ⟨T, parents, auth0, auth0, msg⟩ := by
  obtain ⟨hpne, hpcr, hws⟩ := msgOk_props msg hm
  unfold parse_commit_content
  rw [commitContent_eq]
  rw [show commitLineList ⟨T, parents, auth0, auth0, msg⟩ =
    (strOf "tree " ++ T) ::
      ((parents.map fun p => strOf "parent " ++ p) ++
        ([strOf "author " ++ authorStr auth0,
          strOf "committer " ++ authorStr auth0, []] ++
          splitCh '\n' msg)) from rfl]
  rw [rustLines_joinSep _ (by simp) ?hnl ?hlast ?hcr]
  case hnl =>
    intro l hl
    rcases List.mem_cons.mp hl with hl | hl
    · rw [hl]
      intro hmem
      rcases List.mem_append.mp hmem with h | h
      · exact absurd h (by decide)
      · exact absurd rfl (hex_ne_nl _ (hex40_all T hT _ h))
    · rcases List.mem_append.mp hl with hl | hl
      · rcases List.mem_map.mp hl with ⟨p, hp1, hp2⟩
        rw [← hp2]
        intro hmem
        rcases List.mem_append.mp hmem with h | h
        · exact absurd h (by decide)
        · exact absurd rfl (hex_ne_nl _ (hex40_all p (hp p hp1) _ h))
      · rcases List.mem_append.mp hl with hl | hl
        · simp only [List.mem_cons, List.not_mem_nil, or_false] at hl
          rcases hl with h | h | h
          · rw [h]
            decide
          · rw [h]
            decide
          · rw [h]
            simp
        · exact splitCh_no_sep '\n' msg l hl
  case hlast =>
    intro h
    rw [show ((strOf "tree " ++ T) ::
        ((parents.map fun p => strOf "parent " ++ p) ++
          ([strOf "author " ++ authorStr auth0,
            strOf "committer " ++ authorStr auth0, []] ++
            splitCh '\n' msg)) : List Str) =
      [strOf "tree " ++ T] ++
        ((parents.map fun p => strOf "parent " ++ p) ++
          ([strOf "author " ++ authorStr auth0,
            strOf "committer " ++ authorStr auth0, []] ++
            splitCh '\n' msg)) from rfl,
      List.getLast?_append_of_ne_nil _ (by simp),
      List.getLast?_append_of_ne_nil _ (by simp),
      List.getLast?_append_of_ne_nil _ (splitCh_ne_nil '\n' msg)] at h
    exact hpne [] (mem_of_getLast?_any _ [] h) rfl
  case hcr =>
    intro l hl
    rcases List.mem_cons.mp hl with hl | hl
    · rw [hl, List.getLast?_append_of_ne_nil _ (hex40_ne_nil T hT)]
      intro hg
      exact absurd rfl (hex_ne_cr _ (hex40_all T hT _ (mem_of_getLast?_any _ _ hg)))
    · rcases List.mem_append.mp hl with hl | hl
      · rcases List.mem_map.mp hl with ⟨p, hp1, hp2⟩
        rw [← hp2, List.getLast?_append_of_ne_nil _ (hex40_ne_nil p (hp p hp1))]
        intro hg
        exact absurd rfl
          (hex_ne_cr _ (hex40_all p (hp p hp1) _ (mem_of_getLast?_any _ _ hg)))
      · rcases List.mem_append.mp hl with hl | hl
        · simp only [List.mem_cons, List.not_mem_nil, or_false] at hl
          rcases hl with h | h | h
          · rw [h]
            decide
          · rw [h]
            decide
          · rw [h]
            simp
        · exact hpcr l hl
  rw [List.foldlM_cons, pcStep_tree _ T rfl]
  show (match ((parents.map fun p => strOf "parent " ++ p) ++
      ([strOf "author " ++ authorStr auth0,
        strOf "committer " ++ authorStr auth0, []] ++
        splitCh '\n' msg)).foldlM pcStep
      ⟨some T, [], none, none, [], false⟩ with
    | none => none
    | some st =>
      match st.tree, st.author, st.committer with
      | some t, some a, some cm => some ⟨t, st.parents, a, cm, trimEnd st.message⟩
      | _, _, _ => none : Option Commit) = _
  rw [foldlM_append_opt,
    pc_fold_parents parents ⟨some T, [], none, none, [], false⟩ rfl]
  show (match ([strOf "author " ++ authorStr auth0,
      strOf "committer " ++ authorStr auth0, []] ++
        splitCh '\n' msg).foldlM pcStep
      ⟨some T, parents, none, none, [], false⟩ with
    | none => none
    | some st =>
      match st.tree, st.author, st.committer with
      | some t, some a, some cm => some ⟨t, st.parents, a, cm, trimEnd st.message⟩
      | _, _, _ => none : Option Commit) = _
  rw [List.cons_append, List.foldlM_cons,
    pcStep_author _ _ auth0 rfl parse_author_auth0]
  show (match ([strOf "committer " ++ authorStr auth0, []] ++
        splitCh '\n' msg).foldlM pcStep
      ⟨some T, parents, some auth0, none, [], false⟩ with
    | none => none
    | some st =>
      match st.tree, st.author, st.committer with
      | some t, some a, some cm => some ⟨t, st.parents, a, cm, trimEnd st.message⟩
      | _, _, _ => none : Option Commit) = _
  rw [List.cons_append, List.foldlM_cons,
    pcStep_committer _ _ auth0 rfl parse_author_auth0]
  show (match (([] : Str) :: splitCh '\n' msg).foldlM pcStep
      ⟨some T, parents, some auth0, some auth0, [], false⟩ with
    | none => none
    | some st =>
      match st.tree, st.author, st.committer with
      | some t, some a, some cm => some ⟨t, st.parents, a, cm, trimEnd st.message⟩
      | _, _, _ => none : Option Commit) = _
  rw [List.foldlM_cons, pcStep_blank]
  show (match (splitCh '\n' msg).foldlM pcStep
      ⟨some T, parents, some auth0, some auth0, [], true⟩ with
    | none => none
    | some st =>
      match st.tree, st.author, st.committer with
      | some t, some a, some cm => some ⟨t, st.parents, a, cm, trimEnd st.message⟩
      | _, _, _ => none : Option Commit) = _
  rw [pc_fold_msg (splitCh '\n' msg) hpne _ rfl]
  show (some ⟨T, parents, auth0, auth0,
    trimEnd ([] ++ ((splitCh '\n' msg).map fun l => l ++ ['\n']).flatten)⟩ :
      Option Commit) = _
  rw [List.nil_append, flatten_map_sep '\n' _ (splitCh_ne_nil '\n' msg),
    joinSep_splitCh, trimEnd_append_ws msg '\n' (by decide),
    trimEnd_of_no_trail msg hws]

/-- C9: for a commit with the fixed author and committer, a 40-hex tree
digest, 40-hex parent digests, and a message whose lines are non-empty, do
not end in carriage returns, and whose last character is not whitespace,
decoding the canonical encoding recovers the commit exactly. -/
theorem C9_commit_round_trip (T : Str) (parents : List Str) (msg : Str)
    (hT : isHex40 T = true) (hp : ∀ p ∈ parents, isHex40 p = true)
    (hm : msgOk msg = true) :
    commitDeserialize (commitSerialize ⟨T, parents, auth0, auth0, msg⟩) =
      some ⟨T, parents, auth0, auth0, msg⟩ := by
  unfold commitSerialize commitDeserialize
  rw [show strOf "commit " ++
      natStr (strBytes (commitContent ⟨T, parents, auth0, auth0, msg⟩)) ++
      [Char.ofNat 0] ++ commitContent ⟨T, parents, auth0, auth0, msg⟩ =
    (strOf "commit " ++
      natStr (strBytes (commitContent ⟨T, parents, auth0, auth0, msg⟩))) ++
      (Char.ofNat 0) :: commitContent ⟨T, parents, auth0, auth0, msg⟩ from by simp]
  rw [splitOnce_append (Char.ofNat 0) _ _ ?hnul]
  case hnul =>
    intro hm2
    rcases List.mem_append.mp hm2 with h | h
    · exact absurd h (by decide)
    · exact absurd ((natStr_no_ctl _ _ h).2.1) (fun h2 => h2 rfl)
  rw [show strOf "commit " ++
      natStr (strBytes (commitContent ⟨T, parents, auth0, auth0, msg⟩)) =
    strOf "commit" ++
      ' ' :: natStr (strBytes (commitContent ⟨T, parents, auth0, auth0, msg⟩)) from by
      rw [show strOf "commit " = strOf "commit" ++ [' '] from by decide]
      simp]
  simp only []
  rw [splitOnce_append ' ' _ _ (by decide)]
  simp only []
  rw [if_neg (by simp), parseNat_natStr]
  simp only []
  rw [if_neg (by simp)]
  exact parse_commit_content_round T parents msg hT hp hm

/-- C9 witness: the round trip at a concrete commit with one parent and the
message hi. -/
theorem C9_commit_round_trip_witness :
    isHex40 sha40a = true ∧ (∀ p ∈ [sha40b], isHex40 p = true) ∧
      msgOk (strOf "hi") = true ∧
      commitDeserialize (commitSerialize ⟨sha40a, [sha40b], auth0, auth0,
          strOf "hi"⟩) =
        some ⟨sha40a, [sha40b], auth0, auth0, strOf "hi"⟩ :=
  ⟨by decide, by decide, by decide,
    C9_commit_round_trip sha40a [sha40b] (strOf "hi") (by decide) (by decide)
      (by decide)⟩

/-- C9 counterexample: a message containing a blank line does not survive
the round trip: the blank line is dropped by the parser, contradicting the
claim that any message is recovered verbatim. -/
theorem C9_counterexample :
    commitDeserialize (commitSerialize ⟨sha40a, [], auth0, auth0,
        strOf "a" ++ ['\n', '\n'] ++ strOf "b"⟩) =
      some ⟨sha40a, [], auth0, auth0, strOf "a" ++ ['\n'] ++ strOf "b"⟩ ∧
      (strOf "a" ++ ['\n'] ++ strOf "b" : Str) ≠
        strOf "a" ++ ['\n', '\n'] ++ strOf "b" := by
  refine ⟨by decide, by decide⟩

/-- A third 40-character hex digest for concrete instances. -/
def sha40c : Str := List.replicate 40 'c'

/-- HEAD state: a symbolic reference to a branch path, or a detached commit
digest. -/
inductive Head where
  | symbolic : Str → Head
  | detached : Str → Head
deriving DecidableEq, Repr

/-- The on-disk state of a repository as the checkout and commit operations
see it: the object database, the HEAD file, the branch files keyed by branch
name, the index file, and the working tree keyed by repo-relative path. -/
structure RepoSt where
  db : DB
  headFile : Option Str
  branchFiles : Str → Option Str
  indexFile : Option Str
  work : Str → Option Str

/-- Rust Path::file_name on the stored slash-separated path. -/
def fileName (p : Str) : Str := ((splitCh '/' p).getLast?).getD []

/-- Head::load: trim, strip the symbolic prefix, otherwise parse a digest. -/
def head_load (content : Str) : Option Head :=
  match stripPre (strOf "ref: ") (trimBoth content) with
  | some stripped => some (.symbolic stripped)
  | none =>
    match encodedSha_from_str (trimBoth content) with
    | some sha => some (.detached sha)
    | none => none

/-- Repository::get_head. -/
def get_head (st : RepoSt) : Option Head :=
  match st.headFile with
  | none => none
  | some content => head_load content

/-- Branch::load through Repository::load_branch: the outer none is a
missing branch file; the inner option is the parsed commit digest (the No
commit marker fails the digest parse and yields none). -/
def branch_load (st : RepoSt) (name : Str) : Option (Option Str) :=
  match st.branchFiles name with
  | none => none
  | some content => some (encodedSha_from_str (trimBoth content))

/-- Outcome of read_branch_to_index: a process exit with code 1, a panic
from an unwrap, or the rebuilt index. -/
inductive RBResult where
  | panicked : RBResult
  | exited1 : RBResult
  | idx : Index → RBResult

/-- Repository::read_branch_to_index: missing branch exits 1, a branch
without commit yields the empty index, otherwise the commit is loaded and
its tree read back into an index (failures of retrieve and deserialize are
unwrap panics; a read_tree error exits 1). -/
def read_branch_to_index (st : RepoSt) (fuel : Nat) (name : Str) : RBResult :=
  match branch_load st name with
  | none => .exited1
  | some none => .idx Index.new
  | some (some csha) =>
    match db_retrieve st.db csha with
    | none => .panicked
    | some cdata =>
      match commitDeserialize cdata with
      | none => .panicked
      | some commit =>
        match read_tree st.db fuel commit.tree_sha with
        | none => .exited1
        | some idx => .idx idx

/-- Difference status of one path between two indexes. -/
inductive IndexDiffType where
  | LeftOnly : IndexDiffType
  | RightOnly : IndexDiffType
  | Modified : IndexDiffType
  | Unmodified : IndexDiffType
deriving DecidableEq, Repr

/-- Repository::diff_index: left entries are LeftOnly unless also on the
right (then Modified or Unmodified by digest comparison); right entries
absent from the left are RightOnly. -/
def diff_index (lhs rhs : Index) : List (Str × IndexDiffType) :=
  (lhs.collect_entries.map fun e =>
    (e.1,
      match rhs.get_sha1 e.1 with
      | none => IndexDiffType.LeftOnly
      | some _ =>
        if lhs.get_sha1 e.1 = rhs.get_sha1 e.1 then IndexDiffType.Unmodified
        else IndexDiffType.Modified)) ++
  ((rhs.collect_entries.filter fun e => (lhs.get_sha1 e.1).isNone).map
    fun e => (e.1, IndexDiffType.RightOnly))

/-- Outcome of checkout and checkout_index: a process exit carrying the exit
code and the state at that moment, a panic, or normal completion. -/
inductive CResult where
  | exited : Nat → RepoSt → CResult
  | panicked : CResult
  | ok : RepoSt → CResult

/-- The second loop of checkout_index: deletions for LeftOnly, blob writes
for RightOnly and Modified (a retrieve or decode failure exits 1),
Unmodified untouched. -/
def applyDiff (st : RepoSt) (target : Index) :
    List (Str × IndexDiffType) → CResult
  | [] => .ok st
  | e :: rest =>
    match e.2 with
    | .LeftOnly =>
      applyDiff
        { st with work := fun p => if p = e.1 then none else st.work p }
        target rest
    | .Unmodified => applyDiff st target rest
    | _ =>
      match target.get_sha1 e.1 with
      | none => applyDiff st target rest
      | some sha =>
        match db_retrieve st.db sha with
        | none => .exited 1 st
        | some blob_data =>
          match blobDeserialize blob_data with
          | none => .exited 1 st
          | some data =>
            applyDiff
              { st with work := fun p => if p = e.1 then some data else st.work p }
              target rest

/-- Repository::checkout_index: resolve HEAD (a detached HEAD hits todo and
panics), rebuild the current commit index, and check every RightOnly path
for an existing working-tree file before applying any change; a hit exits 1
with the state untouched. -/
def checkout_index (st : RepoSt) (fuel : Nat) (target : Index) : CResult :=
  match get_head st with
  | none => .panicked
  | some (.detached _) => .panicked
  | some (.symbolic p) =>
    match read_branch_to_index st fuel (fileName p) with
    | .panicked => .panicked
    | .exited1 => .exited 1 st
    | .idx cur =>
      if (diff_index cur target).any fun e =>
          decide (e.2 = IndexDiffType.RightOnly) && (st.work e.1).isSome
      then .exited 1 st
      else applyDiff st target (diff_index cur target)

/-- Repository::checkout: a missing branch exits 1, checking out the current
branch exits 0, otherwise the target index is rebuilt, the working tree
updated through checkout_index, and only then the index file and HEAD are
saved. -/
def checkout (st : RepoSt) (fuel : Nat) (name : Str) : CResult :=
  match branch_load st name with
  | none => .exited 1 st
  | some _ =>
    if (match get_head st with
        | some (.symbolic p) => decide (fileName p = name)
        | _ => false)
    then .exited 0 st
    else
      match read_branch_to_index st fuel name with
      | .panicked => .panicked
      | .exited1 => .exited 1 st
      | .idx target =>
        match checkout_index st fuel target with
        | .ok st2 =>
          .ok { st2 with
            indexFile := some (Index.save target),
            headFile :=
              some (strOf "ref: " ++ (strOf "refs/heads/" ++ name) ++ ['\n']) }
        | r => r

/-- C7 (amended to a parseable symbolic HEAD on another branch): when the
target of a checkout brings in a RightOnly path for which a working-tree
file exists, checkout exits with code 1 carrying the state exactly as it
was: no working-tree write or delete, no index save, no HEAD save. A
detached HEAD instead panics in a todo branch before the guard. -/
theorem C7_checkout_untracked_guard (st : RepoSt) (fuel : Nat)
    (bname hp : Str) (bsha : Option Str) (target cur : Index)
    (hb : branch_load st bname = some bsha)
    (hh : get_head st = some (.symbolic hp))
    (hne : fileName hp ≠ bname)
    (ht : read_branch_to_index st fuel bname = .idx target)
    (hc : read_branch_to_index st fuel (fileName hp) = .idx cur)
    (hx : ∃ pr ∈ diff_index cur target,
      pr.2 = IndexDiffType.RightOnly ∧ (st.work pr.1).isSome = true) :
    checkout st fuel bname = .exited 1 st := by
  have hci : checkout_index st fuel target = .exited 1 st := by
    unfold checkout_index
    rw [hh]
    simp only []
    rw [hc]
    simp only []
    rw [if_pos ?hcnd]
    case hcnd =>
      refine List.any_eq_true.mpr ?_
      obtain ⟨pr, hmem, h1, h2⟩ := hx
      exact ⟨pr, hmem, by simp [h1, h2]⟩
  unfold checkout
  rw [hb]
  simp only []
  rw [if_neg (by rw [hh]; simp [hne]), ht]
  simp only []
  rw [hci]

/-- Concrete tree object for the C7 witness. -/
def c7tree : TreeMap := [(strOf "f", ⟨.blob, sha40c, strOf "f"⟩)]

/-- Concrete parent commit for the C7 witness, whose tree digest names the
stored tree object. -/
def c7commit : Commit := ⟨sha40b, [], auth0, auth0, strOf "m"⟩

/-- Concrete repository state for the C7 witness: branch feat holds a commit
with one file f, branch master has no commit, HEAD is on master, and an
untracked file f sits in the working tree. -/
def c7st : RepoSt :=
  ⟨fun k =>
    if k = dbKey sha40a then some (commitSerialize c7commit)
    else if k = dbKey sha40b then some (treeSerialize c7tree)
    else none,
   some (strOf "ref: refs/heads/master" ++ ['\n']),
   fun n =>
    if n = strOf "feat" then some sha40a
    else if n = strOf "master" then some (strOf "No commit")
    else none,
   none,
   fun p => if p = strOf "f" then some (strOf "x") else none⟩

/-- The index the C7 witness target branch denotes. -/
def c7target : Index :=
  ⟨.mk (.cons (strOf "f") (.mk .nil (some sha40c)) .nil) none, 1⟩

/-- C7 witness: checking out feat over an untracked file f exits 1 with the
state untouched. -/
theorem C7_checkout_untracked_guard_witness :
    branch_load c7st (strOf "feat") = some (some sha40a) ∧
      get_head c7st = some (.symbolic (strOf "refs/heads/master")) ∧
      fileName (strOf "refs/heads/master") ≠ strOf "feat" ∧
      read_branch_to_index c7st 2 (strOf "feat") = .idx c7target ∧
      read_branch_to_index c7st 2 (fileName (strOf "refs/heads/master")) =
        .idx Index.new ∧
      checkout c7st 2 (strOf "feat") = .exited 1 c7st :=
  ⟨rfl, rfl, by decide, rfl, rfl,
    C7_checkout_untracked_guard c7st 2 (strOf "feat")
      (strOf "refs/heads/master") (some sha40a) c7target Index.new
      rfl rfl (by decide) rfl rfl
      ⟨(strOf "f", .RightOnly), by decide, rfl, rfl⟩⟩

/-- A fourth 40-character hex digest for concrete instances. -/
def sha40d : Str := List.replicate 40 'd'

/-- A fifth 40-character hex digest for concrete instances. -/
def sha40e : Str := List.replicate 40 'e'

/-- The commit a detached HEAD points at in the C7 counterexample: its tree
is the stored empty tree object. -/
def c7dcommit : Commit := ⟨sha40d, [], auth0, auth0, strOf "m"⟩

/-- Concrete repository state for the C7 counterexample: HEAD is detached at
a commit with an empty tree, branch feat holds a commit with one file f, and
an untracked file f sits in the working tree. -/
def c7dst : RepoSt :=
  ⟨fun k =>
    if k = dbKey sha40a then some (commitSerialize c7commit)
    else if k = dbKey sha40b then some (treeSerialize c7tree)
    else if k = dbKey sha40e then some (commitSerialize c7dcommit)
    else if k = dbKey sha40d then some (treeSerialize ([] : TreeMap))
    else none,
   some sha40e,
   fun n => if n = strOf "feat" then some sha40a else none,
   none,
   fun p => if p = strOf "f" then some (strOf "x") else none⟩

/-- C7 counterexample: with a detached HEAD whose commit tree is empty, the
target branch introduces the RightOnly path f blocked by an existing
working-tree file, yet checkout does not fail with the untracked-file
error: it panics in the todo branch of checkout_index before the guard. -/
theorem C7_counterexample :
    get_head c7dst = some (.detached sha40e) ∧
      read_branch_to_index c7dst 2 (strOf "feat") = .idx c7target ∧
      (db_retrieve c7dst.db sha40e = some (commitSerialize c7dcommit) ∧
        read_tree c7dst.db 2 c7dcommit.tree_sha = some Index.new) ∧
      (∃ pr ∈ diff_index Index.new c7target,
        pr.2 = IndexDiffType.RightOnly ∧ (c7dst.work pr.1).isSome = true) ∧
      checkout c7dst 2 (strOf "feat") = .panicked :=
  ⟨rfl, rfl, ⟨rfl, rfl⟩,
    ⟨(strOf "f", .RightOnly), by decide, rfl, rfl⟩, rfl⟩

/-- Outcome of the commit operation: a process exit carrying the exit code
and state, a panic, or success carrying the new commit digest and state. -/
inductive CommitResult where
  | exited : Nat → RepoSt → CommitResult
  | panicked : CommitResult
  | ok : Str → RepoSt → CommitResult

/-- The parent digest Repository::get_current_commit resolves for a parsed
HEAD: follow the branch pointer for a symbolic HEAD, or the digest itself
when detached. -/
def headParentSha (st : RepoSt) (h : Head) : Option Str :=
  match h with
  | .symbolic p =>
    match branch_load st (fileName p) with
    | none => none
    | some cs => cs
  | .detached sha => some sha

/-- Repository::commit_tree followed by update_head: build the commit with
the fixed author, store it, then update the branch pointer (symbolic HEAD,
which is re-saved) or write the digest into HEAD (detached). -/
def commit_finish (st : RepoSt) (tree : Str) (parents : List Str)
    (au : Author) (msg : Str) : CommitResult :=
  match get_head st with
  | none => .panicked
  | some (.symbolic p) =>
    .ok (db_store st.db (commitSerialize ⟨tree, parents, au, au, msg⟩)).1
      { st with
        db := (db_store st.db (commitSerialize ⟨tree, parents, au, au, msg⟩)).2,
        branchFiles := fun n =>
          if n = fileName p
          then some (db_store st.db
            (commitSerialize ⟨tree, parents, au, au, msg⟩)).1
          else st.branchFiles n,
        headFile := some (strOf "ref: " ++ p ++ ['\n']) }
  | some (.detached _) =>
    .ok (db_store st.db (commitSerialize ⟨tree, parents, au, au, msg⟩)).1
      { st with
        db := (db_store st.db (commitSerialize ⟨tree, parents, au, au, msg⟩)).2,
        headFile :=
          some (db_store st.db (commitSerialize ⟨tree, parents, au, au, msg⟩)).1 }

/-- Repository::commit: an empty message prints and exits 0 before anything
else; otherwise the index is loaded and its tree written (object stores
happen here), the parent commit is resolved, and when the parent's tree
digest equals the written tree the operation prints and exits 0; otherwise
the commit object is created and HEAD updated. -/
def commitOp (st : RepoSt) (au : Author) (msg : Str) : CommitResult :=
  if msg = [] then .exited 0 st
  else
    match st.indexFile with
    | none => .panicked
    | some content =>
      match Index.load content with
      | none => .panicked
      | some idx =>
        match get_head st with
        | none => .panicked
        | some h =>
          match headParentSha st h with
          | some psha =>
            match db_retrieve (write_tree_impl st.db idx.root).2 psha with
            | none => .panicked
            | some cdata =>
              match commitDeserialize cdata with
              | none => .panicked
              | some pc =>
                if (write_tree_impl st.db idx.root).1 = pc.tree_sha then
                  .exited 0 { st with db := (write_tree_impl st.db idx.root).2 }
                else
                  commit_finish { st with db := (write_tree_impl st.db idx.root).2 }
                    (write_tree_impl st.db idx.root).1 [psha] au msg
          | none =>
            commit_finish { st with db := (write_tree_impl st.db idx.root).2 }
              (write_tree_impl st.db idx.root).1 [] au msg

/-- C10: an empty commit message exits with code 0 leaving the state
untouched, and a commit whose written tree equals the parent commit's tree
exits with code 0 as well, the object database alone extended by the tree
objects write_tree already stored. -/
theorem C10_commit_exit_zero (st : RepoSt) (au : Author) (msg content : Str)
    (idx : Index) (h : Head) (psha cdata : Str) (pc : Commit)
    (hmsg : msg ≠ [])
    (hif : st.indexFile = some content)
    (hload : Index.load content = some idx)
    (hh : get_head st = some h)
    (hpar : headParentSha st h = some psha)
    (hret : db_retrieve (write_tree_impl st.db idx.root).2 psha = some cdata)
    (hdec : commitDeserialize cdata = some pc)
    (heq : (write_tree_impl st.db idx.root).1 = pc.tree_sha) :
    commitOp st au msg =
      .exited 0 { st with db := (write_tree_impl st.db idx.root).2 } ∧
    commitOp st au [] = .exited 0 st := by
  constructor
  · unfold commitOp
    rw [if_neg hmsg, hif]
    simp only []
    rw [hload]
    simp only []
    rw [hh]
    simp only []
    rw [hpar]
    simp only []
    rw [hret]
    simp only []
    rw [hdec]
    simp only []
    rw [if_pos heq]
  · unfold commitOp
    rw [if_pos rfl]

/-- Concrete index children for C10: one file f. -/
def c10m : NodeMap := .cons (strOf "f") (.mk .nil (some sha40c)) .nil

/-- The tree digest commit writes for the C10 index. -/
def c10tree : Str := sha1Hex (treeBytesOf c10m)

/-- The concrete parent commit for C10, already at that tree. -/
def c10pc : Commit := ⟨c10tree, [], auth0, auth0, strOf "m"⟩

/-- Concrete repository state for C10: HEAD on master, master at the parent
commit, the index file tracking exactly the parent's tree. -/
def c10st : RepoSt :=
  ⟨fun k => if k = dbKey sha40a then some (commitSerialize c10pc) else none,
   some (strOf "ref: refs/heads/master" ++ ['\n']),
   fun n => if n = strOf "master" then some sha40a else none,
   some (strOf "f " ++ sha40c),
   fun _ => none⟩

/-- The index the C10 index file holds. -/
def c10idx : Index := ⟨.mk c10m none, 1⟩

/-- C10 witness: at the concrete no-changes state, a non-empty commit
message exits 0 with only the object database extended, and an empty
message exits 0 with nothing changed. -/
theorem C10_commit_exit_zero_witness :
    (strOf "x" : Str) ≠ [] ∧
      commitOp c10st auth0 (strOf "x") =
        .exited 0 { c10st with db := (write_tree_impl c10st.db c10idx.root).2 } ∧
      commitOp c10st auth0 [] = .exited 0 c10st := by
  have h := C10_commit_exit_zero c10st auth0 (strOf "x") (strOf "f " ++ sha40c)
    c10idx (.symbolic (strOf "refs/heads/master")) sha40a
    (commitSerialize c10pc) c10pc (by decide) rfl rfl rfl rfl
    (by decide) (by decide) (by decide)
  exact ⟨by decide, h.1, h.2⟩

/-- C10 counterexample: invoking commit with an empty message terminates
through a process exit with code 0, not a nonzero code as claimed. -/
theorem C10_counterexample :
    commitOp c10st auth0 [] = .exited 0 c10st := rfl

theorem blobDeserialize_serialize (data : Str) :
    blobDeserialize (blobSerialize data) = some data := by
  unfold blobSerialize blobDeserialize
  rw [show strOf "blob " ++ natStr (strBytes data) ++ [Char.ofNat 0] ++ data =
    (strOf "blob " ++ natStr (strBytes data)) ++ (Char.ofNat 0) :: data from by
      simp]
  rw [splitOnce_append (Char.ofNat 0) _ _ ?hnul]
  case hnul =>
    intro hm
    rcases List.mem_append.mp hm with h | h
    · exact absurd h (by decide)
    · exact absurd ((natStr_no_ctl _ _ h).2.1) (fun h2 => h2 rfl)
  rw [show strOf "blob " ++ natStr (strBytes data) =
    strOf "blob" ++ ' ' :: natStr (strBytes data) from by
      rw [show strOf "blob " = strOf "blob" ++ [' '] from by decide]
      simp]
  simp only []
  rw [splitOnce_append ' ' _ _ (by decide)]
  simp only []
  rw [if_neg (by simp), parseNat_natStr]
  simp

theorem get_updated : ∀ (comps : List Str) (m : NodeMap) (sha : Str),
    comps ≠ [] →
    getChildren (updateChildren m comps sha).1 comps = some sha := by
  intro comps
  induction comps with
  | nil =>
    intro m sha h
    exact absurd rfl h
  | cons n rest ih =>
    intro m sha _
    cases rest with
    | nil =>
      show (nmapGet n (nmapInsert n (newFile sha) m)).bind
        (fun nd => nd.get_sha1) = some sha
      rw [nmapGet_insert_self]
      rfl
    | cons r1 rs =>
      show (match nmapGet n (nmapInsert n
          (.mk (updateChildren ((nmapGet n m).getD newDirectory).children
            (r1 :: rs) sha).1
            ((nmapGet n m).getD newDirectory).get_sha1) m) with
        | none => none
        | some child => getChildren child.children (r1 :: rs)) = some sha
      rw [nmapGet_insert_self]
      exact ih _ sha (by simp)

theorem update_get (idx : Index) (p sha : Str) (hp : splitNorm p ≠ []) :
    (idx.update_entry p sha).get_sha1 p = some sha := by
  unfold Index.update_entry Index.get_sha1
  simp only []
  rw [if_neg hp, if_neg hp]
  exact get_updated (splitNorm p) idx.root.children sha hp

/-- The conflict marker text handle_conflict_text builds: no newline is
emitted after either side, so a side not ending in a newline runs into the
following marker. -/
def conflict_text (cur branch : Str) : Str :=
  strOf "<<<<<<< HEAD" ++ ['\n'] ++ cur ++ strOf "=======" ++ ['\n'] ++
    branch ++ strOf ">>>>>>>"

/-- Repository::handle_conflict_text restricted to its persistent effects:
store the synthetic blob and point the index entry for the path at its
digest; returns the database, the index, and the digest. -/
def handle_conflict_text (db : DB) (idx : Index) (path cur branch : Str) :
    DB × Index × Str :=
  ((db_store db (blobSerialize (conflict_text cur branch))).2,
    idx.update_entry path
      (db_store db (blobSerialize (conflict_text cur branch))).1,
    (db_store db (blobSerialize (conflict_text cur branch))).1)

/-- C8: on a content conflict the stored synthetic blob decodes exactly to
the marker block with the current side first and the branch side second and
no newline inserted after either side, and the index maps the path to that
blob's digest. -/
theorem C8_conflict_blob (db : DB) (idx : Index) (path cur branch : Str)
    (hslot : db (dbKey (sha1Hex (blobSerialize (conflict_text cur branch)))) =
        none ∨
      db (dbKey (sha1Hex (blobSerialize (conflict_text cur branch)))) =
        some (blobSerialize (conflict_text cur branch)))
    (hpath : splitNorm path ≠ []) :
    (handle_conflict_text db idx path cur branch).2.2 =
      sha1Hex (blobSerialize (conflict_text cur branch)) ∧
    db_retrieve (handle_conflict_text db idx path cur branch).1
        ((handle_conflict_text db idx path cur branch).2.2) =
      some (blobSerialize (conflict_text cur branch)) ∧
    blobDeserialize (blobSerialize (conflict_text cur branch)) =
      some (conflict_text cur branch) ∧
    ((handle_conflict_text db idx path cur branch).2.1).get_sha1 path =
      some ((handle_conflict_text db idx path cur branch).2.2) := by
  refine ⟨db_store_fst _ _, ?_, blobDeserialize_serialize _, ?_⟩
  · show db_retrieve (db_store db (blobSerialize (conflict_text cur branch))).2
      (db_store db (blobSerialize (conflict_text cur branch))).1 = _
    rw [db_store_fst]
    exact retrieve_stored _ _ (db_store_self_good _ _ hslot)
  · exact update_get idx path _ hpath

/-- C8 witness: the conflict blob for sides D and F over the empty database
and empty index, indexed at a.txt. -/
theorem C8_conflict_blob_witness :
    ((fun _ => none : DB)
        (dbKey (sha1Hex (blobSerialize
          (conflict_text (strOf "D") (strOf "F"))))) = none ∧
      splitNorm (strOf "a.txt") ≠ []) ∧
    ((handle_conflict_text (fun _ => none) Index.new (strOf "a.txt")
          (strOf "D") (strOf "F")).2.2 =
        sha1Hex (blobSerialize (conflict_text (strOf "D") (strOf "F"))) ∧
      db_retrieve (handle_conflict_text (fun _ => none) Index.new
            (strOf "a.txt") (strOf "D") (strOf "F")).1
          ((handle_conflict_text (fun _ => none) Index.new (strOf "a.txt")
            (strOf "D") (strOf "F")).2.2) =
        some (blobSerialize (conflict_text (strOf "D") (strOf "F"))) ∧
      blobDeserialize (blobSerialize (conflict_text (strOf "D") (strOf "F"))) =
        some (conflict_text (strOf "D") (strOf "F")) ∧
      ((handle_conflict_text (fun _ => none) Index.new (strOf "a.txt")
          (strOf "D") (strOf "F")).2.1).get_sha1 (strOf "a.txt") =
        some ((handle_conflict_text (fun _ => none) Index.new (strOf "a.txt")
          (strOf "D") (strOf "F")).2.2)) :=
  ⟨⟨rfl, by decide⟩,
    C8_conflict_blob (fun _ => none) Index.new (strOf "a.txt") (strOf "D")
      (strOf "F") (Or.inl rfl) (by decide)⟩

/-- C8 counterexample: for sides D and F the built text glues each side to
the following marker, differing from the newline-terminated block the spec
shows for scenario S6. -/
theorem C8_counterexample :
    conflict_text (strOf "D") (strOf "F") =
      strOf "<<<<<<< HEAD" ++ ['\n'] ++ strOf "D=======" ++ ['\n'] ++
        strOf "F>>>>>>>" ∧
    conflict_text (strOf "D") (strOf "F") ≠
      strOf "<<<<<<< HEAD" ++ ['\n'] ++ strOf "D" ++ ['\n'] ++
        strOf "=======" ++ ['\n'] ++ strOf "F" ++ ['\n'] ++ strOf ">>>>>>>" := by
  refine ⟨by decide, by decide⟩

end GitJade
